import Mathlib

/-! Storage-engine core of CMU15-445: extendible hash, LRU replacer, buffer pool manager and
B+ tree internal page.

Shallow embedding of `src/hash/extendible_hash.cpp`, `src/buffer/lru_replacer.cpp`,
`src/buffer/buffer_pool_manager.cpp` and `src/page/b_plus_tree_internal_page.cpp`, followed
by theorems about them.

Conventions.
* Keys of the hash table are C++ integers (`page_id_t`, `int`), embedded as `Int`;
  `castSizeT` is the conversion `(size_t)key` on a 64-bit target.
* A result `none` of an operation stands for "the call does not return a value":
  the recursion of `ExtendibleHash::Insert` has not finished within the given fuel, the C++
  code dereferences a pointer that is null, dangling or uninitialised, an `assert` fails, an
  exception is thrown, or an array access leaves the page buffer.
* Sizes and slot indices of B+ tree pages are C++ `int`s, embedded as `Int`; the sizes in the
  theorems are far below the range of `int`.
-/

namespace cmudb

/-! ## Extendible hash table (`src/hash/extendible_hash.cpp`) -/

/-- Bucket record `Bucket<K,V>{local_depth, kv, size}` as it is aggregate-initialised in the
constructor and in `Insert`. -/
structure Bucket (V : Type) where
  local_depth : Nat
  kv : List (Int × V)
  size : Nat
deriving DecidableEq, Repr

/-- Modelled from the spec: `operator==` of `Bucket` is declared in `hash/extendible_hash.h`,
which is not part of the sources at hand. The directory holds buckets by value ("the source
uses value-copied buckets inside the directory"), and a slot "references the old bucket" when
it holds the same value: the comparison is member-wise over `local_depth`, `kv` and `size`. -/
def Bucket.eqv {V : Type} [DecidableEq V] (a b : Bucket V) : Bool :=
  decide (a = b)

/-- Members of `ExtendibleHash<K,V>`: `bucket_size`, `global_depth` and the directory vector
`bucket` (one bucket value per directory slot). -/
structure ExtendibleHash (V : Type) where
  bucket_size : Nat
  global_depth : Nat
  bucket : List (Bucket V)
deriving DecidableEq, Repr

/-- The conversion `(size_t)key` of a signed integer key (two's complement, 64 bits). -/
def castSizeT (key : Int) : Nat :=
  (key % (2 : Int) ^ 64).toNat

namespace ExtendibleHash

variable {V : Type}

/-- The constructor `ExtendibleHash(size)`: depth 0 and one empty bucket. -/
def new (size : Nat) : ExtendibleHash V :=
  { bucket_size := size, global_depth := 0, bucket := [{ local_depth := 0, kv := [], size := 0 }] }

/-- Directory access `bucket[i]`. Indices are below `2^global_depth`, the length of the
directory, in every table built by the constructor, `Insert` and `Remove`. -/
def slot (t : ExtendibleHash V) (i : Nat) : Bucket V :=
  t.bucket.getD i { local_depth := 0, kv := [], size := 0 }

/-- `HashKey`: `(size_t)key & ((1 << global_depth) - 1)`. -/
def HashKey (t : ExtendibleHash V) (key : Int) : Nat :=
  castSizeT key &&& ((1 <<< t.global_depth) - 1)

/-- `GetGlobalDepth`. -/
def GetGlobalDepth (t : ExtendibleHash V) : Nat := t.global_depth

/-- `GetLocalDepth(bucket_id)`. -/
def GetLocalDepth (t : ExtendibleHash V) (bucket_id : Nat) : Nat := (t.slot bucket_id).local_depth

/-- `GetNumBuckets`: `1 << global_depth`. -/
def GetNumBuckets (t : ExtendibleHash V) : Nat := 1 <<< t.global_depth

/-- The scan shared by `Find` and `Remove`: the least `i < size` with `kv[i].first == key`. -/
def scan (key : Int) (b : Bucket V) : Option Nat :=
  let i := (b.kv.take b.size).findIdx (fun e => e.1 == key)
  if i < (b.kv.take b.size).length then some i else none

/-- `Find(key, value)`: `some v` when the call returns true and stores `v` in `value`,
`none` when it returns false. -/
def Find (t : ExtendibleHash V) (key : Int) : Option V :=
  let b := t.slot (t.HashKey key)
  match scan key b with
  | some i => b.kv[i]?.map Prod.snd
  | none => none

/-- `Remove(key)`: the new table and the boolean returned. -/
def Remove (t : ExtendibleHash V) (key : Int) : ExtendibleHash V × Bool :=
  let hashkey := t.HashKey key
  let b := t.slot hashkey
  match scan key b with
  | some i =>
    ({ t with bucket := t.bucket.set hashkey { b with kv := b.kv.eraseIdx i, size := b.size - 1 } },
      true)
  | none => (t, false)

/-- The redistribution loop of `Insert` (lines 130-143): the entries of the overflowing
bucket whose hash has bit `local_depth` set go to `b1`, the others to `b2`, in order. -/
def redistribute (t : ExtendibleHash V) (old : Bucket V) : Bucket V × Bucket V :=
  (old.kv.take old.size).foldl
    (fun (p : Bucket V × Bucket V) e =>
      if ((t.HashKey e.1) >>> old.local_depth) &&& 1 = 1 then
        ({ p.1 with kv := p.1.kv ++ [e], size := p.1.size + 1 }, p.2)
      else
        (p.1, { p.2 with kv := p.2.kv ++ [e], size := p.2.size + 1 }))
    ({ local_depth := old.local_depth + 1, kv := [], size := 0 },
     { local_depth := old.local_depth + 1, kv := [], size := 0 })

/-- The directory loop of `Insert` (lines 144-157), `n` iterations starting at slot `i`.
Both `bucket[hashkey]` in the comparison and `bucket[hashkey].local_depth` in the bit test
are read from the directory as it is in the current iteration. -/
def rewire [DecidableEq V] (b1 b2 : Bucket V) (hashkey : Nat) :
    Nat → Nat → List (Bucket V) → List (Bucket V)
  | 0, _, dir => dir
  | n + 1, i, dir =>
    let cur := dir.getD i { local_depth := 0, kv := [], size := 0 }
    let ref := dir.getD hashkey { local_depth := 0, kv := [], size := 0 }
    if Bucket.eqv cur ref then
      if (i >>> ref.local_depth) &&& 1 = 1 then
        rewire b1 b2 hashkey n (i + 1) (dir.set i b1)
      else
        rewire b1 b2 hashkey n (i + 1) (dir.set i b2)
    else
      rewire b1 b2 hashkey n (i + 1) dir

/-- First conditional of the overflow path (lines 120-125): double the directory.
`global_depth` and `1 << (global_depth + 1)` are C++ `int`s of 32 bits: at global depth 30 the
shift does not give a positive number, `reserve` is asked for more than `max_size()` elements
and throws, and the call does not return (`none`). Below depth 30 every shift of the file is
within the range of `int`. -/
def grow (t : ExtendibleHash V) (hashkey : Nat) : Option (ExtendibleHash V) :=
  if (t.slot hashkey).size = t.bucket_size ∧ (t.slot hashkey).local_depth = t.global_depth then
    if t.global_depth < 30 then
      some { t with bucket := t.bucket ++ t.bucket.take (1 <<< t.global_depth),
                    global_depth := t.global_depth + 1 }
    else none
  else some t

/-- Second conditional of the overflow path (lines 126-158): split the bucket. -/
def split [DecidableEq V] (t : ExtendibleHash V) (hashkey : Nat) : ExtendibleHash V :=
  if (t.slot hashkey).size = t.bucket_size ∧ (t.slot hashkey).local_depth < t.global_depth then
    let p := t.redistribute (t.slot hashkey)
    { t with bucket := rewire p.1 p.2 hashkey (1 <<< t.global_depth) 0 t.bucket }
  else t

/-- `Insert(key, value)`. The C++ function ends by calling itself; `fuel` bounds the number
of calls, and `none` means that the recursion has not reached the appending branch within
`fuel` calls, or that `reserve` has thrown. -/
def Insert [DecidableEq V] : Nat → ExtendibleHash V → Int → V → Option (ExtendibleHash V)
  | 0, _, _, _ => none
  | fuel + 1, t, key, value =>
    let hashkey := t.HashKey key
    let b := t.slot hashkey
    if b.size < t.bucket_size then
      some { t with bucket := t.bucket.set hashkey
                      { b with kv := b.kv ++ [(key, value)], size := b.size + 1 } }
    else
      match grow t hashkey with
      | some t1 => Insert fuel (split t1 hashkey) key value
      | none => none

end ExtendibleHash

/-! ## LRU replacer (`src/buffer/lru_replacer.cpp`) -/

/-- List node `LRUlist<T>`: `value`, `next`, `prev`. A pointer is `none` for `NULL` and
`some a` for the address `a` of a node. -/
structure LRUlist (T : Type) where
  value : T
  next : Option Nat
  prev : Option Nat
deriving DecidableEq, Repr

/-- Members of `LRUReplacer<T>`: `head`, `tail`, `size`, `metadata`, together with the heap
of list nodes. `heap[a] = some n` when address `a` holds the live node `n`, and `none` after
`delete`; `new` takes the next address `heap.length`.
Modelled from the spec: `metadata` is declared in `buffer/lru_replacer.h`, which is not part
of the sources at hand; it is "an auxiliary map from value to entry", kept here as an
association list with at most one pair per value. -/
structure LRUReplacer (T : Type) where
  head : Option Nat
  tail : Option Nat
  size : Nat
  metadata : List (T × Nat)
  heap : List (Option (LRUlist T))
deriving DecidableEq, Repr

namespace LRUReplacer

variable {T : Type}

/-- The constructor `LRUReplacer()`. -/
def new : LRUReplacer T :=
  { head := none, tail := none, size := 0, metadata := [], heap := [] }

/-- Read through a node pointer; `none` when the address holds no live node. -/
def load (r : LRUReplacer T) (a : Nat) : Option (LRUlist T) :=
  (r.heap[a]?).join

/-- Write through a node pointer; `none` when the address holds no live node. -/
def store (r : LRUReplacer T) (a : Nat) (f : LRUlist T → LRUlist T) : Option (LRUReplacer T) :=
  (r.load a).map (fun n => { r with heap := r.heap.set a (some (f n)) })

/-- `metadata.count(value)`. -/
def count [DecidableEq T] (r : LRUReplacer T) (value : T) : Bool :=
  r.metadata.any (fun e => decide (e.1 = value))

/-- `metadata[value]` for a value that is present. -/
def lookup [DecidableEq T] (r : LRUReplacer T) (value : T) : Option Nat :=
  (r.metadata.find? (fun e => decide (e.1 = value))).map Prod.snd

/-- `metadata.erase(value)`. -/
def metaErase [DecidableEq T] (m : List (T × Nat)) (value : T) : List (T × Nat) :=
  m.filter (fun e => !decide (e.1 = value))

/-- `metadata[value] = pp`. -/
def metaAssign [DecidableEq T] (m : List (T × Nat)) (value : T) (pp : Nat) : List (T × Nat) :=
  metaErase m value ++ [(value, pp)]

/-- The unlinking of node `pp` in `Erase` (lines 99-110). -/
def unlink (r : LRUReplacer T) (pp : Nat) (node : LRUlist T) : Option (LRUReplacer T) :=
  if some pp = r.head then
    -- head = pp->next; if(head != NULL) head->prev = NULL;
    match node.next with
    | none => some { r with head := none }
    | some nx => ({ r with head := some nx } : LRUReplacer T).store nx (fun n => { n with prev := none })
  else if some pp = r.tail then
    -- tail = pp->prev; if(tail != NULL) tail->next = NULL;
    match node.prev with
    | none => some { r with tail := none }
    | some pv => ({ r with tail := some pv } : LRUReplacer T).store pv (fun n => { n with next := none })
  else
    -- pp->prev->next = pp->next; pp->next->prev = pp->prev;
    match node.prev with
    | none => none
    | some pv =>
      (r.store pv (fun n => { n with next := node.next })).bind (fun r1 =>
        (r1.load pp).bind (fun node1 =>
          match node1.next with
          | none => none
          | some nx => r1.store nx (fun n => { n with prev := node1.prev })))

/-- `Erase(value)`: the new replacer and the boolean returned. -/
def Erase [DecidableEq T] (r : LRUReplacer T) (value : T) : Option (LRUReplacer T × Bool) :=
  if r.count value then
    (r.lookup value).bind (fun pp =>
      (r.load pp).bind (fun node =>
        (r.unlink pp node).map (fun r1 =>
          ({ r1 with metadata := metaErase r1.metadata value,
                     size := r1.size - 1,
                     heap := r1.heap.set pp none }, true))))
  else some (r, false)

/-- `Insert(value)`. -/
def Insert [DecidableEq T] (r : LRUReplacer T) (value : T) : Option (LRUReplacer T) :=
  match r.tail with
  | none =>
    let pp := r.heap.length
    some { head := some pp, tail := some pp, size := r.size + 1,
           metadata := metaAssign r.metadata value pp,
           heap := r.heap ++ [some { value := value, next := none, prev := none }] }
  | some _ =>
    (if r.count value then (r.Erase value).map Prod.fst else some r).bind (fun r1 =>
      let pp := r1.heap.length
      let r2 : LRUReplacer T :=
        { r1 with heap := r1.heap ++ [some { value := value, next := none, prev := r1.tail }] }
      -- tail->next = pp;
      (r2.tail.bind (fun tl => r2.store tl (fun n => { n with next := some pp }))).map (fun r3 =>
        { r3 with tail := some pp, size := r3.size + 1,
                  metadata := metaAssign r3.metadata value pp }))

/-- The head update of `Victim` (lines 79-80): `head = head->next; if(head != NULL)
head->prev = NULL;`, where `node` is the node `head` points to. -/
def advance (r : LRUReplacer T) (node : LRUlist T) : Option (LRUReplacer T) :=
  match node.next with
  | none => some { r with head := none }
  | some nx => ({ r with head := some nx } : LRUReplacer T).store nx (fun n => { n with prev := none })

/-- `Victim(value)`: the new replacer and `some v` when the call returns true with
`value = v`, `none` when it returns false. -/
def Victim [DecidableEq T] (r : LRUReplacer T) : Option (LRUReplacer T × Option T) :=
  if r.size = 0 then some (r, none)
  else
    r.head.bind (fun vic =>
      (r.load vic).bind (fun node =>
        (r.advance node).map (fun r1 =>
          ({ r1 with size := r1.size - 1,
                     tail := if r1.size - 1 = 0 then none else r1.tail,
                     heap := r1.heap.set vic none,
                     metadata := metaErase r1.metadata node.value }, some node.value))))

/-- `Size()`. -/
def Size (r : LRUReplacer T) : Nat := r.size

end LRUReplacer

/-! ## Buffer pool manager (`src/buffer/buffer_pool_manager.cpp`) -/

/-- Modelled from the spec: `INVALID_PAGE_ID` comes from `common/config.h`, which is not part
of the sources at hand; "a sentinel (-1 is typical)". -/
def INVALID_PAGE_ID : Int := -1

/-- Modelled from the spec: `PAGE_SIZE` comes from `common/config.h`; "PAGE_SIZE = 4096". -/
def PAGE_SIZE : Nat := 4096

/-- Modelled from the spec: class `Page` is declared in `page/page.h`, which is not part of the
sources at hand. A page frame is "a fixed-size byte buffer plus metadata: the page-id it
currently holds (or a sentinel INVALID), a pin count, a dirty flag". The fields keep the names
the buffer pool manager uses: `data_`, `page_id_`, `pin_count_`, `is_dirty_`. -/
structure Page where
  data_ : List Nat
  page_id_ : Int
  pin_count_ : Int
  is_dirty_ : Bool
deriving DecidableEq, Repr

/-- Modelled from the spec: the constructor of `Page`; a frame of a fresh pool holds no page
(`page_id_` is the invalid id), is unpinned and clean, and its buffer is zeroed. -/
def Page.new : Page :=
  { data_ := List.replicate PAGE_SIZE 0, page_id_ := INVALID_PAGE_ID, pin_count_ := 0,
    is_dirty_ := false }

/-- Modelled from the spec: `Page::ResetMemory` zeroes the buffer ("zero the buffer"). -/
def Page.ResetMemory (p : Page) : Page :=
  { p with data_ := List.replicate PAGE_SIZE 0 }

/-- A call of the buffer pool manager to the disk manager. -/
inductive DiskCall where
  | ReadPage (page_id : Int)
  | WritePage (page_id : Int) (data : List Nat)
  | AllocatePage (page_id : Int)
  | DeallocatePage (page_id : Int)
deriving DecidableEq, Repr

/-- Modelled from the spec: the disk manager is an external collaborator, absent from the
sources at hand, used through `ReadPage(id, buf)`, `WritePage(id, buf)`, `AllocatePage() -> id`
and `DeallocatePage(id)`. `content id` is what `ReadPage(id, _)` delivers, `WritePage` persists
the bytes, `AllocatePage` hands out `next_page_id` and advances it, and `calls` records every
call, oldest first. -/
structure DiskManager where
  content : Int → List Nat
  next_page_id : Int
  calls : List DiskCall

namespace DiskManager

/-- Modelled from the spec: `ReadPage(page_id, out_bytes)`. -/
def ReadPage (d : DiskManager) (page_id : Int) : DiskManager × List Nat :=
  ({ d with calls := d.calls ++ [DiskCall.ReadPage page_id] }, d.content page_id)

/-- Modelled from the spec: `WritePage(page_id, in_bytes)`. -/
def WritePage (d : DiskManager) (page_id : Int) (data : List Nat) : DiskManager :=
  { d with content := fun i => if i = page_id then data else d.content i,
           calls := d.calls ++ [DiskCall.WritePage page_id data] }

/-- Modelled from the spec: `AllocatePage()`. -/
def AllocatePage (d : DiskManager) : DiskManager × Int :=
  ({ d with next_page_id := d.next_page_id + 1,
            calls := d.calls ++ [DiskCall.AllocatePage d.next_page_id] }, d.next_page_id)

/-- Modelled from the spec: `DeallocatePage(page_id)`. -/
def DeallocatePage (d : DiskManager) (page_id : Int) : DiskManager :=
  { d with calls := d.calls ++ [DiskCall.DeallocatePage page_id] }

end DiskManager

/-- Members of `BufferPoolManager`. A `Page *` into the frame array `pages_` is the index of
the frame. The disk manager is held by value so that its calls are part of the state. -/
structure BufferPoolManager where
  pool_size_ : Nat
  pages_ : List Page
  page_table_ : ExtendibleHash Nat
  replacer_ : LRUReplacer Nat
  free_list_ : List Nat
  disk_manager_ : DiskManager

namespace BufferPoolManager

/-- The constructor. `BUCKET_SIZE` comes from `common/config.h`, which is not part of the
sources at hand, and is taken as a parameter. -/
def new (BUCKET_SIZE pool_size : Nat) (disk_manager : DiskManager) : BufferPoolManager :=
  { pool_size_ := pool_size,
    pages_ := List.replicate pool_size Page.new,
    page_table_ := ExtendibleHash.new BUCKET_SIZE,
    replacer_ := LRUReplacer.new,
    free_list_ := List.range pool_size,
    disk_manager_ := disk_manager }

/-- Lines 79-85 of `FetchPage` and 211-217 of `NewPage`: write the victim back when it is
dirty and remove its page id from the page table. -/
def evict (s : BufferPoolManager) (pg : Page) : BufferPoolManager :=
  let d := if pg.is_dirty_ then s.disk_manager_.WritePage pg.page_id_ pg.data_ else s.disk_manager_
  { s with disk_manager_ := d, page_table_ := (s.page_table_.Remove pg.page_id_).1 }

/-- Lines 87-95 of `FetchPage`, for the frame `pp` chosen as replacement. -/
def load (fuel : Nat) (s : BufferPoolManager) (page_id : Int) (pp : Nat) :
    Option (BufferPoolManager × Option Nat) :=
  (s.page_table_.Insert fuel page_id pp).bind (fun pt =>
    (s.pages_[pp]?).map (fun pg =>
      let rd := s.disk_manager_.ReadPage page_id
      ({ s with page_table_ := pt,
                pages_ := s.pages_.set pp { pg with page_id_ := page_id,
                                                    pin_count_ := pg.pin_count_ + 1,
                                                    is_dirty_ := false,
                                                    data_ := rd.2 },
                disk_manager_ := rd.1 }, some pp)))

/-- `FetchPage(page_id)`: the new state and the frame returned (`none` for `nullptr`).
When the page is not resident, the free list is empty and `Victim` returns false, the C++
code goes on with the local `pp` uninitialised (there is no `else` branch after line 86):
this is a call that does not return a value. -/
def FetchPage (fuel : Nat) (s : BufferPoolManager) (page_id : Int) :
    Option (BufferPoolManager × Option Nat) :=
  if page_id = INVALID_PAGE_ID then some (s, none)
  else
    match s.page_table_.Find page_id with
    | some pp =>
      (s.pages_[pp]?).map (fun pg =>
        ({ s with pages_ := s.pages_.set pp { pg with pin_count_ := pg.pin_count_ + 1 } }, some pp))
    | none =>
      match s.free_list_ with
      | pp :: rest => load fuel { s with free_list_ := rest } page_id pp
      | [] =>
        s.replacer_.Victim.bind (fun v =>
          match v.2 with
          | some pp =>
            (s.pages_[pp]?).bind (fun pg =>
              if pg.pin_count_ > 0 then some ({ s with replacer_ := v.1 }, none)
              else load fuel (evict { s with replacer_ := v.1 } pg) page_id pp)
          | none => none)

/-- `UnpinPage(page_id, is_dirty)`. -/
def UnpinPage (s : BufferPoolManager) (page_id : Int) (is_dirty : Bool) :
    Option (BufferPoolManager × Bool) :=
  if page_id = INVALID_PAGE_ID then some (s, false)
  else
    match s.page_table_.Find page_id with
    | some pp =>
      (s.pages_[pp]?).bind (fun pg =>
        if pg.pin_count_ ≤ 0 then some (s, false)
        else
          let s1 := { s with pages_ := s.pages_.set pp { pg with pin_count_ := pg.pin_count_ - 1,
                                                                 is_dirty_ := is_dirty } }
          if pg.pin_count_ - 1 = 0 then
            (s1.replacer_.Insert pp).map (fun r => ({ s1 with replacer_ := r }, true))
          else some (s1, true))
    | none => some (s, false)

/-- `FlushPage(page_id)`. -/
def FlushPage (s : BufferPoolManager) (page_id : Int) : Option (BufferPoolManager × Bool) :=
  if page_id = INVALID_PAGE_ID then some (s, false)
  else
    match s.page_table_.Find page_id with
    | some pp =>
      (s.pages_[pp]?).map (fun pg =>
        ({ s with disk_manager_ := s.disk_manager_.WritePage pg.page_id_ pg.data_ }, true))
    | none => some (s, false)

/-- `DeletePage(page_id)`. -/
def DeletePage (s : BufferPoolManager) (page_id : Int) : Option (BufferPoolManager × Bool) :=
  if page_id = INVALID_PAGE_ID then some (s, false)
  else
    match s.page_table_.Find page_id with
    | some pp =>
      (s.pages_[pp]?).map (fun pg =>
        if pg.pin_count_ ≠ 0 then (s, false)
        else
          ({ s with page_table_ := (s.page_table_.Remove page_id).1,
                    pages_ := s.pages_.set pp { pg with page_id_ := INVALID_PAGE_ID,
                                                        pin_count_ := 0,
                                                        is_dirty_ := false },
                    free_list_ := s.free_list_ ++ [pp],
                    disk_manager_ := s.disk_manager_.DeallocatePage page_id }, true))
    | none => some (s, true)

/-- Lines 223-230 of `NewPage`, for the frame `pp` chosen as replacement: the new state,
the frame returned and the page id stored in the out-parameter. -/
def fresh (fuel : Nat) (s : BufferPoolManager) (pp : Nat) :
    Option (BufferPoolManager × Option (Nat × Int)) :=
  let al := s.disk_manager_.AllocatePage
  (s.page_table_.Insert fuel al.2 pp).bind (fun pt =>
    (s.pages_[pp]?).map (fun pg =>
      ({ s with page_table_ := pt,
                pages_ := s.pages_.set pp
                  (Page.ResetMemory { pg with page_id_ := al.2,
                                              pin_count_ := pg.pin_count_ + 1,
                                              is_dirty_ := false }),
                disk_manager_ := al.1 }, some (pp, al.2))))

/-- `NewPage(page_id)`: the new state and, when a frame is returned, the frame and the value
written to `page_id` (`none` for `nullptr`). -/
def NewPage (fuel : Nat) (s : BufferPoolManager) :
    Option (BufferPoolManager × Option (Nat × Int)) :=
  match s.free_list_ with
  | pp :: rest => fresh fuel { s with free_list_ := rest } pp
  | [] =>
    s.replacer_.Victim.bind (fun v =>
      match v.2 with
      | some pp =>
        (s.pages_[pp]?).bind (fun pg =>
          if pg.pin_count_ > 0 then some ({ s with replacer_ := v.1 }, none)
          else fresh fuel (evict { s with replacer_ := v.1 } pg) pp)
      | none => some ({ s with replacer_ := v.1 }, none))

end BufferPoolManager

/-! ## Predicates used in the statements -/

/-- Modelled from the spec: a disk manager at start-up, every page reading as zeros and
page ids allocated from 0 on ("three NewPage calls giving 0,1,2"). -/
def DiskManager.new : DiskManager :=
  { content := fun _ => List.replicate PAGE_SIZE 0, next_page_id := 0, calls := [] }

/-- A hash table that has never overflowed: depth 0 and a single bucket holding `kv`. -/
def ExtendibleHash.flat {V : Type} (B : Nat) (kv : List (Int × V)) : ExtendibleHash V :=
  { bucket_size := B, global_depth := 0,
    bucket := [{ local_depth := 0, kv := kv, size := kv.length }] }

namespace BufferPoolManager

/-- The frame pointers held by the page table are frames of the pool. -/
def FramesValid (s : BufferPoolManager) : Prop :=
  ∀ page_id pp, s.page_table_.Find page_id = some pp → pp < s.pages_.length

/-- The conditions under which `UnpinPage` gives up: invalid id, page not resident, or
resident frame with pin count `<= 0`. -/
def UnpinFails (s : BufferPoolManager) (page_id : Int) : Prop :=
  page_id = INVALID_PAGE_ID ∨ s.page_table_.Find page_id = none ∨
    ∃ pp pg, s.page_table_.Find page_id = some pp ∧ s.pages_[pp]? = some pg ∧ pg.pin_count_ ≤ 0

/-- What a client does with a frame it holds pinned: it overwrites the bytes of the buffer. -/
def writeData (s : BufferPoolManager) (pp : Nat) (data : List Nat) : Option BufferPoolManager :=
  match s.pages_[pp]? with
  | some pg =>
    if 0 < pg.pin_count_ then some { s with pages_ := s.pages_.set pp { pg with data_ := data } }
    else none
  | none => none

/-- Pool states reachable from the constructor by calls that return, and by clients writing
into the buffers of frames they hold pinned. `B` is `BUCKET_SIZE`, `n` the pool size and `d`
the disk manager handed to the constructor. A `NewPage` step assumes of the disk manager that
the id `AllocatePage` hands out is fresh for the pool, that is, not the id of a resident
page. -/
inductive Reachable (B n : Nat) (d : DiskManager) : BufferPoolManager → Prop
  | init : Reachable B n d (BufferPoolManager.new B n d)
  | write {s s' : BufferPoolManager} (pp : Nat) (data : List Nat) :
      Reachable B n d s → s.writeData pp data = some s' → Reachable B n d s'
  | fetch {s s' : BufferPoolManager} {r : Option Nat} (fuel : Nat) (page_id : Int) :
      Reachable B n d s → s.FetchPage fuel page_id = some (s', r) → Reachable B n d s'
  | unpin {s s' : BufferPoolManager} {r : Bool} (page_id : Int) (is_dirty : Bool) :
      Reachable B n d s → s.UnpinPage page_id is_dirty = some (s', r) → Reachable B n d s'
  | flush {s s' : BufferPoolManager} {r : Bool} (page_id : Int) :
      Reachable B n d s → s.FlushPage page_id = some (s', r) → Reachable B n d s'
  | delete {s s' : BufferPoolManager} {r : Bool} (page_id : Int) :
      Reachable B n d s → s.DeletePage page_id = some (s', r) → Reachable B n d s'
  | newPage {s s' : BufferPoolManager} {r : Option (Nat × Int)} (fuel : Nat) :
      Reachable B n d s → s.page_table_.Find s.disk_manager_.next_page_id = none →
      s.NewPage fuel = some (s', r) → Reachable B n d s'

/-- Invariant of the pool while the page table has not overflowed: the page table is the
single bucket `kv`, every frame is either the target of exactly one entry of `kv` or exactly
once on the free list, entries agree with the page id stored in their frame, frames on the
free list are unpinned, pin counts are not negative, and the replacer only holds frames of
the pool. -/
structure PoolInv (B n : Nat) (s : BufferPoolManager) (kv : List (Int × Nat)) : Prop where
  pages_len : s.pages_.length = n
  table : s.page_table_ = ExtendibleHash.flat B kv
  keys_nodup : (kv.map Prod.fst).Nodup
  frames_nodup : (kv.map Prod.snd ++ s.free_list_).Nodup
  frames_lt : ∀ f, f ∈ kv.map Prod.snd ++ s.free_list_ ↔ f < n
  page_ids : ∀ e ∈ kv, ∃ pg, s.pages_[e.2]? = some pg ∧ pg.page_id_ = e.1
  free_pins : ∀ f ∈ s.free_list_, ∃ pg, s.pages_[f]? = some pg ∧ pg.pin_count_ = 0
  pins_nonneg : ∀ pg ∈ s.pages_, 0 ≤ pg.pin_count_
  repl_vals : ∀ a node, s.replacer_.load a = some node → node.value < n

end BufferPoolManager

namespace BufferPoolManager

/-- A call of the public interface of the buffer pool manager, or a write of a client into
the buffer of a pinned frame. -/
inductive Call where
  | WriteData (pp : Nat) (data : List Nat)
  | FetchPage (page_id : Int)
  | UnpinPage (page_id : Int) (is_dirty : Bool)
  | FlushPage (page_id : Int)
  | DeletePage (page_id : Int)
  | NewPage
deriving DecidableEq, Repr

/-- One call that returns, as a step of `Reachable`. -/
def step (s : BufferPoolManager) : Call → Option BufferPoolManager
  | Call.WriteData pp data => s.writeData pp data
  | Call.FetchPage page_id => (s.FetchPage 1 page_id).map Prod.fst
  | Call.UnpinPage page_id is_dirty => (s.UnpinPage page_id is_dirty).map Prod.fst
  | Call.FlushPage page_id => (s.FlushPage page_id).map Prod.fst
  | Call.DeletePage page_id => (s.DeletePage page_id).map Prod.fst
  | Call.NewPage =>
    if s.page_table_.Find s.disk_manager_.next_page_id = none then (s.NewPage 1).map Prod.fst
    else none

/-- A sequence of calls, each of which returns. -/
def run (s : BufferPoolManager) : List Call → Option BufferPoolManager
  | [] => some s
  | c :: cs => (s.step c).bind (fun s1 => run s1 cs)

/-- What a call leaves alone: a frame that is pinned before the call holds the same page id
and the same bytes after it and every page-table entry that points to it is still there, and
a frame whose page id changes had pin count 0 before the call. -/
def Kept (s s' : BufferPoolManager) : Prop :=
  ∀ f pg, s.pages_[f]? = some pg →
    (0 < pg.pin_count_ →
      ∃ pg', s'.pages_[f]? = some pg' ∧ pg'.page_id_ = pg.page_id_ ∧ pg'.data_ = pg.data_ ∧
        ∀ p, s.page_table_.Find p = some f → s'.page_table_.Find p = some f) ∧
    (∀ pg', s'.pages_[f]? = some pg' → pg'.page_id_ ≠ pg.page_id_ → pg.pin_count_ = 0)

/-- The frame `pp` is the replacement `FetchPage` and `NewPage` choose: the front of the free
list, or, when the free list is empty, the frame the replacer hands out, provided its pin
count is 0. -/
def VictimAvailable (s : BufferPoolManager) (pp : Nat) : Prop :=
  s.free_list_.head? = some pp ∨
    (s.free_list_ = [] ∧ ∃ r' pg, s.replacer_.Victim = some (r', some pp) ∧
      s.pages_[pp]? = some pg ∧ pg.pin_count_ = 0)

end BufferPoolManager

namespace BufferPoolManager

/-- What C2 says of a call of `NewPage` that takes the pool from `s` to `s'` and returns the
frame `pp` with the page id `id`. -/
def NewPageSpec (s s' : BufferPoolManager) (pp : Nat) (id : Int) : Prop :=
  (s.free_list_.head? = some pp ∨
    (s.free_list_ = [] ∧
      ∃ a node, s.replacer_.head = some a ∧ s.replacer_.load a = some node ∧
        node.value = pp)) ∧
  id = s.disk_manager_.AllocatePage.2 ∧
  (∃ pg', s'.pages_[pp]? = some pg' ∧ pg'.page_id_ = id ∧ pg'.pin_count_ = 1 ∧
    pg'.is_dirty_ = false ∧ pg'.data_ = List.replicate PAGE_SIZE 0) ∧
  s'.page_table_.Find id = some pp ∧
  (∀ p, s.page_table_.Find p = some pp → s'.page_table_.Find p = none)

/-- The first scenario of the specification, up to the fourth `NewPage`: a pool of 3 frames,
three `NewPage` calls and `UnpinPage(0, false)`. -/
def scenarioFill : Option BufferPoolManager :=
  (BufferPoolManager.new 50 3 DiskManager.new).run
    [Call.NewPage, Call.NewPage, Call.NewPage, Call.UnpinPage 0 false]

end BufferPoolManager

namespace BufferPoolManager

/-- The disk calls of the write-back of a victim frame `pg`: one `WritePage` with the page id
and the bytes of the frame when it is dirty, none when it is clean. -/
def writeBack (pg : Page) : List DiskCall :=
  if pg.is_dirty_ then [DiskCall.WritePage pg.page_id_ pg.data_] else []

/-- The second scenario of the specification, up to the second `NewPage`: a pool of one
frame, `NewPage`, the byte 42 written at the start of the buffer, and `UnpinPage(0, true)`. -/
def scenarioDirty : Option BufferPoolManager :=
  (BufferPoolManager.new 50 1 DiskManager.new).run
    [Call.NewPage, Call.WriteData 0 (42 :: List.replicate (PAGE_SIZE - 1) 0),
      Call.UnpinPage 0 true]

/-- The fourth scenario of the specification, up to the first `DeletePage`: a pool of 3
frames and `FetchPage(5)`. -/
def scenarioDelete : Option BufferPoolManager :=
  (BufferPoolManager.new 50 3 DiskManager.new).run [Call.FetchPage 5]

/-- The fourth scenario of the specification, up to the second `DeletePage`: a pool of 3
frames, `FetchPage(5)`, `DeletePage(5)` and `UnpinPage(5, false)`. -/
def scenarioDeleteUnpinned : Option BufferPoolManager :=
  (BufferPoolManager.new 50 3 DiskManager.new).run
    [Call.FetchPage 5, Call.DeletePage 5, Call.UnpinPage 5 false]

/-- What C7 says of `DeletePage(page_id)` in the state `s`. -/
def DeletePageSpec (s : BufferPoolManager) (page_id : Int) : Prop :=
  ((page_id = INVALID_PAGE_ID ∨
      ∃ pp pg, s.page_table_.Find page_id = some pp ∧ s.pages_[pp]? = some pg ∧
        pg.pin_count_ ≠ 0) →
    s.DeletePage page_id = some (s, false)) ∧
  (page_id ≠ INVALID_PAGE_ID → s.page_table_.Find page_id = none →
    s.DeletePage page_id = some (s, true)) ∧
  (page_id ≠ INVALID_PAGE_ID → ∀ pp, s.page_table_.Find page_id = some pp →
    ∃ pg, s.pages_[pp]? = some pg ∧
      (pg.pin_count_ = 0 →
        ∃ s', s.DeletePage page_id = some (s', true) ∧
          s'.page_table_.Find page_id = none ∧
          s'.pages_[pp]? = some ⟨pg.data_, INVALID_PAGE_ID, 0, false⟩ ∧
          s'.free_list_ = s.free_list_ ++ [pp] ∧
          s'.disk_manager_.calls =
            s.disk_manager_.calls ++ [DiskCall.DeallocatePage page_id]))

end BufferPoolManager

namespace BufferPoolManager

/-- A page pinned twice and unpinned once as dirty: a pool of one frame, `NewPage` (page 0),
`FetchPage(0)` and `UnpinPage(0, true)`. -/
def scenarioTwoPins : Option BufferPoolManager :=
  (BufferPoolManager.new 50 1 DiskManager.new).run
    [Call.NewPage, Call.FetchPage 0, Call.UnpinPage 0 true]

/-- A pool whose only frame is pinned: a pool of one frame and `NewPage` (page 0). -/
def scenarioAllPinned : Option BufferPoolManager :=
  (BufferPoolManager.new 50 1 DiskManager.new).run [Call.NewPage]

/-- A pinned frame at the head of the replacer: a pool of 2 frames, `NewPage` twice (pages 0
and 1), `UnpinPage(0, false)`, `UnpinPage(1, false)` and `FetchPage(0)`. -/
def scenarioHeadPinned : Option BufferPoolManager :=
  (BufferPoolManager.new 50 2 DiskManager.new).run
    [Call.NewPage, Call.NewPage, Call.UnpinPage 0 false, Call.UnpinPage 1 false,
      Call.FetchPage 0]

end BufferPoolManager

namespace ExtendibleHash

variable {V : Type}

/-- Shape of a table: the directory has `2^global_depth` slots, and every bucket stores as
many entries as its `size` says, at most `bucket_size`, with a local depth not above the
global depth. -/
def WF (t : ExtendibleHash V) : Prop :=
  t.bucket.length = 2 ^ t.global_depth ∧
  ∀ b ∈ t.bucket, b.size = b.kv.length ∧ b.size ≤ t.bucket_size ∧
    b.local_depth ≤ t.global_depth

/-- Tables reachable from the constructor with bucket capacity `size` by `Insert` calls that
return and by `Remove` calls. -/
inductive Reachable [DecidableEq V] (size : Nat) : ExtendibleHash V → Prop
  | init : Reachable size (ExtendibleHash.new size)
  | insert {t t' : ExtendibleHash V} (fuel : Nat) (key : Int) (value : V) :
      Reachable size t → Insert fuel t key value = some t' → Reachable size t'
  | remove {t : ExtendibleHash V} (key : Int) :
      Reachable size t → Reachable size (t.Remove key).1

/-- The entries of `kv` whose hash agrees with `u` in bit `ld`. -/
def keep (u ld : Nat) (kv : List (Int × V)) : List (Int × V) :=
  kv.filter (fun e => (castSizeT e.1).testBit ld == u.testBit ld)

/-- The bucket `key` hashes to has room, or holds a key whose hash differs from that of `key`
in a bit at or above the local depth of the bucket and below `D`. -/
def CanPlace (t : ExtendibleHash V) (key : Int) (D : Nat) : Prop :=
  (t.slot (t.HashKey key)).size < t.bucket_size ∨
    ∃ e ∈ (t.slot (t.HashKey key)).kv, ∃ j, (t.slot (t.HashKey key)).local_depth ≤ j ∧ j < D ∧
      (castSizeT e.1).testBit j ≠ (castSizeT key).testBit j

end ExtendibleHash

namespace ExtendibleHash

variable {V : Type}

/-- The bucket `b` after a split, seen from a slot that agrees with `u` in bit
`b.local_depth`: local depth increased by one, entries restricted by `keep`. -/
def narrow (u : Nat) (b : Bucket V) : Bucket V :=
  ⟨b.local_depth + 1, keep u b.local_depth b.kv, (keep u b.local_depth b.kv).length⟩

/-- The table after the first conditional of the overflow path when `reserve` does not
throw: the directory doubled if the bucket of `hashkey` is full with local depth equal to the
global depth, the table as it is otherwise. -/
def widen (t : ExtendibleHash V) (hashkey : Nat) : ExtendibleHash V :=
  if (t.slot hashkey).size = t.bucket_size ∧ (t.slot hashkey).local_depth = t.global_depth then
    { t with bucket := t.bucket ++ t.bucket.take (1 <<< t.global_depth),
             global_depth := t.global_depth + 1 }
  else t

/-- The table after one pass through the overflow path of `Insert` for `key` when `reserve`
does not throw. -/
def overflow [DecidableEq V] (t : ExtendibleHash V) (key : Int) : ExtendibleHash V :=
  split (widen t (t.HashKey key)) (t.HashKey key)

end ExtendibleHash

namespace ExtendibleHash

/-- The table of capacity 2 after `Insert(0, 10)` and `Insert(1, 11)`: one full bucket. -/
def scenarioFullBucket : ExtendibleHash Nat :=
  ⟨2, 0, [⟨0, [(0, 10), (1, 11)], 2⟩]⟩

end ExtendibleHash

namespace ExtendibleHash

variable {V : Type}

/-- The number of entries with key `key` that the scans of `Find` and `Remove` can meet: the
entries `kv[0 .. size)` of the bucket `key` hashes to. -/
def occurrences (t : ExtendibleHash V) (key : Int) : Nat :=
  ((t.slot (t.HashKey key)).kv.take (t.slot (t.HashKey key)).size).countP (fun e => e.1 == key)

/-- The table after `Insert` of the given pairs in order, each call with `fuel` calls allowed. -/
def insertMany [DecidableEq V] (fuel : Nat) (t : ExtendibleHash V) :
    List (Int × V) → Option (ExtendibleHash V)
  | [] => some t
  | e :: rest => (Insert fuel t e.1 e.2).bind (fun t1 => insertMany fuel t1 rest)

/-- The scenario of bucket capacity 2 and keys 0, 1, 2, 3 with values `v0 .. v3`: the table
after the first `n` calls of `Insert`. -/
def scenarioFourKeys [DecidableEq V] (v0 v1 v2 v3 : V) (n : Nat) : Option (ExtendibleHash V) :=
  insertMany 2 (ExtendibleHash.new 2) ([(0, v0), (1, v1), (2, v2), (3, v3)].take n)

end ExtendibleHash

namespace LRUReplacer

variable {T : Type}

/-- A call of `Insert(value)` or of `Victim`. -/
inductive Call (T : Type) where
  | Insert (value : T)
  | Victim
deriving DecidableEq, Repr

/-- Runs the calls in order on the code. The list holds what each `Victim` call returned, in
order: `some v` for true with value `v`, `none` for false. The result is `none` when a call
does not return. -/
def run [DecidableEq T] : LRUReplacer T → List (Call T) → Option (LRUReplacer T × List (Option T))
  | r, [] => some (r, [])
  | r, Call.Insert v :: cs => (r.Insert v).bind (fun r1 => run r1 cs)
  | r, Call.Victim :: cs =>
    r.Victim.bind (fun p => (run p.1 cs).map (fun q => (q.1, p.2 :: q.2)))

/-- The ordering guarantee in the words of the specification, on the values present in order
of insertion (earliest first): `Insert` puts the value last; `Victim` returns false on the
empty sequence and leaves it unchanged, and otherwise returns the earliest-inserted value and
removes it. The result is the final sequence and what each `Victim` call returned. -/
def fifo : List T → List (Call T) → List T × List (Option T)
  | q, [] => (q, [])
  | q, Call.Insert v :: cs => fifo (q ++ [v]) cs
  | [], Call.Victim :: cs => ((fifo [] cs).1, none :: (fifo [] cs).2)
  | a :: q, Call.Victim :: cs => ((fifo q cs).1, some a :: (fifo q cs).2)

/-- No call inserts a value that is still present, starting from the values `q`. -/
def noReinsert [DecidableEq T] : List T → List (Call T) → Bool
  | _, [] => true
  | q, Call.Insert v :: cs => !decide (v ∈ q) && noReinsert (q ++ [v]) cs
  | q, Call.Victim :: cs => noReinsert q.tail cs

/-- The nodes at the addresses `as` hold the values `q` in order and are linked to each other
through `next` and `prev`; `prev` is the `prev` pointer of the first of them, and the `next`
pointer of the last is `NULL`. -/
def Chain (heap : List (Option (LRUlist T))) : Option Nat → List Nat → List T → Prop
  | _, [], [] => True
  | prev, a :: as, v :: q =>
    heap[a]? = some (some ⟨v, as.head?, prev⟩) ∧ Chain heap (some a) as q
  | _, _, _ => False

/-- The replacer holds the values `q`, earliest-inserted first: `head` and `tail` are the ends
of a doubly linked list of distinct live nodes with these values, `size` is their number and
`metadata` has an entry for exactly these values. -/
def Holds [DecidableEq T] (r : LRUReplacer T) (q : List T) : Prop :=
  ∃ as : List Nat, as.Nodup ∧ Chain r.heap none as q ∧ r.head = as.head? ∧
    r.tail = as.getLast? ∧ r.size = q.length ∧ q.Nodup ∧ ∀ v, r.count v = true ↔ v ∈ q

/-- The scenario of the specification: `Insert(A); Insert(B); Insert(C); Victim; Victim;
Insert(B); Victim; Victim` with `A = 1`, `B = 2`, `C = 3`. -/
def scenarioOrder : List (Call Nat) :=
  [Call.Insert 1, Call.Insert 2, Call.Insert 3, Call.Victim, Call.Victim, Call.Insert 2,
    Call.Victim, Call.Victim]

end LRUReplacer

/-! ## B+ tree internal page (`src/page/b_plus_tree_internal_page.cpp`) -/

/-- Modelled from the spec: `IndexPageType` is declared in `page/b_plus_tree_page.h`, which is
not part of the sources at hand; the source names `INTERNAL_PAGE` and `INVALID_INDEX_PAGE`,
and the specification speaks of "internal or leaf nodes". -/
inductive IndexPageType where
  | INVALID_INDEX_PAGE
  | LEAF_PAGE
  | INTERNAL_PAGE
deriving DecidableEq, Repr

/-- A page as `BPlusTreeInternalPage<KeyType, page_id_t, KeyComparator>` sees it.
Modelled from the spec: the header fields and their accessors (`GetSize`, `SetSize`,
`IncreaseSize`, `GetPageId`, `GetParentPageId`, `SetParentPageId`, ...) are declared in
`page/b_plus_tree_page.h`, which is not part of the sources at hand: "header (page type,
page-id, parent page-id, current size, maximum size) followed by an array of (key,
child-page-id) mappings". The accessors read and write the field of their name.
`array` holds every slot that the page buffer has room for behind the header, those at and
above `size_` included; an access outside of it is outside the page buffer. -/
structure BPlusTreeInternalPage (K : Type) where
  page_type_ : IndexPageType
  size_ : Int
  max_size_ : Int
  parent_page_id_ : Int
  page_id_ : Int
  array : List (K × Int)
deriving DecidableEq, Repr

namespace BPlusTreeInternalPage

variable {K : Type}

/-- `GetSize()`. -/
def GetSize (p : BPlusTreeInternalPage K) : Int := p.size_

/-- `SetSize(size)`. -/
def SetSize (p : BPlusTreeInternalPage K) (size : Int) : BPlusTreeInternalPage K :=
  { p with size_ := size }

/-- `IncreaseSize(amount)`. -/
def IncreaseSize (p : BPlusTreeInternalPage K) (amount : Int) : BPlusTreeInternalPage K :=
  { p with size_ := p.size_ + amount }

/-- `GetPageId()`. -/
def GetPageId (p : BPlusTreeInternalPage K) : Int := p.page_id_

/-- `GetParentPageId()`. -/
def GetParentPageId (p : BPlusTreeInternalPage K) : Int := p.parent_page_id_

/-- `SetParentPageId(parent_page_id)`. -/
def SetParentPageId (p : BPlusTreeInternalPage K) (parent_page_id : Int) :
    BPlusTreeInternalPage K :=
  { p with parent_page_id_ := parent_page_id }

/-- `array[i]` read; `none` when slot `i` is outside the page buffer. -/
def rd (p : BPlusTreeInternalPage K) (i : Int) : Option (K × Int) :=
  if i < 0 then none else p.array[i.toNat]?

/-- `array[i] = m`; `none` when slot `i` is outside the page buffer. -/
def wr (p : BPlusTreeInternalPage K) (i : Int) (m : K × Int) : Option (BPlusTreeInternalPage K) :=
  if 0 ≤ i ∧ i.toNat < p.array.length then some { p with array := p.array.set i.toNat m }
  else none

/-- `Init(page_id, parent_id)`. The maximum size `(PAGE_SIZE - sizeof(BPlusTreeInternalPage))
/ sizeof(MappingType)` is the number of slots behind the header, `array.length`. -/
def Init (p : BPlusTreeInternalPage K) (page_id parent_id : Int) : BPlusTreeInternalPage K :=
  { p with page_id_ := page_id, parent_page_id_ := parent_id,
           page_type_ := IndexPageType.INTERNAL_PAGE, size_ := 1,
           max_size_ := p.array.length }

/-- `KeyAt(index)`; `none` when the assertion fails. -/
def KeyAt (p : BPlusTreeInternalPage K) (index : Int) : Option K :=
  if 0 ≤ index ∧ index < p.GetSize then (p.rd index).map Prod.fst else none

/-- `SetKeyAt(index, key)`; `none` when the assertion fails. -/
def SetKeyAt (p : BPlusTreeInternalPage K) (index : Int) (key : K) :
    Option (BPlusTreeInternalPage K) :=
  if 0 ≤ index ∧ index < p.GetSize then (p.rd index).bind (fun m => p.wr index (key, m.2))
  else none

/-- The loop of `ValueIndex` (lines 59-66) with `n` iterations left and counter `i`. -/
def valueIndexLoop (p : BPlusTreeInternalPage K) (value : Int) : Nat → Int → Option Int
  | 0, _ => some (-1)
  | n + 1, i => (p.rd i).bind (fun m => if m.2 = value then some i else valueIndexLoop p value n (i + 1))

/-- `ValueIndex(value)`; `none` when the assertion fails. -/
def ValueIndex (p : BPlusTreeInternalPage K) (value : Int) : Option Int :=
  if p.GetSize > 1 then valueIndexLoop p value p.GetSize.toNat 0 else none

/-- `ValueAt(index)`; `none` when the assertion fails. -/
def ValueAt (p : BPlusTreeInternalPage K) (index : Int) : Option Int :=
  if 0 ≤ index ∧ index < p.GetSize then (p.rd index).map Prod.snd else none

/-- The loop of `Lookup` (lines 95-102): the final `r`. `fuel` bounds the number of
iterations, and `none` means that the loop has not ended or has left the page buffer. -/
def lookupLoop (p : BPlusTreeInternalPage K) (key : K) (comparator : K → K → Int) :
    Nat → Int → Int → Option Int
  | 0, _, _ => none
  | fuel + 1, l, r =>
    if l ≤ r then
      let mid := (l + r) / 2
      (p.rd mid).bind (fun m =>
        if comparator m.1 key ≤ 0 then lookupLoop p key comparator fuel (mid + 1) r
        else lookupLoop p key comparator fuel l (mid - 1))
    else some r

/-- `Lookup(key, comparator)`; `none` when the assertion fails. The loop halves `r - l + 1`,
which is below `GetSize()` at the start, so `GetSize()` iterations are allowed. -/
def Lookup (p : BPlusTreeInternalPage K) (key : K) (comparator : K → K → Int) : Option Int :=
  if p.GetSize > 1 then
    (lookupLoop p key comparator p.GetSize.toNat 1 (p.GetSize - 1)).bind (fun r =>
      (p.rd r).map Prod.snd)
  else none

/-- A loop of `n` iterations whose body is `array[dst i] = array[src i]`, with the counter
starting at `i` and changing by `d` after each iteration. -/
def moveSlots (dst src : Int → Int) (d : Int) :
    Nat → Int → BPlusTreeInternalPage K → Option (BPlusTreeInternalPage K)
  | 0, _, p => some p
  | n + 1, i, p =>
    (p.rd (src i)).bind (fun m => (p.wr (dst i) m).bind (moveSlots dst src d n (i + d)))

/-- `InsertNodeAfter(old_value, new_key, new_value)`: the page and the value returned;
`none` when the assertion fails. The loop of lines 138-141 runs for `i = GetSize() - 1` down
to `index + 1`. -/
def InsertNodeAfter (p : BPlusTreeInternalPage K) (old_value : Int) (new_key : K)
    (new_value : Int) : Option (BPlusTreeInternalPage K × Int) :=
  if p.GetSize > 1 then
    (p.ValueIndex old_value).bind (fun index =>
      (moveSlots (fun i => i + 1) (fun i => i) (-1) (p.GetSize - 1 - index).toNat
          (p.GetSize - 1) p).bind (fun p1 =>
        (p1.wr (index + 1) (new_key, new_value)).map (fun p2 =>
          ((p2.IncreaseSize 1), (p2.IncreaseSize 1).GetSize))))
  else none

/-- The loop of `CopyHalfFrom` and `CopyAllFrom`: `array[off + i] = items[i]`, with `n`
iterations left. `items` is the memory from the pointer `items` to the end of the page buffer
it points into. -/
def copyItems (items : List (K × Int)) (off : Int) :
    Nat → Int → BPlusTreeInternalPage K → Option (BPlusTreeInternalPage K)
  | 0, _, p => some p
  | n + 1, i, p =>
    (if i < 0 then none else items[i.toNat]?).bind (fun m =>
      (p.wr (off + i) m).bind (copyItems items off n (i + 1)))

/-- `CopyHalfFrom(items, size, buffer_pool_manager)`. -/
def CopyHalfFrom (p : BPlusTreeInternalPage K) (items : List (K × Int)) (size : Int) :
    Option (BPlusTreeInternalPage K) :=
  (copyItems items 0 size.toNat 0 p).map (fun p1 => p1.SetSize size)

/-- `Remove(index)`; `none` when the assertion fails. The loop of lines 197-199 runs for
`i = index + 1` up to `GetSize() - 1`. -/
def Remove (p : BPlusTreeInternalPage K) (index : Int) : Option (BPlusTreeInternalPage K) :=
  if index < p.GetSize then
    (moveSlots (fun i => i) (fun i => i + 1) 1 (p.GetSize - (index + 1)).toNat (index + 1) p).map
      (fun p1 => p1.IncreaseSize (-1))
  else none

/-- `CopyAllFrom(items, size, buffer_pool_manager)`. -/
def CopyAllFrom (p : BPlusTreeInternalPage K) (items : List (K × Int)) (size : Int) :
    Option (BPlusTreeInternalPage K) :=
  (copyItems items p.GetSize size.toNat 0 p).map (fun p1 => p1.IncreaseSize size)

/-- `CopyLastFrom(pair, buffer_pool_manager)`. -/
def CopyLastFrom (p : BPlusTreeInternalPage K) (pair : K × Int) :
    Option (BPlusTreeInternalPage K) :=
  (p.wr p.GetSize pair).map (fun p1 => p1.IncreaseSize 1)

/-- `CopyFirstFrom(pair, parent_index, buffer_pool_manager)`. The loop of lines 333-335 runs
for `i = GetSize()` down to 1. -/
def CopyFirstFrom (p : BPlusTreeInternalPage K) (pair : K × Int) :
    Option (BPlusTreeInternalPage K) :=
  (moveSlots (fun i => i) (fun i => i - 1) (-1) p.GetSize.toNat p.GetSize p).bind (fun p1 =>
    (p1.wr 0 pair).map (fun p2 => p2.IncreaseSize 1))

end BPlusTreeInternalPage

namespace BPlusTreeInternalPage

/-- A three-way comparator on integer keys: negative, zero or positive as `a` is below, equal
to or above `b`. -/
def intComparator (a b : Int) : Int :=
  if a < b then -1 else if a = b then 0 else 1

/-- The page of the lookup scenario: keys `[_, 10, 20, 30]` and children
`[100, 101, 102, 103]` in a buffer of six slots, page id 1. -/
def scenarioPage : BPlusTreeInternalPage Int :=
  ⟨IndexPageType.INTERNAL_PAGE, 4, 6, 0, 1,
    [(0, 100), (10, 101), (20, 102), (30, 103), (77, 777), (88, 888)]⟩

end BPlusTreeInternalPage

/-- A page of the buffer pool as the internal-page code uses it: the pin count and dirty flag
of its frame, and its buffer read as a B+ tree page (`reinterpret_cast` of `GetData()`).
Modelled from the spec: `Page` is declared in `page/page.h`, which is not part of the sources
at hand. -/
structure TreeFrame (K : Type) where
  pin_count_ : Int
  is_dirty_ : Bool
  node : BPlusTreeInternalPage K

/-- The resident pages of the buffer pool as the internal-page code uses them, by page id,
and the replacer of the pool.
Modelled from the spec: the code reaches its parent and child pages through
`FetchPage(id)->GetData()` and the layout of that buffer is declared in absent headers, so
the resident pages are kept as a map from page ids to typed pages: `frames id = some f` when
the page table maps `id` to a frame, whose pin count, dirty flag and contents are `f`, and
`frames id = none` when `id` is not resident. The replacer holds frames; a frame is named here
by the id of the page it holds. The pages `this` and `recipient` of a member function are
pages of this pool and are named by their ids. -/
structure TreePool (K : Type) where
  frames : Int → Option (TreeFrame K)
  replacer_ : LRUReplacer Int

namespace TreePool

variable {K : Type}

/-- The pool with the page `page_id` replaced. -/
def set (pool : TreePool K) (page_id : Int) (f : TreeFrame K) : TreePool K :=
  { pool with frames := fun i => if i = page_id then some f else pool.frames i }

/-- `BufferPoolManager::FetchPage(page_id)` as far as the resident pages go (lines 56-64):
`nullptr` for the invalid id; for a resident page the pin count goes up by one and the
replacer is left as it is. The callers throw on `nullptr`: `none`. For a page that is not
resident the C++ call takes a frame from the free list or the replacer and reads the page
from disk (lines 67-95); that path is outside this pool of resident pages, and the call has
no result here. -/
def FetchPage (pool : TreePool K) (page_id : Int) : Option (TreePool K) :=
  if page_id = INVALID_PAGE_ID then none
  else
    (pool.frames page_id).map
      (fun f => pool.set page_id { f with pin_count_ := f.pin_count_ + 1 })

/-- `BufferPoolManager::UnpinPage(page_id, is_dirty)` (lines 105-129); the boolean result is
not used by the callers. When the pin count reaches 0 the frame is handed to
`LRUReplacer::Insert`, and the call has no result when that call has none. -/
def UnpinPage (pool : TreePool K) (page_id : Int) (is_dirty : Bool) : Option (TreePool K) :=
  if page_id = INVALID_PAGE_ID then some pool
  else
    match pool.frames page_id with
    | some f =>
      if f.pin_count_ ≤ 0 then some pool
      else
        let pool1 := pool.set page_id
          { f with pin_count_ := f.pin_count_ - 1, is_dirty_ := is_dirty }
        if f.pin_count_ - 1 = 0 then
          (pool1.replacer_.Insert page_id).map (fun r => { pool1 with replacer_ := r })
        else some pool1
    | none => some pool

/-- The page `page_id` read as a B+ tree page. -/
def node (pool : TreePool K) (page_id : Int) : Option (BPlusTreeInternalPage K) :=
  (pool.frames page_id).map (fun f => f.node)

/-- A write to the B+ tree page `page_id`. -/
def setNode (pool : TreePool K) (page_id : Int) (n : BPlusTreeInternalPage K) :
    Option (TreePool K) :=
  (pool.frames page_id).map (fun f => pool.set page_id { f with node := n })

end TreePool

/-- Sequencing of two steps of a function body: the second step runs on the result of the
first, and the body is abandoned (`none`) when the first step has no result. -/
@[noinline]
def next {α β : Type} (x : Option α) (f : α → Option β) : Option β :=
  match x with
  | none => none
  | some a => f a

namespace BPlusTreeInternalPage

variable {K : Type}

/-- The loop of `MoveHalfTo` (lines 162-171) with `n` iterations left and counter `i`, on the
pages `self` (`this`) and `recipient`. `FetchPage` returning `nullptr` throws: `none`. -/
def moveHalfLoop (self recipient : Int) : Nat → Int → TreePool K → Option (TreePool K)
  | 0, _, pool => some pool
  | n + 1, i, pool =>
    next (pool.node self) fun this =>
    next (this.rd i) fun m =>
    next (pool.FetchPage m.2) fun pool1 =>
    next (pool1.node m.2) fun bplus =>
    next (pool1.node recipient) fun rcp =>
    next (pool1.setNode m.2 (bplus.SetParentPageId rcp.GetPageId)) fun pool2 =>
    next (pool2.node m.2) fun bplus2 =>
    next (pool2.UnpinPage bplus2.GetPageId true) fun pool3 =>
    moveHalfLoop self recipient n (i + 1) pool3

/-- `MoveHalfTo(recipient, buffer_pool_manager)` called on the page `self`. -/
def MoveHalfTo (pool : TreePool K) (self recipient : Int) : Option (TreePool K) :=
  next (pool.node self) fun this =>
  let move_size := (this.GetSize + 1) / 2
  next (pool.node recipient) fun rcp =>
  if this.GetSize - move_size < 0 then none
  else
    next (rcp.CopyHalfFrom (this.array.drop (this.GetSize - move_size).toNat) move_size)
      fun rcp1 =>
    next (pool.setNode recipient rcp1) fun pool1 =>
    next (pool1.node self) fun this1 =>
    next (moveHalfLoop self recipient (this1.GetSize - (this1.GetSize - move_size)).toNat
      (this1.GetSize - move_size) pool1) fun pool2 =>
    next (pool2.node self) fun this2 =>
    pool2.setNode self (this2.IncreaseSize (-move_size))

/-- The loop of `MoveAllTo` (lines 235-243) with `n` iterations left and counter `i`. -/
def moveAllLoop (self : Int) (index_in_parent : Int) :
    Nat → Int → TreePool K → Option (TreePool K)
  | 0, _, pool => some pool
  | n + 1, i, pool =>
    next (pool.node self) fun this =>
    next (this.rd i) fun m =>
    next (pool.FetchPage m.2) fun pool1 =>
    next (pool1.node m.2) fun bplus =>
    next (pool1.setNode m.2 (bplus.SetParentPageId index_in_parent)) fun pool2 =>
    next (pool2.node m.2) fun bplus2 =>
    next (pool2.UnpinPage bplus2.GetPageId true) fun pool3 =>
    moveAllLoop self index_in_parent n (i + 1) pool3

/-- `MoveAllTo(recipient, index_in_parent, buffer_pool_manager)` called on the page `self`. -/
def MoveAllTo (pool : TreePool K) (self recipient : Int) (index_in_parent : Int) :
    Option (TreePool K) :=
  next (pool.node self) fun this =>
  next (pool.FetchPage this.GetParentPageId) fun pool1 =>
  next (pool1.node this.GetParentPageId) fun bplus_parent =>
  -- array[0].first = bplus_parent->KeyAt(index_in_parent);
  next (bplus_parent.KeyAt index_in_parent) fun key =>
  next (pool1.node self) fun this1 =>
  next (this1.rd 0) fun m0 =>
  next (this1.wr 0 (key, m0.2)) fun this2 =>
  next (pool1.setNode self this2) fun pool2 =>
  -- bplus_parent->Remove(index_in_parent);
  next (pool2.node this.GetParentPageId) fun bplus_parent2 =>
  next (bplus_parent2.Remove index_in_parent) fun bplus_parent3 =>
  next (pool2.setNode this.GetParentPageId bplus_parent3) fun pool3 =>
  next (pool3.node self) fun this3 =>
  next (pool3.UnpinPage this3.GetParentPageId true) fun pool4 =>
  -- recipient->CopyAllFrom(array, GetSize(), buffer_pool_manager);
  next (pool4.node self) fun this4 =>
  next (pool4.node recipient) fun rcp =>
  next (rcp.CopyAllFrom this4.array this4.GetSize) fun rcp1 =>
  next (pool4.setNode recipient rcp1) fun pool5 =>
  next (pool5.node self) fun this5 =>
  next (moveAllLoop self index_in_parent this5.GetSize.toNat 0 pool5) fun pool6 =>
  next (pool6.node self) fun this6 =>
  pool6.setNode self (this6.SetSize 1)

/-- `MoveFirstToEndOf(recipient, buffer_pool_manager)` called on the page `self`. -/
def MoveFirstToEndOf (pool : TreePool K) (self recipient : Int) : Option (TreePool K) :=
  next (pool.node self) fun this =>
  next (pool.FetchPage this.GetParentPageId) fun pool1 =>
  next (pool1.node this.GetParentPageId) fun bplus_parent =>
  -- array[0].first = bplus_parent->KeyAt(bplus_parent->ValueIndex(GetPageId()));
  next (pool1.node self) fun this1 =>
  next (bplus_parent.ValueIndex this1.GetPageId) fun index =>
  next (bplus_parent.KeyAt index) fun key =>
  next (this1.rd 0) fun m0 =>
  next (this1.wr 0 (key, m0.2)) fun this2 =>
  next (pool1.setNode self this2) fun pool2 =>
  -- bplus_parent->SetKeyAt(bplus_parent->ValueIndex(GetPageId()), array[1].first);
  next (pool2.node this.GetParentPageId) fun bplus_parent2 =>
  next (pool2.node self) fun this3 =>
  next (bplus_parent2.ValueIndex this3.GetPageId) fun index2 =>
  next (this3.rd 1) fun m1 =>
  next (bplus_parent2.SetKeyAt index2 m1.1) fun bplus_parent3 =>
  next (pool2.setNode this.GetParentPageId bplus_parent3) fun pool3 =>
  next (pool3.node self) fun this4 =>
  next (pool3.UnpinPage this4.GetParentPageId true) fun pool4 =>
  -- recipient->CopyLastFrom(array[0], buffer_pool_manager);
  next (pool4.node self) fun this5 =>
  next (this5.rd 0) fun pair =>
  next (pool4.node recipient) fun rcp =>
  next (rcp.CopyLastFrom pair) fun rcp1 =>
  next (pool4.setNode recipient rcp1) fun pool5 =>
  -- auto *pp = buffer_pool_manager->FetchPage(array[0].second);
  next (pool5.node self) fun this6 =>
  next (this6.rd 0) fun first =>
  next (pool5.FetchPage first.2) fun pool6 =>
  next (pool6.node first.2) fun bplus =>
  next (pool6.node recipient) fun rcp2 =>
  next (pool6.setNode first.2 (bplus.SetParentPageId rcp2.GetPageId)) fun pool7 =>
  -- buffer_pool_manager->UnpinPage(GetPageId(), true);
  next (pool7.node self) fun this7 =>
  next (pool7.UnpinPage this7.GetPageId true) fun pool8 =>
  next (pool8.node self) fun this8 =>
  next (moveSlots (fun i => i - 1) (fun i => i) 1 (this8.GetSize - 1).toNat 1 this8) fun this9 =>
  pool8.setNode self (this9.IncreaseSize (-1))

/-- `MoveLastToFrontOf(recipient, parent_index, buffer_pool_manager)` called on the page
`self`. The parameter `parent_index` is not used by the function. -/
def MoveLastToFrontOf (pool : TreePool K) (self recipient : Int) (parent_index : Int) :
    Option (TreePool K) :=
  next (pool.node self) fun this =>
  next (pool.FetchPage this.GetParentPageId) fun pool1 =>
  next (pool1.node this.GetParentPageId) fun bplus_parent =>
  -- bplus_parent->SetKeyAt(bplus_parent->ValueIndex(GetPageId()), array[GetSize() - 1].first);
  next (pool1.node self) fun this1 =>
  next (bplus_parent.ValueIndex this1.GetPageId) fun index =>
  next (this1.rd (this1.GetSize - 1)) fun last =>
  next (bplus_parent.SetKeyAt index last.1) fun bplus_parent2 =>
  next (pool1.setNode this.GetParentPageId bplus_parent2) fun pool2 =>
  next (pool2.node self) fun this2 =>
  next (pool2.UnpinPage this2.GetParentPageId true) fun pool3 =>
  -- recipient->CopyLastFrom(array[GetSize() - 1], buffer_pool_manager);
  next (pool3.node self) fun this3 =>
  next (this3.rd (this3.GetSize - 1)) fun pair =>
  next (pool3.node recipient) fun rcp =>
  next (rcp.CopyLastFrom pair) fun rcp1 =>
  next (pool3.setNode recipient rcp1) fun pool4 =>
  -- auto *pp = buffer_pool_manager->FetchPage(array[GetSize() - 1].second);
  next (pool4.node self) fun this4 =>
  next (this4.rd (this4.GetSize - 1)) fun moved =>
  next (pool4.FetchPage moved.2) fun pool5 =>
  next (pool5.node moved.2) fun bplus =>
  next (pool5.node recipient) fun rcp2 =>
  next (pool5.setNode moved.2 (bplus.SetParentPageId rcp2.GetPageId)) fun pool6 =>
  -- buffer_pool_manager->UnpinPage(GetPageId(), true);
  next (pool6.node self) fun this5 =>
  next (pool6.UnpinPage this5.GetPageId true) fun pool7 =>
  next (pool7.node self) fun this6 =>
  pool7.setNode self (this6.IncreaseSize (-1))

end BPlusTreeInternalPage

namespace BPlusTreeInternalPage

variable {K : Type}

/-- The page without its parent page id: what reparenting a page leaves alone. -/
def core (n : BPlusTreeInternalPage K) : BPlusTreeInternalPage K :=
  { n with parent_page_id_ := 0 }

end BPlusTreeInternalPage

/-- The pool `b` has the pages of the pool `a`, with the same sizes, arrays and page ids;
pin counts, dirty flags and parent page ids may differ. -/
def TreePool.SameData {K : Type} (a b : TreePool K) : Prop :=
  ∀ id, (b.node id).map BPlusTreeInternalPage.core = (a.node id).map BPlusTreeInternalPage.core

namespace BPlusTreeInternalPage

/-- A leaf page of the scenario pool with page id `id` and parent page id `parent`, unpinned
and clean. -/
def scenarioLeaf (id parent : Int) : TreeFrame Int :=
  ⟨0, false, ⟨IndexPageType.LEAF_PAGE, 0, 4, parent, id, []⟩⟩

/-- The replacer after `Insert` of the values `vs` in turn, starting from the empty
replacer. -/
def replacerOf (vs : List Int) : LRUReplacer Int :=
  ((LRUReplacer.run LRUReplacer.new (vs.map LRUReplacer.Call.Insert)).map Prod.fst).getD
    LRUReplacer.new

/-- The resident pages of the scenario pools. Page 7 is the parent, with children 3 (slot 0),
2 (slot 1, key 50) and 9 (slot 2, key 90). Page 2 holds the mappings
`[(_, 20), (60, 21), (70, 22)]` and page 3 the mappings `[(_, 30), (40, 31)]`, each in a
buffer of six slots and pinned once. Page 4 is a freshly initialised internal page, pinned
once. The pages 9, 20, 21, 22, 30 and 31 are leaves that name their parent. -/
def scenarioFrames : Int → Option (TreeFrame Int) :=
  fun i =>
    if i = 7 then
      some ⟨0, false, ⟨IndexPageType.INTERNAL_PAGE, 3, 6, -1, 7,
        [(0, 3), (50, 2), (90, 9), (0, 0), (0, 0), (0, 0)]⟩⟩
    else if i = 2 then
      some ⟨1, false, ⟨IndexPageType.INTERNAL_PAGE, 3, 6, 7, 2,
        [(0, 20), (60, 21), (70, 22), (0, 0), (0, 0), (0, 0)]⟩⟩
    else if i = 3 then
      some ⟨1, false, ⟨IndexPageType.INTERNAL_PAGE, 2, 6, 7, 3,
        [(0, 30), (40, 31), (0, 0), (0, 0), (0, 0), (0, 0)]⟩⟩
    else if i = 4 then
      some ⟨1, false, Init ⟨IndexPageType.INVALID_INDEX_PAGE, 0, 0, -1, -1,
        [(0, 0), (0, 0), (0, 0), (0, 0), (0, 0), (0, 0)]⟩ 4 7⟩
    else if i = 9 then some (scenarioLeaf 9 7)
    else if 20 ≤ i ∧ i ≤ 22 then some (scenarioLeaf i 2)
    else if 30 ≤ i ∧ i ≤ 31 then some (scenarioLeaf i 3)
    else none

/-- The scenario pool: the pages of `scenarioFrames`; the pages 7, 9, 20, 21, 22, 30 and 31
are unpinned and in the replacer, in that order. -/
def scenarioPool : TreePool Int :=
  ⟨scenarioFrames, replacerOf [7, 9, 20, 21, 22, 30, 31]⟩

/-- The scenario pool with a single unpinned page: every page is pinned once, except the leaf
21, a child of page 2, which is unpinned and the only element of the replacer. -/
def scenarioSoleChild : TreePool Int :=
  ⟨fun i => if i = 21 then scenarioFrames i
      else (scenarioFrames i).map (fun f => { f with pin_count_ := 1 }),
    replacerOf [21]⟩

/-- The size and the valid mappings of the page `id` of a pool. -/
def mappings (pool : TreePool Int) (id : Int) : Option (Int × List (Int × Int)) :=
  (pool.node id).map (fun x => (x.size_, x.array.take x.size_.toNat))

/-- The parent page id in the header of the page `id` of a pool. -/
def parentOf (pool : TreePool Int) (id : Int) : Option Int :=
  (pool.node id).map (fun x => x.parent_page_id_)

end BPlusTreeInternalPage

namespace ExtendibleHash

variable {V : Type}

/-- The bucket `key` hashes to is full, and every key in it has the hash bits of `key` from
the local depth of the bucket on. -/
def Stuck (t : ExtendibleHash V) (key : Int) : Prop :=
  ¬ (t.slot (t.HashKey key)).size < t.bucket_size ∧
    ∀ e ∈ (t.slot (t.HashKey key)).kv, ∀ j, (t.slot (t.HashKey key)).local_depth ≤ j →
      (castSizeT e.1).testBit j = (castSizeT key).testBit j

end ExtendibleHash

namespace ExtendibleHash

variable {V : Type}

/-- The bucket signature invariant in the words of the claim: for every directory slot
`i < 2^global_depth` whose bucket has local depth `d`, `d <= global_depth` and every key
stored in that bucket agrees with `i` on its low `d` bits. -/
def signatureOk (t : ExtendibleHash V) : Bool :=
  (List.range (2 ^ t.global_depth)).all (fun i =>
    decide ((t.slot i).local_depth ≤ t.global_depth) &&
      ((t.slot i).kv.take (t.slot i).size).all (fun e =>
        castSizeT e.1 % 2 ^ (t.slot i).local_depth == i % 2 ^ (t.slot i).local_depth))

/-- Bucket capacity 1 and `Insert` of the keys 2, 3, 6, 1 in this order: the table after the
first `n` calls. -/
def scenarioSignature (n : Nat) : Option (ExtendibleHash Nat) :=
  insertMany 8 (ExtendibleHash.new 1) ([(2, 102), (3, 103), (6, 106), (1, 101)].take n)

/-- Bucket capacity 1 and `Insert` of the keys 0, 11, 4, 5, 8, 7 in this order: the table
after the first `n` calls. -/
def scenarioLostKey (n : Nat) : Option (ExtendibleHash Nat) :=
  insertMany 8 (ExtendibleHash.new 1)
    ([(0, 100), (11, 111), (4, 104), (5, 105), (8, 108), (7, 107)].take n)

end ExtendibleHash

namespace ExtendibleHash

/-- Bucket capacity 1 and `Insert` of the keys 2, 7, 6, 1 in this order. -/
def scenarioStuck : Option (ExtendibleHash Nat) :=
  insertMany 8 (ExtendibleHash.new 1) [(2, 102), (7, 107), (6, 106), (1, 101)]

end ExtendibleHash

namespace BufferPoolManager

/-- A resident page that is fetched again after its pin count has gone to 0: a pool of one
frame, `NewPage` (page 0), `UnpinPage(0, false)` and `FetchPage(0)`. -/
def scenarioRepinned : Option BufferPoolManager :=
  (BufferPoolManager.new 50 1 DiskManager.new).run
    [Call.NewPage, Call.UnpinPage 0 false, Call.FetchPage 0]

/-- A page that is deleted after its pin count has gone to 0: a pool of one frame, `NewPage`
(page 0), `UnpinPage(0, false)` and `DeletePage(0)`. -/
def scenarioDeleted : Option BufferPoolManager :=
  (BufferPoolManager.new 50 1 DiskManager.new).run
    [Call.NewPage, Call.UnpinPage 0 false, Call.DeletePage 0]

/-- Where frame `pp` is: whether it is on the free list, whether the page table maps
`page_id` to it, its pin count, and whether the replacer holds it. -/
def frameState (s : BufferPoolManager) (pp : Nat) (page_id : Int) :
    Bool × Bool × Option Int × Bool :=
  (decide (pp ∈ s.free_list_), decide (s.page_table_.Find page_id = some pp),
    (s.pages_[pp]?).map (fun p => p.pin_count_), s.replacer_.count pp)

end BufferPoolManager

namespace BPlusTreeInternalPage

/-- The pin counts of the pages `ids` of a pool. -/
def pins (pool : TreePool Int) (ids : List Int) : List (Option Int) :=
  ids.map (fun i => (pool.frames i).map (fun f => f.pin_count_))

end BPlusTreeInternalPage

namespace BufferPoolManager

/-- One call that returns, as `step`, with `fuel` calls allowed to each `Insert` into the page
table. -/
def stepWith (fuel : Nat) (s : BufferPoolManager) : Call → Option BufferPoolManager
  | Call.WriteData pp data => s.writeData pp data
  | Call.FetchPage page_id => (s.FetchPage fuel page_id).map Prod.fst
  | Call.UnpinPage page_id is_dirty => (s.UnpinPage page_id is_dirty).map Prod.fst
  | Call.FlushPage page_id => (s.FlushPage page_id).map Prod.fst
  | Call.DeletePage page_id => (s.DeletePage page_id).map Prod.fst
  | Call.NewPage =>
    if s.page_table_.Find s.disk_manager_.next_page_id = none then
      (s.NewPage fuel).map Prod.fst
    else none

/-- A sequence of calls, each of which returns, with `fuel` calls allowed to each `Insert`
into the page table. -/
def runWith (fuel : Nat) (s : BufferPoolManager) : List Call → Option BufferPoolManager
  | [] => some s
  | c :: cs => (s.stepWith fuel c).bind (fun s1 => runWith fuel s1 cs)

/-- The page id and the pin count of every frame, and the free list. -/
def frameTable (s : BufferPoolManager) : List (Int × Int) × List Nat :=
  (s.pages_.map (fun p => (p.page_id_, p.pin_count_)), s.free_list_)

/-- A pool with more frames than a bucket of the page table holds: `BUCKET_SIZE = 1`, a pool
of 6 frames, and `FetchPage` of the pages 0, 11, 4, 5, 8. -/
def scenarioLostFrame : Option BufferPoolManager :=
  (BufferPoolManager.new 1 6 DiskManager.new).runWith 8
    [Call.FetchPage 0, Call.FetchPage 11, Call.FetchPage 4, Call.FetchPage 5, Call.FetchPage 8]

/-- The same with `BUCKET_SIZE = 2`: a pool of 7 frames, and `FetchPage` of the pages 60, 17,
24, 56, 51, 8. -/
def scenarioLostFrameTwo : Option BufferPoolManager :=
  (BufferPoolManager.new 2 7 DiskManager.new).runWith 8
    [Call.FetchPage 60, Call.FetchPage 17, Call.FetchPage 24, Call.FetchPage 56,
      Call.FetchPage 51, Call.FetchPage 8]

/-- A pool with a free frame whose page table cannot take page 4: `BUCKET_SIZE = 1`, a pool of
5 frames, and `FetchPage` of the pages 2, 7, 6, 1. -/
def scenarioNoReturn : Option BufferPoolManager :=
  (BufferPoolManager.new 1 5 DiskManager.new).runWith 8
    [Call.FetchPage 2, Call.FetchPage 7, Call.FetchPage 6, Call.FetchPage 1]

/-- A pool whose page table keeps a copy of a removed entry: `BUCKET_SIZE = 1`, a pool of 4
frames, `FetchPage` of the pages 6, 7, 1, then `UnpinPage(6, false)`, `DeletePage(6)`,
`FetchPage(6)`, `FetchPage(2)`, `UnpinPage(6, false)` and `UnpinPage(2, false)`. -/
def scenarioStaleEntry : Option BufferPoolManager :=
  (BufferPoolManager.new 1 4 DiskManager.new).runWith 8
    [Call.FetchPage 6, Call.FetchPage 7, Call.FetchPage 1, Call.UnpinPage 6 false,
      Call.DeletePage 6, Call.FetchPage 6, Call.FetchPage 2, Call.UnpinPage 6 false,
      Call.UnpinPage 2 false]

end BufferPoolManager

/-- Shape of the page table of a pool of `n` frames, whatever the bucket capacity: a table of
the right shape in which no bucket holds a page id twice and every value is a frame of the
pool. -/
def ExtendibleHash.TableSound (n : Nat) (t : ExtendibleHash Nat) : Prop :=
  t.WF ∧ ∀ b ∈ t.bucket, (b.kv.map Prod.fst).Nodup ∧ ∀ e ∈ b.kv, e.2 < n

/-- What holds in every reachable state of a pool of `n` frames, whatever `BUCKET_SIZE` is:
there are `n` frames and the page table is sound. -/
def BufferPoolManager.Sound (n : Nat) (s : BufferPoolManager) : Prop :=
  s.pages_.length = n ∧ s.page_table_.TableSound n

/-! ## Theorems -/

/-! ### Lists -/

theorem getElem?_findIdx {α : Type} (p : α → Bool) (l : List α) :
    l[l.findIdx p]? = l.find? p := by
  induction l with
  | nil => simp
  | cons a l ih =>
    by_cases h : p a
    · simp [List.findIdx_cons, h]
    · simp [List.findIdx_cons, h, ih]

theorem eraseIdx_findIdx {α : Type} (p : α → Bool) (l : List α) :
    l.eraseIdx (l.findIdx p) = l.eraseP p := by
  induction l with
  | nil => simp
  | cons a l ih =>
    by_cases h : p a
    · simp [List.findIdx_cons, h]
    · simp [List.findIdx_cons, h, ih]

theorem length_le_of_nodup_lt {l : List Nat} {n : Nat} (hn : l.Nodup) (hl : ∀ x ∈ l, x < n) :
    l.length ≤ n := by
  have h := (List.subperm_of_subset hn (fun x hx => List.mem_range.mpr (hl x hx))).length_le
  simpa using h

/-! ### The hash table before its first overflow -/

namespace ExtendibleHash

variable {V : Type}

theorem HashKey_eq_mod (t : ExtendibleHash V) (key : Int) :
    t.HashKey key = castSizeT key % 2 ^ t.global_depth := by
  simp [HashKey, Nat.one_shiftLeft, Nat.and_pow_two_sub_one_eq_mod]

theorem scan_full (key : Int) (b : Bucket V) (h : b.size = b.kv.length) :
    scan key b = if b.kv.findIdx (fun e => e.1 == key) < b.kv.length
      then some (b.kv.findIdx (fun e => e.1 == key)) else none := by
  have ht : b.kv.take b.size = b.kv := by rw [h]; exact List.take_length _
  simp only [scan, ht]

theorem scan_eq_none (key : Int) (b : Bucket V) (h : b.size = b.kv.length) :
    scan key b = none ↔ ∀ e ∈ b.kv, e.1 ≠ key := by
  rw [scan_full key b h]
  by_cases hlt : b.kv.findIdx (fun e => e.1 == key) < b.kv.length
  · simp only [hlt, if_true]
    obtain ⟨x, hx, hp⟩ := List.findIdx_lt_length.mp hlt
    constructor
    · intro h; cases h
    · intro h; exact absurd (by simpa using hp) (h x hx)
  · simp only [hlt, if_false, true_iff]
    intro e he hk
    exact hlt (List.findIdx_lt_length.mpr ⟨e, he, by simpa using hk⟩)

theorem HashKey_flat (B : Nat) (kv : List (Int × V)) (key : Int) :
    (flat B kv).HashKey key = 0 := by
  simp [HashKey_eq_mod, flat, Nat.mod_one]

theorem slot_flat (B : Nat) (kv : List (Int × V)) :
    (flat B kv).slot 0 = { local_depth := 0, kv := kv, size := kv.length } := by
  simp [slot, flat]

theorem Find_flat (B : Nat) (kv : List (Int × V)) (key : Int) :
    (flat B kv).Find key = (kv.find? (fun e => e.1 == key)).map Prod.snd := by
  simp only [Find, HashKey_flat, slot_flat]
  rw [scan_full _ _ rfl]
  by_cases hlt : kv.findIdx (fun e => e.1 == key) < kv.length
  · simp only [hlt, if_true, getElem?_findIdx]
  · have hnone : kv.find? (fun e => e.1 == key) = none := by
      rw [List.find?_eq_none]
      intro x hx hp
      exact hlt (List.findIdx_lt_length.mpr ⟨x, hx, hp⟩)
    simp [hlt, hnone]

theorem Remove_flat (B : Nat) (kv : List (Int × V)) (key : Int) :
    ((flat B kv).Remove key).1 = flat B (kv.eraseP (fun e => e.1 == key)) := by
  simp only [Remove, HashKey_flat, slot_flat]
  rw [scan_full _ _ rfl]
  by_cases hlt : kv.findIdx (fun e => e.1 == key) < kv.length
  · obtain ⟨x, hx, hp⟩ := List.findIdx_lt_length.mp hlt
    simp only [hlt, if_true, eraseIdx_findIdx]
    have hl : (kv.eraseP (fun e => e.1 == key)).length = kv.length - 1 :=
      List.length_eraseP_of_mem (p := fun e => e.1 == key) hx hp
    simp [flat, hl]
  · have hall : ∀ a ∈ kv, ¬ (fun e : Int × V => e.1 == key) a = true := by
      intro a ha hp
      exact hlt (List.findIdx_lt_length.mpr ⟨a, ha, hp⟩)
    simp only [hlt, if_false, List.eraseP_of_forall_not hall]

theorem Insert_flat [DecidableEq V] (B : Nat) (kv : List (Int × V)) (key : Int) (value : V)
    (fuel : Nat) (h : kv.length < B) :
    Insert (fuel + 1) (flat B kv) key value = some (flat B (kv ++ [(key, value)])) := by
  unfold Insert
  simp only [HashKey_flat, slot_flat]
  simp [flat, h]

end ExtendibleHash

/-! ### The replacer only holds values that were inserted -/

namespace LRUReplacer

variable {T : Type}

/-- Every live node of the heap carries a value satisfying `P`. -/
theorem load_eq_some_iff (r : LRUReplacer T) (a : Nat) (node : LRUlist T) :
    r.load a = some node ↔ r.heap[a]? = some (some node) := by
  unfold load
  cases h : r.heap[a]? with
  | none => simp
  | some x => cases x <;> simp

theorem mem_heap_of_load {r : LRUReplacer T} {a : Nat} {node : LRUlist T}
    (h : r.load a = some node) : some node ∈ r.heap :=
  List.getElem?_mem ((load_eq_some_iff r a node).mp h)

theorem vals_store {P : T → Prop} {r t : LRUReplacer T} {a : Nat} {f : LRUlist T → LRUlist T}
    (hr : ∀ node, some node ∈ r.heap → P node.value)
    (hs : r.store a f = some t)
    (hf : ∀ n, (f n).value = n.value) :
    ∀ node, some node ∈ t.heap → P node.value := by
  unfold store at hs
  cases hl : r.load a with
  | none => simp [hl] at hs
  | some n =>
    simp only [hl, Option.map_some', Option.some.injEq] at hs
    subst hs
    intro node hn
    rcases List.mem_or_eq_of_mem_set hn with h | h
    · exact hr node h
    · have : node = f n := by simpa using h
      rw [this, hf]
      exact hr n (mem_heap_of_load hl)

theorem vals_set_none {P : T → Prop} {h : List (Option (LRUlist T))} {a : Nat}
    (hr : ∀ node, some node ∈ h → P node.value) :
    ∀ node, some node ∈ h.set a none → P node.value := by
  intro node hn
  rcases List.mem_or_eq_of_mem_set hn with h1 | h1
  · exact hr node h1
  · cases h1

theorem vals_advance {P : T → Prop} {r r' : LRUReplacer T} {node : LRUlist T}
    (hr : ∀ node, some node ∈ r.heap → P node.value)
    (hs : r.advance node = some r') :
    ∀ node, some node ∈ r'.heap → P node.value := by
  unfold advance at hs
  cases hnx : node.next with
  | none =>
    simp only [hnx, Option.some.injEq] at hs
    subst hs
    exact hr
  | some nx =>
    simp only [hnx] at hs
    exact vals_store (r := { r with head := some nx }) hr hs (fun _ => rfl)

theorem vals_Victim [DecidableEq T] {P : T → Prop} {r r' : LRUReplacer T} {v : Option T}
    (hr : ∀ node, some node ∈ r.heap → P node.value)
    (hs : r.Victim = some (r', v)) :
    (∀ node, some node ∈ r'.heap → P node.value) ∧ (∀ x, v = some x → P x) := by
  unfold Victim at hs
  by_cases h0 : r.size = 0
  · simp only [h0, if_true, Option.some.injEq, Prod.mk.injEq] at hs
    obtain ⟨rfl, rfl⟩ := hs
    exact ⟨hr, fun x hx => by cases hx⟩
  · simp only [h0, if_false] at hs
    cases hh : r.head with
    | none => simp [hh] at hs
    | some vic =>
      cases hl : r.load vic with
      | none => simp [hh, hl] at hs
      | some node =>
        cases ha : r.advance node with
        | none => simp [hh, hl, ha] at hs
        | some r1 =>
          simp only [hh, hl, ha, Option.some_bind, Option.map_some', Option.some.injEq,
            Prod.mk.injEq] at hs
          obtain ⟨rfl, rfl⟩ := hs
          refine ⟨vals_set_none (vals_advance hr ha), ?_⟩
          intro x hx
          cases hx
          exact hr node (mem_heap_of_load hl)

theorem vals_unlink {P : T → Prop} {r r' : LRUReplacer T} {pp : Nat} {node : LRUlist T}
    (hr : ∀ node, some node ∈ r.heap → P node.value)
    (hs : r.unlink pp node = some r') :
    ∀ node, some node ∈ r'.heap → P node.value := by
  unfold unlink at hs
  split_ifs at hs with h1 h2
  · cases hnx : node.next with
    | none =>
      simp only [hnx, Option.some.injEq] at hs
      subst hs
      exact hr
    | some nx =>
      simp only [hnx] at hs
      exact vals_store (r := { r with head := some nx }) hr hs (fun _ => rfl)
  · cases hpv : node.prev with
    | none =>
      simp only [hpv, Option.some.injEq] at hs
      subst hs
      exact hr
    | some pv =>
      simp only [hpv] at hs
      exact vals_store (r := { r with tail := some pv }) hr hs (fun _ => rfl)
  · cases hpv : node.prev with
    | none => simp [hpv] at hs
    | some pv =>
      simp only [hpv] at hs
      cases h3 : r.store pv (fun n => { n with next := node.next }) with
      | none => simp [h3] at hs
      | some r1 =>
        have hr1 := vals_store (P := P) hr h3 (fun _ => rfl)
        simp only [h3, Option.some_bind] at hs
        cases h4 : r1.load pp with
        | none => simp [h4] at hs
        | some node1 =>
          simp only [h4, Option.some_bind] at hs
          cases h5 : node1.next with
          | none => simp [h5] at hs
          | some nx =>
            simp only [h5] at hs
            exact vals_store hr1 hs (fun _ => rfl)

theorem vals_Erase [DecidableEq T] {P : T → Prop} {r r' : LRUReplacer T} {value : T} {b : Bool}
    (hr : ∀ node, some node ∈ r.heap → P node.value)
    (hs : r.Erase value = some (r', b)) :
    ∀ node, some node ∈ r'.heap → P node.value := by
  unfold Erase at hs
  split_ifs at hs with hc
  · cases h1 : r.lookup value with
    | none => simp [h1] at hs
    | some pp =>
      cases h2 : r.load pp with
      | none => simp [h1, h2] at hs
      | some node =>
        cases h3 : r.unlink pp node with
        | none => simp [h1, h2, h3] at hs
        | some r1 =>
          simp only [h1, h2, h3, Option.some_bind, Option.map_some', Option.some.injEq,
            Prod.mk.injEq] at hs
          obtain ⟨rfl, -⟩ := hs
          exact vals_set_none (vals_unlink hr h3)
  · simp only [Option.some.injEq, Prod.mk.injEq] at hs
    obtain ⟨rfl, -⟩ := hs
    exact hr

theorem vals_Insert [DecidableEq T] {P : T → Prop} {r r' : LRUReplacer T} {value : T}
    (hr : ∀ node, some node ∈ r.heap → P node.value) (hv : P value)
    (hs : r.Insert value = some r') :
    ∀ node, some node ∈ r'.heap → P node.value := by
  unfold Insert at hs
  cases ht : r.tail with
  | none =>
    simp only [ht, Option.some.injEq] at hs
    subst hs
    intro node hn
    simp only [List.mem_append, List.mem_singleton, Option.some.injEq] at hn
    rcases hn with h | h
    · exact hr node h
    · subst h; exact hv
  | some tl =>
    simp only [ht] at hs
    obtain ⟨r1, hr1e, hs⟩ := Option.bind_eq_some.mp hs
    have hr1 : ∀ node, some node ∈ r1.heap → P node.value := by
      split_ifs at hr1e with hc
      · obtain ⟨x, hx, hx1⟩ := Option.map_eq_some'.mp hr1e
        obtain ⟨x1, x2⟩ := x
        simp only at hx1
        subst hx1
        exact vals_Erase hr hx
      · simp only [Option.some.injEq] at hr1e
        subst hr1e
        exact hr
    obtain ⟨r3, hr3e, hs⟩ := Option.map_eq_some'.mp hs
    subst hs
    obtain ⟨tl1, -, hst⟩ := Option.bind_eq_some.mp hr3e
    refine vals_store (P := P) (t := r3) ?_ hst (fun _ => rfl)
    intro node hn
    simp only [List.mem_append, List.mem_singleton, Option.some.injEq] at hn
    rcases hn with h | h
    · exact hr1 node h
    · subst h; exact hv

end LRUReplacer

/-! ### Association lists with distinct keys -/

theorem find?_key_of_mem {V : Type} {kv : List (Int × V)} {k : Int} {v : V}
    (hn : (kv.map Prod.fst).Nodup) (hm : (k, v) ∈ kv) :
    kv.find? (fun e => e.1 == k) = some (k, v) := by
  induction kv with
  | nil => cases hm
  | cons a l ih =>
    simp only [List.map_cons, List.nodup_cons] at hn
    rcases List.mem_cons.mp hm with h | h
    · subst h; simp
    · have hne : a.1 ≠ k := by
        intro he
        exact hn.1 (he ▸ List.mem_map_of_mem Prod.fst h)
      simp [List.find?_cons, hne, ih hn.2 h]

theorem mem_of_find?_key {V : Type} {kv : List (Int × V)} {k : Int} {v : V}
    (h : (kv.find? (fun e => e.1 == k)).map Prod.snd = some v) : (k, v) ∈ kv := by
  obtain ⟨e, he, hv⟩ := Option.map_eq_some'.mp h
  have hk : e.1 = k := by simpa using List.find?_some he
  have hm := List.mem_of_find?_eq_some he
  obtain ⟨e1, e2⟩ := e
  simp only at hk hv
  subst hk; subst hv
  exact hm

theorem find?_key_eq_none {V : Type} {kv : List (Int × V)} {k : Int} :
    (kv.find? (fun e => e.1 == k)).map Prod.snd = none ↔ ∀ e ∈ kv, e.1 ≠ k := by
  simp [List.find?_eq_none]

/-- Splitting a list with distinct keys at one of its entries. -/
theorem split_at_key {V : Type} {kv : List (Int × V)} {k : Int} {v : V}
    (hn : (kv.map Prod.fst).Nodup) (hm : (k, v) ∈ kv) :
    ∃ l1 l2, kv = l1 ++ (k, v) :: l2 ∧ kv.eraseP (fun e => e.1 == k) = l1 ++ l2 ∧
      ∀ e ∈ l1 ++ l2, e.1 ≠ k := by
  obtain ⟨l1, l2, rfl⟩ := List.append_of_mem hm
  refine ⟨l1, l2, rfl, ?_, ?_⟩
  · simp only [List.map_append, List.map_cons, List.nodup_append, List.nodup_cons] at hn
    have h1 : ∀ a ∈ l1, ¬ (fun e : Int × V => e.1 == k) a = true := by
      intro a ha hk
      have : a.1 = k := by simpa using hk
      exact hn.2.2 (List.mem_map_of_mem Prod.fst ha) (by simp [this])
    rw [List.eraseP_append_right _ h1]
    simp
  · simp only [List.map_append, List.map_cons, List.nodup_append, List.nodup_cons] at hn
    intro e he hk
    rcases List.mem_append.mp he with h | h
    · exact hn.2.2 (List.mem_map_of_mem Prod.fst h) (by simp [hk])
    · exact hn.2.1.1 (hk ▸ List.mem_map_of_mem Prod.fst h)

/-! ### The pool invariant -/

namespace BufferPoolManager

open ExtendibleHash

theorem PoolInv.init (B n : Nat) (d : DiskManager) :
    PoolInv B n (BufferPoolManager.new B n d) [] where
  pages_len := by simp [BufferPoolManager.new]
  table := rfl
  keys_nodup := by simp
  frames_nodup := by simp [BufferPoolManager.new, List.nodup_range]
  frames_lt := by intro f; simp [BufferPoolManager.new]
  page_ids := by intro e he; cases he
  free_pins := by
    intro f hf
    have hlt : f < n := by simpa [BufferPoolManager.new] using hf
    exact ⟨Page.new, by simp [BufferPoolManager.new, List.getElem?_replicate, hlt], rfl⟩
  pins_nonneg := by
    intro pg hpg
    have : pg = Page.new := by
      simp only [BufferPoolManager.new] at hpg
      exact List.eq_of_mem_replicate hpg
    subst this
    decide
  repl_vals := by
    intro a node h
    simp [BufferPoolManager.new, LRUReplacer.new, LRUReplacer.load] at h

variable {B n : Nat} {s : BufferPoolManager} {kv : List (Int × Nat)}

theorem PoolInv.Find_eq (h : PoolInv B n s kv) (page_id : Int) :
    s.page_table_.Find page_id = (kv.find? (fun e => e.1 == page_id)).map Prod.snd := by
  rw [h.table, Find_flat]

theorem PoolInv.mem_of_Find (h : PoolInv B n s kv) {page_id : Int} {pp : Nat}
    (hf : s.page_table_.Find page_id = some pp) : (page_id, pp) ∈ kv := by
  rw [h.Find_eq] at hf
  exact mem_of_find?_key hf

theorem PoolInv.Find_of_mem (h : PoolInv B n s kv) {page_id : Int} {pp : Nat}
    (hm : (page_id, pp) ∈ kv) : s.page_table_.Find page_id = some pp := by
  rw [h.Find_eq, find?_key_of_mem h.keys_nodup hm]
  rfl

theorem PoolInv.Find_none (h : PoolInv B n s kv) {page_id : Int} :
    s.page_table_.Find page_id = none ↔ ∀ e ∈ kv, e.1 ≠ page_id := by
  rw [h.Find_eq]
  exact find?_key_eq_none

theorem PoolInv.lt_of_mem (h : PoolInv B n s kv) {page_id : Int} {pp : Nat}
    (hm : (page_id, pp) ∈ kv) : pp < n :=
  (h.frames_lt pp).mp (List.mem_append_left _ (List.mem_map_of_mem Prod.snd hm))

theorem PoolInv.not_free_of_mem (h : PoolInv B n s kv) {page_id : Int} {pp : Nat}
    (hm : (page_id, pp) ∈ kv) : pp ∉ s.free_list_ := by
  intro hf
  exact (List.nodup_append.mp h.frames_nodup).2.2 (List.mem_map_of_mem Prod.snd hm) hf

theorem PoolInv.framesValid (h : PoolInv B n s kv) : s.FramesValid := by
  intro page_id pp hf
  rw [h.pages_len]
  exact h.lt_of_mem (h.mem_of_Find hf)

theorem PoolInv.length_le (h : PoolInv B n s kv) : kv.length + s.free_list_.length ≤ n := by
  have := length_le_of_nodup_lt h.frames_nodup (fun x hx => (h.frames_lt x).mp hx)
  simpa using this

/-- The entry of a resident frame is determined by the frame. -/
theorem PoolInv.entry_unique (h : PoolInv B n s kv) {p q : Int} {pp : Nat}
    (hp : (p, pp) ∈ kv) (hq : (q, pp) ∈ kv) : p = q := by
  obtain ⟨pg, h1, h2⟩ := h.page_ids _ hp
  obtain ⟨pg', h1', h2'⟩ := h.page_ids _ hq
  simp only at h1 h2 h1' h2'
  rw [h1] at h1'
  cases h1'
  rw [← h2, ← h2']

/-- A frame that is not on the free list holds a resident page. -/
theorem PoolInv.resident_of_not_free (h : PoolInv B n s kv) {pp : Nat} {pg : Page}
    (hlt : pp < n) (hnf : pp ∉ s.free_list_) (hpg : s.pages_[pp]? = some pg) :
    (pg.page_id_, pp) ∈ kv := by
  have hm := (h.frames_lt pp).mpr hlt
  rcases List.mem_append.mp hm with hm | hm
  · obtain ⟨e, he, hpe⟩ := List.mem_map.mp hm
    obtain ⟨pg', h1, h2⟩ := h.page_ids e he
    rw [hpe, hpg] at h1
    cases h1
    obtain ⟨e1, e2⟩ := e
    simp only at hpe h2
    subst hpe; subst h2
    exact he
  · exact absurd hm hnf

/-- Changing one frame without touching its page id, the page table or the free list. -/
theorem PoolInv.set_page (h : PoolInv B n s kv) {s' : BufferPoolManager} {pp : Nat}
    {pg w : Page}
    (hpg : s.pages_[pp]? = some pg) (hid : w.page_id_ = pg.page_id_)
    (hpin : 0 ≤ w.pin_count_) (hfree : pp ∈ s.free_list_ → w.pin_count_ = 0)
    (hpages : s'.pages_ = s.pages_.set pp w) (htab : s'.page_table_ = s.page_table_)
    (hfl : s'.free_list_ = s.free_list_)
    (hrepl : ∀ a node, s'.replacer_.load a = some node → node.value < n) :
    PoolInv B n s' kv where
  pages_len := by rw [hpages, List.length_set, h.pages_len]
  table := by rw [htab, h.table]
  keys_nodup := h.keys_nodup
  frames_nodup := by rw [hfl]; exact h.frames_nodup
  frames_lt := by rw [hfl]; exact h.frames_lt
  page_ids := by
    intro e he
    obtain ⟨q, h1, h2⟩ := h.page_ids e he
    rw [hpages, List.getElem?_set]
    by_cases hpe : pp = e.2
    · have hlt : pp < s.pages_.length := by rw [h.pages_len]; exact hpe ▸ h.lt_of_mem he
      rw [← hpe, hpg] at h1
      cases h1
      exact ⟨w, by rw [if_pos hpe, if_pos hlt], by rw [hid, h2]⟩
    · exact ⟨q, by rw [if_neg hpe, h1], h2⟩
  free_pins := by
    intro f hf
    rw [hfl] at hf
    obtain ⟨q, h1, h2⟩ := h.free_pins f hf
    rw [hpages, List.getElem?_set]
    by_cases hpe : pp = f
    · have hlt : pp < s.pages_.length := by
        rw [h.pages_len]
        exact (h.frames_lt pp).mp (List.mem_append_right _ (hpe ▸ hf))
      exact ⟨w, by rw [if_pos hpe, if_pos hlt], hfree (hpe ▸ hf)⟩
    · exact ⟨q, by rw [if_neg hpe, h1], h2⟩
  pins_nonneg := by
    intro q hq
    rw [hpages] at hq
    rcases List.mem_or_eq_of_mem_set hq with h1 | h1
    · exact h.pins_nonneg q h1
    · rw [h1]; exact hpin
  repl_vals := hrepl

/-- Changing the replacer or the disk manager only. -/
theorem PoolInv.of_same (h : PoolInv B n s kv) {s' : BufferPoolManager}
    (hpages : s'.pages_ = s.pages_) (htab : s'.page_table_ = s.page_table_)
    (hfl : s'.free_list_ = s.free_list_)
    (hrepl : ∀ a node, s'.replacer_.load a = some node → node.value < n) :
    PoolInv B n s' kv where
  pages_len := by rw [hpages, h.pages_len]
  table := by rw [htab, h.table]
  keys_nodup := h.keys_nodup
  frames_nodup := by rw [hfl]; exact h.frames_nodup
  frames_lt := by rw [hfl]; exact h.frames_lt
  page_ids := by rw [hpages]; exact h.page_ids
  free_pins := by rw [hfl, hpages]; exact h.free_pins
  pins_nonneg := by rw [hpages]; exact h.pins_nonneg
  repl_vals := hrepl

end BufferPoolManager

namespace BufferPoolManager

open ExtendibleHash

variable {B n : Nat} {s : BufferPoolManager} {kv : List (Int × Nat)}

theorem perm_release (A C F : List Nat) (pp : Nat) :
    ((A ++ C) ++ (F ++ [pp])).Perm ((A ++ pp :: C) ++ F) := by
  have h1 : ((A ++ C) ++ (F ++ [pp])).Perm (pp :: ((A ++ C) ++ F)) := by
    rw [← List.append_assoc]
    exact List.perm_append_singleton pp _
  have h2 : ((A ++ pp :: C) ++ F).Perm (pp :: ((A ++ C) ++ F)) := by
    have := (@List.perm_middle _ pp A C).append_right F
    simp only [List.cons_append] at this
    exact this
  exact h1.trans h2.symm

/-- Taking the frame `pp` out of the page table and appending it to the free list. -/
theorem PoolInv.release (h : PoolInv B n s kv) {s' : BufferPoolManager} {p : Int} {pp : Nat}
    {w : Page} (hm : (p, pp) ∈ kv) (hpin : w.pin_count_ = 0)
    (hpages : s'.pages_ = s.pages_.set pp w)
    (htab : s'.page_table_ = flat B (kv.eraseP (fun e => e.1 == p)))
    (hfl : s'.free_list_ = s.free_list_ ++ [pp])
    (hrepl : ∀ a node, s'.replacer_.load a = some node → node.value < n) :
    PoolInv B n s' (kv.eraseP (fun e => e.1 == p)) := by
  obtain ⟨l1, l2, hkv, her, hne⟩ := split_at_key h.keys_nodup hm
  have hperm : ((List.map Prod.snd (l1 ++ l2)) ++ (s.free_list_ ++ [pp])).Perm
      (List.map Prod.snd kv ++ s.free_list_) := by
    rw [hkv]
    simp only [List.map_append, List.map_cons]
    exact perm_release _ _ _ _
  have hnd : ((List.map Prod.snd (l1 ++ l2)) ++ (s.free_list_ ++ [pp])).Nodup :=
    hperm.nodup_iff.mpr h.frames_nodup
  have hlt : pp < s.pages_.length := by rw [h.pages_len]; exact h.lt_of_mem hm
  have hnotpp : ∀ e ∈ l1 ++ l2, e.2 ≠ pp := by
    intro e he hc
    have h1 := (List.nodup_append.mp hnd).2.2 (List.mem_map_of_mem Prod.snd he)
    rw [hc] at h1
    exact h1 (List.mem_append_right _ (List.mem_singleton_self pp))
  have hsub : ∀ e ∈ l1 ++ l2, e ∈ kv := by
    intro e he
    rw [hkv]
    rcases List.mem_append.mp he with h1 | h1
    · exact List.mem_append_left _ h1
    · exact List.mem_append_right _ (List.mem_cons_of_mem _ h1)
  rw [her] at htab ⊢
  exact {
    pages_len := by rw [hpages, List.length_set, h.pages_len]
    table := htab
    keys_nodup := by
      have := h.keys_nodup
      rw [hkv] at this
      simp only [List.map_append, List.map_cons] at this ⊢
      exact (List.nodup_cons.mp (List.nodup_middle.mp this)).2
    frames_nodup := by rw [hfl]; exact hnd
    frames_lt := by
      intro f
      rw [hfl, hperm.mem_iff]
      exact h.frames_lt f
    page_ids := by
      intro e he
      obtain ⟨q, h1, h2⟩ := h.page_ids e (hsub e he)
      refine ⟨q, ?_, h2⟩
      rw [hpages, List.getElem?_set, if_neg (fun hc => hnotpp e he hc.symm), h1]
    free_pins := by
      intro f hf
      rw [hfl] at hf
      rw [hpages, List.getElem?_set]
      by_cases hpe : pp = f
      · exact ⟨w, by rw [if_pos hpe, if_pos hlt], hpin⟩
      · rcases List.mem_append.mp hf with h1 | h1
        · obtain ⟨q, h2, h3⟩ := h.free_pins f h1
          exact ⟨q, by rw [if_neg hpe, h2], h3⟩
        · exact absurd (List.mem_singleton.mp h1).symm hpe
    pins_nonneg := by
      intro q hq
      rw [hpages] at hq
      rcases List.mem_or_eq_of_mem_set hq with h1 | h1
      · exact h.pins_nonneg q h1
      · rw [h1, hpin]
    repl_vals := hrepl }

/-- Taking the frame `pp` from the front of the free list and entering it in the page table
under a page id that is not resident. -/
theorem PoolInv.assign (h : PoolInv B n s kv) {s' : BufferPoolManager} {page_id : Int}
    {pp : Nat} {rest : List Nat} {w : Page}
    (hfront : s.free_list_ = pp :: rest) (hnew : ∀ e ∈ kv, e.1 ≠ page_id)
    (hid : w.page_id_ = page_id) (hpin : 0 ≤ w.pin_count_)
    (hpages : s'.pages_ = s.pages_.set pp w)
    (htab : s'.page_table_ = flat B (kv ++ [(page_id, pp)]))
    (hfl : s'.free_list_ = rest)
    (hrepl : ∀ a node, s'.replacer_.load a = some node → node.value < n) :
    PoolInv B n s' (kv ++ [(page_id, pp)]) := by
  have heq : List.map Prod.snd (kv ++ [(page_id, pp)]) ++ rest =
      List.map Prod.snd kv ++ s.free_list_ := by
    rw [hfront]; simp
  have hnd := h.frames_nodup
  have hppfree : pp ∈ s.free_list_ := by rw [hfront]; exact List.mem_cons_self _ _
  have hlt : pp < s.pages_.length := by
    rw [h.pages_len]; exact (h.frames_lt pp).mp (List.mem_append_right _ hppfree)
  have hnotpp : ∀ e ∈ kv, e.2 ≠ pp := by
    intro e he hc
    exact (List.nodup_append.mp hnd).2.2 (List.mem_map_of_mem Prod.snd he) (hc ▸ hppfree)
  have hrestne : ∀ f ∈ rest, pp ≠ f := by
    intro f hf hc
    have h2 := (List.nodup_append.mp hnd).2.1
    rw [hfront] at h2
    exact (List.nodup_cons.mp h2).1 (hc ▸ hf)
  exact {
    pages_len := by rw [hpages, List.length_set, h.pages_len]
    table := htab
    keys_nodup := by
      simp only [List.map_append, List.map_cons, List.map_nil]
      rw [List.nodup_append]
      refine ⟨h.keys_nodup, by simp, ?_⟩
      intro a ha hb
      obtain ⟨e, he, rfl⟩ := List.mem_map.mp ha
      exact hnew e he (List.mem_singleton.mp hb)
    frames_nodup := by rw [hfl, heq]; exact hnd
    frames_lt := by
      intro f
      rw [hfl, heq]
      exact h.frames_lt f
    page_ids := by
      intro e he
      rw [hpages, List.getElem?_set]
      rcases List.mem_append.mp he with h1 | h1
      · obtain ⟨q, h2, h3⟩ := h.page_ids e h1
        exact ⟨q, by rw [if_neg (fun hc => hnotpp e h1 hc.symm), h2], h3⟩
      · have : e = (page_id, pp) := List.mem_singleton.mp h1
        subst this
        exact ⟨w, by rw [if_pos rfl, if_pos hlt], hid⟩
    free_pins := by
      intro f hf
      rw [hfl] at hf
      obtain ⟨q, h2, h3⟩ := h.free_pins f (by rw [hfront]; exact List.mem_cons_of_mem _ hf)
      exact ⟨q, by rw [hpages, List.getElem?_set, if_neg (hrestne f hf), h2], h3⟩
    pins_nonneg := by
      intro q hq
      rw [hpages] at hq
      rcases List.mem_or_eq_of_mem_set hq with h1 | h1
      · exact h.pins_nonneg q h1
      · rw [h1]; exact hpin
    repl_vals := hrepl }

end BufferPoolManager

namespace BufferPoolManager

open ExtendibleHash

variable {B n : Nat} {kv : List (Int × Nat)}

theorem set_getElem?_self {α : Type} {l : List α} {i : Nat} {a : α} (h : l[i]? = some a) :
    l.set i a = l := by
  apply List.ext_getElem?
  intro j
  rw [List.getElem?_set]
  by_cases hij : i = j
  · subst hij
    have hlt : i < l.length := by
      by_contra hc
      rw [List.getElem?_eq_none (not_lt.mp hc)] at h
      cases h
    rw [if_pos rfl, if_pos hlt, h]
  · rw [if_neg hij]

/-- Lines 87-95 of `FetchPage` on a frame `pp` that heads the free list of `sv`; `s` is the
state the code is in at line 87, which agrees with `sv` except for the free list, from which
`pp` has been taken, and the disk manager. -/
theorem load_spec {sv s : BufferPoolManager} {page_id : Int} {pp : Nat} {rest : List Nat}
    (hv : PoolInv B n sv kv) (hnB : n ≤ B) (hfront : sv.free_list_ = pp :: rest)
    (hnew : sv.page_table_.Find page_id = none)
    (hsp : s.pages_ = sv.pages_) (hst : s.page_table_ = sv.page_table_)
    (hsf : s.free_list_ = rest) (hsr : s.replacer_ = sv.replacer_) (fuel : Nat) :
    ∃ pg, sv.pages_[pp]? = some pg ∧ pg.pin_count_ = 0 ∧
      load (fuel + 1) s page_id pp =
        some ({ s with
                page_table_ := flat B (kv ++ [(page_id, pp)]),
                pages_ := s.pages_.set pp
                  { pg with page_id_ := page_id, pin_count_ := pg.pin_count_ + 1,
                            is_dirty_ := false, data_ := s.disk_manager_.content page_id },
                disk_manager_ := (s.disk_manager_.ReadPage page_id).1 }, some pp) ∧
      PoolInv B n { s with
                page_table_ := flat B (kv ++ [(page_id, pp)]),
                pages_ := s.pages_.set pp
                  { pg with page_id_ := page_id, pin_count_ := pg.pin_count_ + 1,
                            is_dirty_ := false, data_ := s.disk_manager_.content page_id },
                disk_manager_ := (s.disk_manager_.ReadPage page_id).1 }
        (kv ++ [(page_id, pp)]) := by
  have hppfree : pp ∈ sv.free_list_ := by rw [hfront]; exact List.mem_cons_self _ _
  obtain ⟨pg, hpg, hpin⟩ := hv.free_pins pp hppfree
  have hroom : kv.length < B := by
    have := hv.length_le
    rw [hfront] at this
    simp only [List.length_cons] at this
    omega
  refine ⟨pg, hpg, hpin, ?_, ?_⟩
  · unfold load
    rw [hst, hv.table, Insert_flat B kv page_id pp fuel hroom, hsp, hpg]
    rfl
  · refine hv.assign (w := ⟨s.disk_manager_.content page_id, page_id, pg.pin_count_ + 1, false⟩)
      hfront (hv.Find_none.mp hnew) rfl ?_ ?_ rfl hsf ?_
    · simp [hpin]
    · simp [hsp]
    · intro a node h
      exact hv.repl_vals a node (by simpa [hsr] using h)

/-- Lines 223-230 of `NewPage` on a frame `pp` that heads the free list of `sv`. -/
theorem fresh_spec {sv s : BufferPoolManager} {pp : Nat} {rest : List Nat}
    (hv : PoolInv B n sv kv) (hnB : n ≤ B) (hfront : sv.free_list_ = pp :: rest)
    (hnew : sv.page_table_.Find s.disk_manager_.next_page_id = none)
    (hsp : s.pages_ = sv.pages_) (hst : s.page_table_ = sv.page_table_)
    (hsf : s.free_list_ = rest) (hsr : s.replacer_ = sv.replacer_) (fuel : Nat) :
    ∃ pg, sv.pages_[pp]? = some pg ∧ pg.pin_count_ = 0 ∧
      fresh (fuel + 1) s pp =
        some ({ s with
                page_table_ := flat B (kv ++ [(s.disk_manager_.next_page_id, pp)]),
                pages_ := s.pages_.set pp
                  { pg with page_id_ := s.disk_manager_.next_page_id,
                            pin_count_ := pg.pin_count_ + 1,
                            is_dirty_ := false, data_ := List.replicate PAGE_SIZE 0 },
                disk_manager_ := s.disk_manager_.AllocatePage.1 },
              some (pp, s.disk_manager_.next_page_id)) ∧
      PoolInv B n { s with
                page_table_ := flat B (kv ++ [(s.disk_manager_.next_page_id, pp)]),
                pages_ := s.pages_.set pp
                  { pg with page_id_ := s.disk_manager_.next_page_id,
                            pin_count_ := pg.pin_count_ + 1,
                            is_dirty_ := false, data_ := List.replicate PAGE_SIZE 0 },
                disk_manager_ := s.disk_manager_.AllocatePage.1 }
        (kv ++ [(s.disk_manager_.next_page_id, pp)]) := by
  have hppfree : pp ∈ sv.free_list_ := by rw [hfront]; exact List.mem_cons_self _ _
  obtain ⟨pg, hpg, hpin⟩ := hv.free_pins pp hppfree
  have hroom : kv.length < B := by
    have := hv.length_le
    rw [hfront] at this
    simp only [List.length_cons] at this
    omega
  refine ⟨pg, hpg, hpin, ?_, ?_⟩
  · unfold fresh
    simp only [DiskManager.AllocatePage]
    rw [hst, hv.table, Insert_flat B kv _ pp fuel hroom, hsp, hpg]
    rfl
  · refine hv.assign
      (w := ⟨List.replicate PAGE_SIZE 0, s.disk_manager_.next_page_id, pg.pin_count_ + 1, false⟩)
      hfront (hv.Find_none.mp hnew) rfl ?_ ?_ rfl hsf ?_
    · simp [hpin]
    · simp [hsp]
    · intro a node h
      exact hv.repl_vals a node (by simpa [hsr] using h)

end BufferPoolManager

namespace BufferPoolManager

open ExtendibleHash

variable {B n : Nat} {kv : List (Int × Nat)} {s : BufferPoolManager}

theorem PoolInv.heap_vals (hv : PoolInv B n s kv) :
    ∀ node, some node ∈ s.replacer_.heap → node.value < n := by
  intro node hn
  obtain ⟨a, ha⟩ := List.mem_iff_getElem?.mp hn
  exact hv.repl_vals a node ((LRUReplacer.load_eq_some_iff _ a node).mpr ha)

theorem repl_vals_of_heap {r : LRUReplacer Nat} {n : Nat}
    (h : ∀ node, some node ∈ r.heap → node.value < n) :
    ∀ a node, r.load a = some node → node.value < n :=
  fun _ node hl => h node (LRUReplacer.mem_heap_of_load hl)

/-- Lines 74-85 of `FetchPage` (206-217 of `NewPage`) for a victim the replacer hands out when
the free list is empty: the victim is a resident frame, and after `evict` the pool is as if
that frame were alone on the free list. -/
theorem evict_spec {r' : LRUReplacer Nat} {pp : Nat} {pg : Page}
    (hv : PoolInv B n s kv) (hfl : s.free_list_ = [])
    (hvic : s.replacer_.Victim = some (r', some pp)) (hpg : s.pages_[pp]? = some pg)
    (hpin : ¬ pg.pin_count_ > 0) :
    (pg.page_id_, pp) ∈ kv ∧ pg.pin_count_ = 0 ∧
    (evict { s with replacer_ := r' } pg).page_table_ =
      flat B (kv.eraseP (fun e => e.1 == pg.page_id_)) ∧
    PoolInv B n { evict { s with replacer_ := r' } pg with free_list_ := [pp] }
      (kv.eraseP (fun e => e.1 == pg.page_id_)) := by
  have hvals := LRUReplacer.vals_Victim (P := fun x => x < n) hv.heap_vals hvic
  have hlt : pp < n := hvals.2 pp rfl
  have hmem : (pg.page_id_, pp) ∈ kv :=
    hv.resident_of_not_free hlt (by rw [hfl]; exact List.not_mem_nil _) hpg
  have hpin0 : pg.pin_count_ = 0 :=
    le_antisymm (not_lt.mp hpin) (hv.pins_nonneg pg (List.getElem?_mem hpg))
  have htab : (evict { s with replacer_ := r' } pg).page_table_ =
      flat B (kv.eraseP (fun e => e.1 == pg.page_id_)) := by
    simp only [evict]
    rw [hv.table, Remove_flat]
  refine ⟨hmem, hpin0, htab, ?_⟩
  refine hv.release (w := pg) hmem hpin0 ?_ htab ?_ (repl_vals_of_heap hvals.1)
  · simp only [evict]
    exact (set_getElem?_self hpg).symm
  · simp [evict, hfl]

theorem Find_eraseP_none {page_id q : Int}
    (h : ∀ e ∈ kv, e.1 ≠ page_id) : ∀ e ∈ kv.eraseP (fun e => e.1 == q), e.1 ≠ page_id :=
  fun e he => h e ((List.eraseP_sublist kv).subset he)

end BufferPoolManager

namespace BufferPoolManager

open ExtendibleHash

variable {B n : Nat} {kv : List (Int × Nat)} {s : BufferPoolManager}

theorem load_zero (s : BufferPoolManager) (page_id : Int) (pp : Nat) :
    load 0 s page_id pp = none := by
  simp only [load, ExtendibleHash.Insert, Option.none_bind]

theorem fresh_zero (s : BufferPoolManager) (pp : Nat) : fresh 0 s pp = none := by
  simp only [fresh, ExtendibleHash.Insert, Option.none_bind]

/-- `FetchPage` of a resident page. -/
theorem FetchPage_hit (hv : PoolInv B n s kv) {page_id : Int} {pp : Nat}
    (hid : page_id ≠ INVALID_PAGE_ID) (hf : s.page_table_.Find page_id = some pp) :
    ∃ pg, s.pages_[pp]? = some pg ∧
      (∀ fuel, s.FetchPage fuel page_id =
        some ({ s with pages_ := s.pages_.set pp { pg with pin_count_ := pg.pin_count_ + 1 } },
          some pp)) ∧
      PoolInv B n { s with pages_ := s.pages_.set pp { pg with pin_count_ := pg.pin_count_ + 1 } }
        kv := by
  have hm := hv.mem_of_Find hf
  obtain ⟨pg, hpg, hpid⟩ := hv.page_ids _ hm
  simp only at hpg hpid
  refine ⟨pg, hpg, ?_, ?_⟩
  · intro fuel
    simp [FetchPage, hid, hf, hpg]
  · refine hv.set_page (w := ⟨pg.data_, pg.page_id_, pg.pin_count_ + 1, pg.is_dirty_⟩)
      hpg rfl ?_ ?_ rfl rfl rfl hv.repl_vals
    · have := hv.pins_nonneg pg (List.getElem?_mem hpg)
      simp only
      omega
    · intro hfree
      exact absurd hfree (hv.not_free_of_mem hm)

/-- `FetchPage` of a page that is not resident, with a frame on the free list. -/
theorem FetchPage_miss_free (hv : PoolInv B n s kv) (hnB : n ≤ B) {page_id : Int} {pp : Nat}
    {rest : List Nat} (hid : page_id ≠ INVALID_PAGE_ID)
    (hf : s.page_table_.Find page_id = none) (hfront : s.free_list_ = pp :: rest)
    (fuel : Nat) :
    ∃ pg, s.pages_[pp]? = some pg ∧ pg.pin_count_ = 0 ∧
      s.FetchPage (fuel + 1) page_id =
        some ({ s with
                free_list_ := rest,
                page_table_ := flat B (kv ++ [(page_id, pp)]),
                pages_ := s.pages_.set pp
                  ⟨s.disk_manager_.content page_id, page_id, pg.pin_count_ + 1, false⟩,
                disk_manager_ := (s.disk_manager_.ReadPage page_id).1 }, some pp) ∧
      PoolInv B n { s with
                free_list_ := rest,
                page_table_ := flat B (kv ++ [(page_id, pp)]),
                pages_ := s.pages_.set pp
                  ⟨s.disk_manager_.content page_id, page_id, pg.pin_count_ + 1, false⟩,
                disk_manager_ := (s.disk_manager_.ReadPage page_id).1 }
        (kv ++ [(page_id, pp)]) := by
  obtain ⟨pg, hpg, hpin, hl, hinv⟩ :=
    load_spec (s := { s with free_list_ := rest }) hv hnB hfront hf rfl rfl rfl rfl fuel
  refine ⟨pg, hpg, hpin, ?_, hinv⟩
  simp only [FetchPage, hid, if_false, hf, hfront]
  exact hl

/-- `FetchPage` of a page that is not resident, with an empty free list and an unpinned
victim from the replacer. -/
theorem FetchPage_miss_victim (hv : PoolInv B n s kv) (hnB : n ≤ B) {page_id : Int} {pp : Nat}
    {r' : LRUReplacer Nat} {pg : Page} (hid : page_id ≠ INVALID_PAGE_ID)
    (hf : s.page_table_.Find page_id = none) (hfl : s.free_list_ = [])
    (hvic : s.replacer_.Victim = some (r', some pp)) (hpg : s.pages_[pp]? = some pg)
    (hpin : ¬ pg.pin_count_ > 0) (fuel : Nat) :
    (pg.page_id_, pp) ∈ kv ∧ pg.pin_count_ = 0 ∧
      s.FetchPage (fuel + 1) page_id =
        some ({ evict { s with replacer_ := r' } pg with
                page_table_ :=
                  flat B (kv.eraseP (fun e => e.1 == pg.page_id_) ++ [(page_id, pp)]),
                pages_ := s.pages_.set pp
                  ⟨(evict { s with replacer_ := r' } pg).disk_manager_.content page_id, page_id,
                    pg.pin_count_ + 1, false⟩,
                disk_manager_ :=
                  ((evict { s with replacer_ := r' } pg).disk_manager_.ReadPage page_id).1 },
              some pp) ∧
      PoolInv B n { evict { s with replacer_ := r' } pg with
                page_table_ :=
                  flat B (kv.eraseP (fun e => e.1 == pg.page_id_) ++ [(page_id, pp)]),
                pages_ := s.pages_.set pp
                  ⟨(evict { s with replacer_ := r' } pg).disk_manager_.content page_id, page_id,
                    pg.pin_count_ + 1, false⟩,
                disk_manager_ :=
                  ((evict { s with replacer_ := r' } pg).disk_manager_.ReadPage page_id).1 }
        (kv.eraseP (fun e => e.1 == pg.page_id_) ++ [(page_id, pp)]) := by
  obtain ⟨hmem, hpin0, htab, hinv⟩ := evict_spec hv hfl hvic hpg hpin
  have hnew : ({ evict { s with replacer_ := r' } pg with free_list_ := [pp] } :
      BufferPoolManager).page_table_.Find page_id = none := by
    rw [hinv.Find_none]
    exact Find_eraseP_none (hv.Find_none.mp hf)
  obtain ⟨pg1, hpg1, -, hl, hinv'⟩ :=
    load_spec (s := evict { s with replacer_ := r' } pg) hinv hnB rfl hnew rfl rfl
      (by simp [evict, hfl]) rfl fuel
  have hpg1' : pg1 = pg := by
    have : s.pages_[pp]? = some pg1 := by simpa [evict] using hpg1
    rw [hpg] at this
    exact (Option.some.inj this).symm
  subst hpg1'
  refine ⟨hmem, hpin0, ?_, hinv'⟩
  unfold FetchPage
  rw [if_neg hid]
  simp only [hf]
  split
  · next pp' rest' heq => rw [hfl] at heq; cases heq
  · simp only [hvic, Option.some_bind, hpg, hpin, if_false]
    exact hl

/-- `FetchPage` of a page that is not resident, with an empty free list and a pinned victim. -/
theorem FetchPage_victim_pinned (hv : PoolInv B n s kv) {page_id : Int} {pp : Nat}
    {r' : LRUReplacer Nat} {pg : Page} (hid : page_id ≠ INVALID_PAGE_ID)
    (hf : s.page_table_.Find page_id = none) (hfl : s.free_list_ = [])
    (hvic : s.replacer_.Victim = some (r', some pp)) (hpg : s.pages_[pp]? = some pg)
    (hpin : pg.pin_count_ > 0) (fuel : Nat) :
    s.FetchPage fuel page_id = some ({ s with replacer_ := r' }, none) ∧
      PoolInv B n { s with replacer_ := r' } kv := by
  constructor
  · simp [FetchPage, hid, hf, hfl, hvic, hpg, hpin]
  · exact hv.of_same rfl rfl rfl
      (repl_vals_of_heap (LRUReplacer.vals_Victim (P := fun x => x < n) hv.heap_vals hvic).1)

theorem FetchPage_preserves (hv : PoolInv B n s kv) (hnB : n ≤ B) {fuel : Nat} {page_id : Int}
    {s' : BufferPoolManager} {r : Option Nat} (h : s.FetchPage fuel page_id = some (s', r)) :
    ∃ kv', PoolInv B n s' kv' := by
  by_cases hid : page_id = INVALID_PAGE_ID
  · simp only [FetchPage, hid, if_true, Option.some.injEq, Prod.mk.injEq] at h
    exact ⟨kv, h.1 ▸ hv⟩
  cases hf : s.page_table_.Find page_id with
  | some pp =>
    obtain ⟨pg, -, hfetch, hinv⟩ := FetchPage_hit hv hid hf
    rw [hfetch fuel] at h
    simp only [Option.some.injEq, Prod.mk.injEq] at h
    exact ⟨kv, h.1 ▸ hinv⟩
  | none =>
    cases hfl : s.free_list_ with
    | cons pp rest =>
      cases fuel with
      | zero => simp [FetchPage, hid, hf, hfl, load_zero] at h
      | succ fuel =>
        obtain ⟨pg, -, -, hfetch, hinv⟩ := FetchPage_miss_free hv hnB hid hf hfl fuel
        rw [hfetch] at h
        simp only [Option.some.injEq, Prod.mk.injEq] at h
        exact ⟨_, h.1 ▸ hinv⟩
    | nil =>
      cases hvic : s.replacer_.Victim with
      | none => simp [FetchPage, hid, hf, hfl, hvic] at h
      | some v =>
        obtain ⟨r', vo⟩ := v
        cases vo with
        | none => simp [FetchPage, hid, hf, hfl, hvic] at h
        | some pp =>
          cases hpg : s.pages_[pp]? with
          | none => simp [FetchPage, hid, hf, hfl, hvic, hpg] at h
          | some pg =>
            by_cases hpin : pg.pin_count_ > 0
            · obtain ⟨hfetch, hinv⟩ := FetchPage_victim_pinned hv hid hf hfl hvic hpg hpin fuel
              rw [hfetch] at h
              simp only [Option.some.injEq, Prod.mk.injEq] at h
              exact ⟨kv, h.1 ▸ hinv⟩
            · cases fuel with
              | zero => simp [FetchPage, hid, hf, hfl, hvic, hpg, hpin, load_zero] at h
              | succ fuel =>
                obtain ⟨-, -, hfetch, hinv⟩ :=
                  FetchPage_miss_victim hv hnB hid hf hfl hvic hpg hpin fuel
                rw [hfetch] at h
                simp only [Option.some.injEq, Prod.mk.injEq] at h
                exact ⟨_, h.1 ▸ hinv⟩

end BufferPoolManager

namespace BufferPoolManager

open ExtendibleHash

variable {B n : Nat} {kv : List (Int × Nat)} {s : BufferPoolManager}

theorem evict_next_page_id (s : BufferPoolManager) (pg : Page) :
    (evict s pg).disk_manager_.next_page_id = s.disk_manager_.next_page_id := by
  unfold evict
  by_cases h : pg.is_dirty_ <;> simp [h, DiskManager.WritePage]

/-- `NewPage` with a frame on the free list. -/
theorem NewPage_free (hv : PoolInv B n s kv) (hnB : n ≤ B) {pp : Nat} {rest : List Nat}
    (hnew : s.page_table_.Find s.disk_manager_.next_page_id = none)
    (hfront : s.free_list_ = pp :: rest) (fuel : Nat) :
    ∃ pg, s.pages_[pp]? = some pg ∧ pg.pin_count_ = 0 ∧
      s.NewPage (fuel + 1) =
        some ({ s with
                free_list_ := rest,
                page_table_ := flat B (kv ++ [(s.disk_manager_.next_page_id, pp)]),
                pages_ := s.pages_.set pp
                  ⟨List.replicate PAGE_SIZE 0, s.disk_manager_.next_page_id,
                    pg.pin_count_ + 1, false⟩,
                disk_manager_ := s.disk_manager_.AllocatePage.1 },
              some (pp, s.disk_manager_.next_page_id)) ∧
      PoolInv B n { s with
                free_list_ := rest,
                page_table_ := flat B (kv ++ [(s.disk_manager_.next_page_id, pp)]),
                pages_ := s.pages_.set pp
                  ⟨List.replicate PAGE_SIZE 0, s.disk_manager_.next_page_id,
                    pg.pin_count_ + 1, false⟩,
                disk_manager_ := s.disk_manager_.AllocatePage.1 }
        (kv ++ [(s.disk_manager_.next_page_id, pp)]) := by
  obtain ⟨pg, hpg, hpin, hl, hinv⟩ :=
    fresh_spec (s := { s with free_list_ := rest }) hv hnB hfront hnew rfl rfl rfl rfl fuel
  refine ⟨pg, hpg, hpin, ?_, hinv⟩
  simp only [NewPage, hfront]
  exact hl

/-- `NewPage` with an empty free list and an unpinned victim from the replacer. -/
theorem NewPage_victim (hv : PoolInv B n s kv) (hnB : n ≤ B) {pp : Nat}
    {r' : LRUReplacer Nat} {pg : Page}
    (hnew : s.page_table_.Find s.disk_manager_.next_page_id = none)
    (hfl : s.free_list_ = [])
    (hvic : s.replacer_.Victim = some (r', some pp)) (hpg : s.pages_[pp]? = some pg)
    (hpin : ¬ pg.pin_count_ > 0) (fuel : Nat) :
    (pg.page_id_, pp) ∈ kv ∧ pg.pin_count_ = 0 ∧
      s.NewPage (fuel + 1) =
        some ({ evict { s with replacer_ := r' } pg with
                page_table_ := flat B (kv.eraseP (fun e => e.1 == pg.page_id_) ++
                  [(s.disk_manager_.next_page_id, pp)]),
                pages_ := s.pages_.set pp
                  ⟨List.replicate PAGE_SIZE 0, s.disk_manager_.next_page_id,
                    pg.pin_count_ + 1, false⟩,
                disk_manager_ :=
                  (evict { s with replacer_ := r' } pg).disk_manager_.AllocatePage.1 },
              some (pp, s.disk_manager_.next_page_id)) ∧
      PoolInv B n { evict { s with replacer_ := r' } pg with
                page_table_ := flat B (kv.eraseP (fun e => e.1 == pg.page_id_) ++
                  [(s.disk_manager_.next_page_id, pp)]),
                pages_ := s.pages_.set pp
                  ⟨List.replicate PAGE_SIZE 0, s.disk_manager_.next_page_id,
                    pg.pin_count_ + 1, false⟩,
                disk_manager_ :=
                  (evict { s with replacer_ := r' } pg).disk_manager_.AllocatePage.1 }
        (kv.eraseP (fun e => e.1 == pg.page_id_) ++ [(s.disk_manager_.next_page_id, pp)]) := by
  obtain ⟨hmem, hpin0, htab, hinv⟩ := evict_spec hv hfl hvic hpg hpin
  have hnid := evict_next_page_id { s with replacer_ := r' } pg
  simp only at hnid
  have hnew' : ({ evict { s with replacer_ := r' } pg with free_list_ := [pp] } :
      BufferPoolManager).page_table_.Find
        (evict { s with replacer_ := r' } pg).disk_manager_.next_page_id = none := by
    rw [hinv.Find_none, hnid]
    exact Find_eraseP_none (hv.Find_none.mp hnew)
  obtain ⟨pg1, hpg1, -, hl, hinv'⟩ :=
    fresh_spec (s := evict { s with replacer_ := r' } pg) hinv hnB rfl hnew' rfl rfl
      (by simp [evict, hfl]) rfl fuel
  have hpg1' : pg1 = pg := by
    have : s.pages_[pp]? = some pg1 := by simpa [evict] using hpg1
    rw [hpg] at this
    exact (Option.some.inj this).symm
  subst hpg1'
  rw [hnid] at hl hinv'
  refine ⟨hmem, hpin0, ?_, hinv'⟩
  unfold NewPage
  split
  · next pp' rest' heq => rw [hfl] at heq; cases heq
  · simp only [hvic, Option.some_bind, hpg, hpin, if_false]
    exact hl

/-- `NewPage` with an empty free list when the replacer hands out a pinned frame. -/
theorem NewPage_victim_pinned (hv : PoolInv B n s kv) {pp : Nat}
    {r' : LRUReplacer Nat} {pg : Page} (hfl : s.free_list_ = [])
    (hvic : s.replacer_.Victim = some (r', some pp)) (hpg : s.pages_[pp]? = some pg)
    (hpin : pg.pin_count_ > 0) (fuel : Nat) :
    s.NewPage fuel = some ({ s with replacer_ := r' }, none) ∧
      PoolInv B n { s with replacer_ := r' } kv := by
  constructor
  · simp [NewPage, hfl, hvic, hpg, hpin]
  · exact hv.of_same rfl rfl rfl
      (repl_vals_of_heap (LRUReplacer.vals_Victim (P := fun x => x < n) hv.heap_vals hvic).1)

/-- `NewPage` with an empty free list and an empty replacer. -/
theorem NewPage_no_victim (hv : PoolInv B n s kv) {r' : LRUReplacer Nat}
    (hfl : s.free_list_ = []) (hvic : s.replacer_.Victim = some (r', none)) (fuel : Nat) :
    s.NewPage fuel = some ({ s with replacer_ := r' }, none) ∧
      PoolInv B n { s with replacer_ := r' } kv := by
  constructor
  · simp [NewPage, hfl, hvic]
  · exact hv.of_same rfl rfl rfl
      (repl_vals_of_heap (LRUReplacer.vals_Victim (P := fun x => x < n) hv.heap_vals hvic).1)

theorem NewPage_preserves (hv : PoolInv B n s kv) (hnB : n ≤ B) {fuel : Nat}
    (hnew : s.page_table_.Find s.disk_manager_.next_page_id = none)
    {s' : BufferPoolManager} {r : Option (Nat × Int)} (h : s.NewPage fuel = some (s', r)) :
    ∃ kv', PoolInv B n s' kv' := by
  cases hfl : s.free_list_ with
  | cons pp rest =>
    cases fuel with
    | zero => simp [NewPage, hfl, fresh_zero] at h
    | succ fuel =>
      obtain ⟨pg, -, -, hnp, hinv⟩ := NewPage_free hv hnB hnew hfl fuel
      rw [hnp] at h
      simp only [Option.some.injEq, Prod.mk.injEq] at h
      exact ⟨_, h.1 ▸ hinv⟩
  | nil =>
    cases hvic : s.replacer_.Victim with
    | none => simp [NewPage, hfl, hvic] at h
    | some v =>
      obtain ⟨r', vo⟩ := v
      cases vo with
      | none =>
        obtain ⟨hnp, hinv⟩ := NewPage_no_victim hv hfl hvic fuel
        rw [hnp] at h
        simp only [Option.some.injEq, Prod.mk.injEq] at h
        exact ⟨kv, h.1 ▸ hinv⟩
      | some pp =>
        cases hpg : s.pages_[pp]? with
        | none => simp [NewPage, hfl, hvic, hpg] at h
        | some pg =>
          by_cases hpin : pg.pin_count_ > 0
          · obtain ⟨hnp, hinv⟩ := NewPage_victim_pinned hv hfl hvic hpg hpin fuel
            rw [hnp] at h
            simp only [Option.some.injEq, Prod.mk.injEq] at h
            exact ⟨kv, h.1 ▸ hinv⟩
          · cases fuel with
            | zero => simp [NewPage, hfl, hvic, hpg, hpin, fresh_zero] at h
            | succ fuel =>
              obtain ⟨-, -, hnp, hinv⟩ := NewPage_victim hv hnB hnew hfl hvic hpg hpin fuel
              rw [hnp] at h
              simp only [Option.some.injEq, Prod.mk.injEq] at h
              exact ⟨_, h.1 ▸ hinv⟩

end BufferPoolManager

namespace BufferPoolManager

open ExtendibleHash

variable {B n : Nat} {kv : List (Int × Nat)} {s : BufferPoolManager}

theorem UnpinPage_preserves (hv : PoolInv B n s kv) {page_id : Int} {is_dirty : Bool}
    {s' : BufferPoolManager} {r : Bool} (h : s.UnpinPage page_id is_dirty = some (s', r)) :
    ∃ kv', PoolInv B n s' kv' := by
  refine ⟨kv, ?_⟩
  unfold UnpinPage at h
  split_ifs at h with hid
  · simp only [Option.some.injEq, Prod.mk.injEq] at h
    exact h.1 ▸ hv
  · cases hf : s.page_table_.Find page_id with
    | none =>
      simp only [hf, Option.some.injEq, Prod.mk.injEq] at h
      exact h.1 ▸ hv
    | some pp =>
      have hm := hv.mem_of_Find hf
      obtain ⟨pg, hpg, -⟩ := hv.page_ids _ hm
      simp only at hpg
      simp only [hf, hpg, Option.some_bind] at h
      split_ifs at h with hpin h0
      · simp only [Option.some.injEq, Prod.mk.injEq] at h
        exact h.1 ▸ hv
      · obtain ⟨r1, hins, hr1⟩ := Option.map_eq_some'.mp h
        simp only [Prod.mk.injEq] at hr1
        rw [← hr1.1]
        refine hv.set_page (w := ⟨pg.data_, pg.page_id_, pg.pin_count_ - 1, is_dirty⟩)
          hpg rfl (by simp only; omega) (fun hfree => absurd hfree (hv.not_free_of_mem hm))
          rfl rfl rfl ?_
        exact repl_vals_of_heap
          (LRUReplacer.vals_Insert (P := fun x => x < n) hv.heap_vals (hv.lt_of_mem hm) hins)
      · simp only [Option.some.injEq, Prod.mk.injEq] at h
        rw [← h.1]
        exact hv.set_page (w := ⟨pg.data_, pg.page_id_, pg.pin_count_ - 1, is_dirty⟩)
          hpg rfl (by simp only; omega) (fun hfree => absurd hfree (hv.not_free_of_mem hm))
          rfl rfl rfl hv.repl_vals

theorem FlushPage_preserves (hv : PoolInv B n s kv) {page_id : Int}
    {s' : BufferPoolManager} {r : Bool} (h : s.FlushPage page_id = some (s', r)) :
    ∃ kv', PoolInv B n s' kv' := by
  refine ⟨kv, ?_⟩
  unfold FlushPage at h
  split_ifs at h with hid
  · simp only [Option.some.injEq, Prod.mk.injEq] at h
    exact h.1 ▸ hv
  · cases hf : s.page_table_.Find page_id with
    | none =>
      simp only [hf, Option.some.injEq, Prod.mk.injEq] at h
      exact h.1 ▸ hv
    | some pp =>
      simp only [hf] at h
      obtain ⟨pg, -, hr1⟩ := Option.map_eq_some'.mp h
      simp only [Prod.mk.injEq] at hr1
      rw [← hr1.1]
      exact hv.of_same rfl rfl rfl hv.repl_vals

/-- `DeletePage` of a resident page with pin count 0. -/
theorem DeletePage_resident (hv : PoolInv B n s kv) {page_id : Int} {pp : Nat} {pg : Page}
    (hid : page_id ≠ INVALID_PAGE_ID) (hf : s.page_table_.Find page_id = some pp)
    (hpg : s.pages_[pp]? = some pg) (hpin : pg.pin_count_ = 0) :
    s.DeletePage page_id =
      some ({ s with
              page_table_ := flat B (kv.eraseP (fun e => e.1 == page_id)),
              pages_ := s.pages_.set pp ⟨pg.data_, INVALID_PAGE_ID, 0, false⟩,
              free_list_ := s.free_list_ ++ [pp],
              disk_manager_ := s.disk_manager_.DeallocatePage page_id }, true) ∧
    PoolInv B n { s with
              page_table_ := flat B (kv.eraseP (fun e => e.1 == page_id)),
              pages_ := s.pages_.set pp ⟨pg.data_, INVALID_PAGE_ID, 0, false⟩,
              free_list_ := s.free_list_ ++ [pp],
              disk_manager_ := s.disk_manager_.DeallocatePage page_id }
      (kv.eraseP (fun e => e.1 == page_id)) := by
  constructor
  · simp only [DeletePage, hid, if_false, hf, hpg, Option.map_some', hpin, ne_eq,
      not_true_eq_false]
    rw [hv.table, Remove_flat]
  · exact hv.release (w := ⟨pg.data_, INVALID_PAGE_ID, 0, false⟩) (hv.mem_of_Find hf) rfl
      rfl rfl rfl hv.repl_vals

theorem DeletePage_preserves (hv : PoolInv B n s kv) {page_id : Int}
    {s' : BufferPoolManager} {r : Bool} (h : s.DeletePage page_id = some (s', r)) :
    ∃ kv', PoolInv B n s' kv' := by
  by_cases hid : page_id = INVALID_PAGE_ID
  · simp only [DeletePage, hid, if_true, Option.some.injEq, Prod.mk.injEq] at h
    exact ⟨kv, h.1 ▸ hv⟩
  cases hf : s.page_table_.Find page_id with
  | none =>
    simp only [DeletePage, hid, if_false, hf, Option.some.injEq, Prod.mk.injEq] at h
    exact ⟨kv, h.1 ▸ hv⟩
  | some pp =>
    obtain ⟨pg, hpg, -⟩ := hv.page_ids _ (hv.mem_of_Find hf)
    simp only at hpg
    by_cases hpin : pg.pin_count_ = 0
    · obtain ⟨hd, hinv⟩ := DeletePage_resident hv hid hf hpg hpin
      rw [hd] at h
      simp only [Option.some.injEq, Prod.mk.injEq] at h
      exact ⟨_, h.1 ▸ hinv⟩
    · simp only [DeletePage, hid, if_false, hf, hpg, Option.map_some', ne_eq, hpin,
        not_false_eq_true, if_true, Option.some.injEq, Prod.mk.injEq] at h
      exact ⟨kv, h.1 ▸ hv⟩

theorem writeData_preserves (hv : PoolInv B n s kv) {pp : Nat} {data : List Nat}
    {s' : BufferPoolManager} (h : s.writeData pp data = some s') :
    ∃ kv', PoolInv B n s' kv' := by
  refine ⟨kv, ?_⟩
  unfold writeData at h
  cases hpg : s.pages_[pp]? with
  | none => simp [hpg] at h
  | some pg =>
    simp only [hpg] at h
    split_ifs at h with hpin
    simp only [Option.some.injEq] at h
    rw [← h]
    refine hv.set_page (w := ⟨data, pg.page_id_, pg.pin_count_, pg.is_dirty_⟩)
      hpg rfl (le_of_lt hpin) ?_ rfl rfl rfl hv.repl_vals
    intro hfree
    obtain ⟨q, hq, hq0⟩ := hv.free_pins pp hfree
    rw [hpg] at hq
    cases hq
    omega

/-- Every reachable state of a pool with at most `BUCKET_SIZE` frames satisfies the pool
invariant. -/
theorem Reachable.inv {B n : Nat} {d : DiskManager} {s : BufferPoolManager} (hnB : n ≤ B)
    (h : Reachable B n d s) : ∃ kv, PoolInv B n s kv := by
  induction h with
  | init => exact ⟨[], PoolInv.init B n d⟩
  | write pp data _ hstep ih =>
    obtain ⟨kv, hv⟩ := ih
    exact writeData_preserves hv hstep
  | fetch fuel page_id _ hstep ih =>
    obtain ⟨kv, hv⟩ := ih
    exact FetchPage_preserves hv hnB hstep
  | unpin page_id is_dirty _ hstep ih =>
    obtain ⟨kv, hv⟩ := ih
    exact UnpinPage_preserves hv hstep
  | flush page_id _ hstep ih =>
    obtain ⟨kv, hv⟩ := ih
    exact FlushPage_preserves hv hstep
  | delete page_id _ hstep ih =>
    obtain ⟨kv, hv⟩ := ih
    exact DeletePage_preserves hv hstep
  | newPage fuel _ hfresh hstep ih =>
    obtain ⟨kv, hv⟩ := ih
    exact NewPage_preserves hv hnB hfresh hstep

end BufferPoolManager

namespace BufferPoolManager

open ExtendibleHash

theorem step_reachable {B n : Nat} {d : DiskManager} {s s' : BufferPoolManager} {c : Call}
    (hr : Reachable B n d s) (h : s.step c = some s') : Reachable B n d s' := by
  cases c with
  | WriteData pp data => exact Reachable.write pp data hr h
  | FetchPage page_id =>
    obtain ⟨x, hx, rfl⟩ := Option.map_eq_some'.mp h
    exact Reachable.fetch (r := x.2) 1 page_id hr hx
  | UnpinPage page_id is_dirty =>
    obtain ⟨x, hx, rfl⟩ := Option.map_eq_some'.mp h
    exact Reachable.unpin (r := x.2) page_id is_dirty hr hx
  | FlushPage page_id =>
    obtain ⟨x, hx, rfl⟩ := Option.map_eq_some'.mp h
    exact Reachable.flush (r := x.2) page_id hr hx
  | DeletePage page_id =>
    obtain ⟨x, hx, rfl⟩ := Option.map_eq_some'.mp h
    exact Reachable.delete (r := x.2) page_id hr hx
  | NewPage =>
    simp only [step] at h
    split_ifs at h with hfresh
    obtain ⟨x, hx, rfl⟩ := Option.map_eq_some'.mp h
    exact Reachable.newPage (r := x.2) 1 hr hfresh hx

theorem run_reachable {B n : Nat} {d : DiskManager} {cs : List Call} :
    ∀ {s s' : BufferPoolManager}, Reachable B n d s → s.run cs = some s' →
      Reachable B n d s' := by
  induction cs with
  | nil =>
    intro s s' hr h
    simp only [run, Option.some.injEq] at h
    exact h ▸ hr
  | cons c cs ih =>
    intro s s' hr h
    simp only [run] at h
    obtain ⟨s1, h1, h2⟩ := Option.bind_eq_some.mp h
    exact ih (step_reachable hr h1) h2

/-- The state a sequence of calls on a fresh pool ends in is reachable. -/
theorem reachable_get {B n : Nat} {d : DiskManager} {cs : List Call}
    (h : ((BufferPoolManager.new B n d).run cs).isSome = true) :
    Reachable B n d (((BufferPoolManager.new B n d).run cs).get h) :=
  run_reachable Reachable.init (Option.some_get h).symm

theorem content_evict (s : BufferPoolManager) (pg : Page) (page_id : Int)
    (h : pg.page_id_ ≠ page_id) :
    (evict s pg).disk_manager_.content page_id = s.disk_manager_.content page_id := by
  unfold evict
  by_cases hd : pg.is_dirty_
  · simp [hd, DiskManager.WritePage, Ne.symm h]
  · simp [hd]

/-- `FetchPage` while the page table has not overflowed: `FetchPage(id)` with
`id != INVALID_PAGE_ID` in a state reachable from the construction of a pool with at most
`BUCKET_SIZE` frames. If `id` is resident, the call
returns the frame `pp` the page table maps `id` to, and the state after the call is the
state before it with the pin count of `pp` increased by 1: bytes, dirty flag and the disk
manager (hence its record of calls) are as before. If `id` is not resident and `pp` is the
replacement available (front of the free list, or the frame the replacer hands out when the
free list is empty, with pin count 0), the call returns `pp`, which then has `page_id_ = id`,
`pin_count_ = 1`, `is_dirty_ = false` and the bytes `ReadPage(id)` delivers, and the page
table maps `id` to `pp`. -/
theorem FetchPage_contract {B n : Nat} {d : DiskManager} {s : BufferPoolManager}
    (hnB : n ≤ B) (hr : Reachable B n d s) (page_id : Int)
    (hid : page_id ≠ INVALID_PAGE_ID) :
    (∀ pp, s.page_table_.Find page_id = some pp →
      ∃ pg, s.pages_[pp]? = some pg ∧
        ∀ fuel, s.FetchPage fuel page_id =
          some ({ s with pages_ := s.pages_.set pp { pg with pin_count_ := pg.pin_count_ + 1 } },
            some pp)) ∧
    (s.page_table_.Find page_id = none → ∀ pp, s.VictimAvailable pp →
      ∃ s' pg', s.FetchPage 1 page_id = some (s', some pp) ∧
        s'.pages_[pp]? = some pg' ∧ pg'.page_id_ = page_id ∧ pg'.pin_count_ = 1 ∧
        pg'.is_dirty_ = false ∧ pg'.data_ = (s.disk_manager_.ReadPage page_id).2 ∧
        s'.page_table_.Find page_id = some pp) := by
  obtain ⟨kv, hv⟩ := hr.inv hnB
  constructor
  · intro pp hf
    obtain ⟨pg, hpg, hfetch, -⟩ := FetchPage_hit hv hid hf
    exact ⟨pg, hpg, hfetch⟩
  · intro hf pp hav
    rcases hav with hfront | ⟨hfl, r', pg, hvic, hpg, hpin⟩
    · obtain ⟨rest, hfront⟩ : ∃ rest, s.free_list_ = pp :: rest := by
        cases hl : s.free_list_ with
        | nil => simp [hl] at hfront
        | cons a rest =>
          simp only [hl, List.head?_cons, Option.some.injEq] at hfront
          exact ⟨rest, by rw [hfront]⟩
      obtain ⟨pg, hpg, hpin, hfetch, hinv⟩ := FetchPage_miss_free hv hnB hid hf hfront 0
      have hlt : pp < s.pages_.length := by
        by_contra hc
        rw [List.getElem?_eq_none (not_lt.mp hc)] at hpg
        cases hpg
      refine ⟨_, ⟨s.disk_manager_.content page_id, page_id, pg.pin_count_ + 1, false⟩, hfetch,
        ?_, rfl, ?_, rfl, rfl, ?_⟩
      · simp [hlt]
      · simp [hpin]
      · exact hinv.Find_of_mem (List.mem_append_right _ (List.mem_singleton_self _))
    · have hpin' : ¬ pg.pin_count_ > 0 := by omega
      obtain ⟨hmem, -, hfetch, hinv⟩ :=
        FetchPage_miss_victim hv hnB hid hf hfl hvic hpg hpin' 0
      have hlt : pp < s.pages_.length := by
        by_contra hc
        rw [List.getElem?_eq_none (not_lt.mp hc)] at hpg
        cases hpg
      have hne : pg.page_id_ ≠ page_id := hv.Find_none.mp hf _ hmem
      refine ⟨_, ⟨(evict { s with replacer_ := r' } pg).disk_manager_.content page_id, page_id,
        pg.pin_count_ + 1, false⟩, hfetch, ?_, rfl, ?_, rfl, ?_, ?_⟩
      · simp [hlt]
      · simp [hpin]
      · exact content_evict _ pg page_id hne
      · exact hinv.Find_of_mem (List.mem_append_right _ (List.mem_singleton_self _))

end BufferPoolManager
namespace BufferPoolManager

open ExtendibleHash

/-- The cases of `UnpinPage(id, is_dirty)` in a state whose page table only holds frames of
the pool.
When `id` is `INVALID_PAGE_ID`, or `id` is not resident, or the resident frame has pin count
`<= 0`, the call returns false and the state is unchanged. In every other case `id` is
resident in a frame `pp` with positive pin count, the call returns true, and the state after
it is the state before it with the pin count of `pp` decreased by 1 and its dirty flag set to
`is_dirty`; the replacer is untouched when the new pin count is not 0, and is the result of
`Insert(pp)` on the replacer when the new pin count is 0. -/
theorem UnpinPage_contract (s : BufferPoolManager) (page_id : Int) (is_dirty : Bool)
    (hv : s.FramesValid) :
    (s.UnpinFails page_id → s.UnpinPage page_id is_dirty = some (s, false)) ∧
    (¬ s.UnpinFails page_id →
      ∃ pp pg, s.page_table_.Find page_id = some pp ∧ s.pages_[pp]? = some pg ∧
        0 < pg.pin_count_ ∧
        (pg.pin_count_ - 1 ≠ 0 →
          s.UnpinPage page_id is_dirty =
            some ({ s with
                    pages_ := s.pages_.set pp
                      { pg with pin_count_ := pg.pin_count_ - 1, is_dirty_ := is_dirty } }, true)) ∧
        (pg.pin_count_ - 1 = 0 →
          s.UnpinPage page_id is_dirty =
            (s.replacer_.Insert pp).map (fun r =>
              ({ s with
                  pages_ := s.pages_.set pp
                    { pg with pin_count_ := pg.pin_count_ - 1, is_dirty_ := is_dirty },
                  replacer_ := r }, true)))) := by
  constructor
  · rintro (h | h | ⟨pp, pg, h1, h2, h3⟩)
    · simp [UnpinPage, h]
    · simp [UnpinPage, h]
    · by_cases hid : page_id = INVALID_PAGE_ID
      · simp [UnpinPage, hid]
      · simp [UnpinPage, hid, h1, h2, h3]
  · intro hnf
    have hid : page_id ≠ INVALID_PAGE_ID := fun h => hnf (Or.inl h)
    cases hf : s.page_table_.Find page_id with
    | none => exact absurd (Or.inr (Or.inl hf)) hnf
    | some pp =>
      have hlt := hv page_id pp hf
      obtain ⟨pg, hpg⟩ : ∃ pg, s.pages_[pp]? = some pg := ⟨s.pages_[pp], by simp [hlt]⟩
      have hpin : 0 < pg.pin_count_ := by
        by_contra hc
        exact hnf (Or.inr (Or.inr ⟨pp, pg, hf, hpg, not_lt.mp hc⟩))
      refine ⟨pp, pg, rfl, hpg, hpin, ?_, ?_⟩
      · intro h
        simp [UnpinPage, hid, hf, hpg, not_le.mpr hpin, h]
      · intro h
        simp [UnpinPage, hid, hf, hpg, not_le.mpr hpin, h]

end BufferPoolManager

namespace BufferPoolManager

open ExtendibleHash

theorem Victim_head {T : Type} [DecidableEq T] {r r' : LRUReplacer T} {v : T}
    (h : r.Victim = some (r', some v)) :
    ∃ a node, r.head = some a ∧ r.load a = some node ∧ node.value = v := by
  unfold LRUReplacer.Victim at h
  split_ifs at h with h0
  · simp at h
  · cases hh : r.head with
    | none => simp [hh] at h
    | some vic =>
      cases hl : r.load vic with
      | none => simp [hh, hl] at h
      | some node =>
        cases ha : r.advance node with
        | none => simp [hh, hl, ha] at h
        | some r1 =>
          simp only [hh, hl, ha, Option.some_bind, Option.map_some', Option.some.injEq,
            Prod.mk.injEq] at h
          exact ⟨vic, node, rfl, hl, h.2⟩

theorem find?_append_new {kv : List (Int × Nat)} {p q : Int} {pp : Nat}
    (h : ∀ e ∈ kv, e.1 ≠ p) (hq : q ≠ p) :
    ∀ e ∈ kv ++ [(q, pp)], e.1 ≠ p := by
  intro e he
  rcases List.mem_append.mp he with h1 | h1
  · exact h e h1
  · rw [List.mem_singleton.mp h1]; exact hq

/-- `NewPage` while the page table has not overflowed. In a state reachable from the
construction of a pool with at most `BUCKET_SIZE` frames, when the id `AllocatePage` hands out
is not resident and `NewPage` returns the frame `pp` with the id `id`: `pp` is the front of the free list if the free list is not empty, and
otherwise the value of the head node of the replacer; `id` is the id `AllocatePage` returned;
after the call `pp` has `page_id_ = id`, `pin_count_ = 1`, `is_dirty_ = false` and a buffer of
`PAGE_SIZE` zero bytes, the page table maps `id` to `pp`, and no page id that the page table
mapped to `pp` before the call is resident any more. -/
theorem NewPage_contract {B n : Nat} {d : DiskManager} {s : BufferPoolManager}
    (hnB : n ≤ B) (hr : Reachable B n d s)
    (hfresh : s.page_table_.Find s.disk_manager_.next_page_id = none)
    (fuel : Nat) (s' : BufferPoolManager) (pp : Nat) (id : Int)
    (h : s.NewPage fuel = some (s', some (pp, id))) :
    NewPageSpec s s' pp id := by
  unfold NewPageSpec
  obtain ⟨kv, hv⟩ := hr.inv hnB
  cases hfl : s.free_list_ with
  | cons pp0 rest =>
    cases fuel with
    | zero => simp [NewPage, hfl, fresh_zero] at h
    | succ fuel =>
      obtain ⟨pg, hpg, hpin, hnp, hinv⟩ := NewPage_free hv hnB hfresh hfl fuel
      rw [hnp] at h
      simp only [Option.some.injEq, Prod.mk.injEq] at h
      obtain ⟨hs', hpp, hidq⟩ := h
      subst hpp; subst hidq; subst hs'
      have hlt : pp0 < s.pages_.length := by
        by_contra hc
        rw [List.getElem?_eq_none (not_lt.mp hc)] at hpg
        cases hpg
      refine ⟨Or.inl rfl, rfl,
        ⟨⟨List.replicate PAGE_SIZE 0, s.disk_manager_.next_page_id, pg.pin_count_ + 1, false⟩,
          ?_, rfl, ?_, rfl, rfl⟩, ?_, ?_⟩
      · simp [hlt]
      · simp [hpin]
      · exact hinv.Find_of_mem (List.mem_append_right _ (List.mem_singleton_self _))
      · intro p hp
        exact absurd (by rw [hfl]; exact List.mem_cons_self _ _)
          (hv.not_free_of_mem (hv.mem_of_Find hp))
  | nil =>
    cases hvic : s.replacer_.Victim with
    | none => simp [NewPage, hfl, hvic] at h
    | some v =>
      obtain ⟨r', vo⟩ := v
      cases vo with
      | none => simp [NewPage, hfl, hvic] at h
      | some pp0 =>
        cases hpg : s.pages_[pp0]? with
        | none => simp [NewPage, hfl, hvic, hpg] at h
        | some pg =>
          by_cases hpin : pg.pin_count_ > 0
          · simp [NewPage, hfl, hvic, hpg, hpin] at h
          · cases fuel with
            | zero => simp [NewPage, hfl, hvic, hpg, hpin, fresh_zero] at h
            | succ fuel =>
              obtain ⟨hmem, hpin0, hnp, hinv⟩ :=
                NewPage_victim hv hnB hfresh hfl hvic hpg hpin fuel
              rw [hnp] at h
              simp only [Option.some.injEq, Prod.mk.injEq] at h
              obtain ⟨hs', hpp, hidq⟩ := h
              subst hpp; subst hidq; subst hs'
              have hlt : pp0 < s.pages_.length := by
                by_contra hc
                rw [List.getElem?_eq_none (not_lt.mp hc)] at hpg
                cases hpg
              obtain ⟨l1, l2, -, her, hne⟩ := split_at_key hv.keys_nodup hmem
              refine ⟨Or.inr ⟨rfl, Victim_head hvic⟩, rfl,
                ⟨⟨List.replicate PAGE_SIZE 0, s.disk_manager_.next_page_id,
                  pg.pin_count_ + 1, false⟩, ?_, rfl, ?_, rfl, rfl⟩, ?_, ?_⟩
              · simp [evict, hlt]
              · simp [hpin0]
              · exact hinv.Find_of_mem (List.mem_append_right _ (List.mem_singleton_self _))
              · intro p hp
                have hp' := hv.mem_of_Find hp
                have hpq : p = pg.page_id_ := hv.entry_unique hp' hmem
                subst hpq
                rw [hinv.Find_none]
                apply find?_append_new
                · rw [her]; exact hne
                · intro hc
                  exact hv.Find_none.mp hfresh _ hmem hc.symm

theorem some_get_fst {α β : Type} {o : Option (α × β)} (h : o.isSome = true) {b : β}
    (hb : (o.get h).2 = b) : o = some ((o.get h).1, b) := by
  rw [← hb]
  simp

theorem scenarioFill_isSome : scenarioFill.isSome = true := by decide

theorem scenarioFill_NewPage_isSome :
    ((scenarioFill.get scenarioFill_isSome).NewPage 1).isSome = true := by decide

end BufferPoolManager

namespace BufferPoolManager

open ExtendibleHash

variable {B n : Nat} {kv : List (Int × Nat)} {s : BufferPoolManager}

theorem Kept.same {s s' : BufferPoolManager} (hp : s'.pages_ = s.pages_)
    (ht : s'.page_table_ = s.page_table_) : Kept s s' := by
  intro f pg hpg
  refine ⟨fun _ => ⟨pg, by rw [hp, hpg], rfl, rfl, fun p h => by rw [ht, h]⟩, ?_⟩
  intro pg' hpg' hne
  rw [hp, hpg] at hpg'
  cases hpg'
  exact absurd rfl hne

/-- A call that rewrites the single frame `pp`, which had pin count 0, and whose page table
keeps every entry that does not point to `pp`. -/
theorem Kept.of_set {s s' : BufferPoolManager} {pp : Nat} {pg0 q : Page}
    (hpg0 : s.pages_[pp]? = some pg0) (hpin0 : pg0.pin_count_ = 0)
    (hp : s'.pages_ = s.pages_.set pp q)
    (ht : ∀ p f, f ≠ pp → s.page_table_.Find p = some f → s'.page_table_.Find p = some f) :
    Kept s s' := by
  intro f pg hpg
  constructor
  · intro hpos
    have hne : f ≠ pp := by
      intro hc
      subst hc
      rw [hpg0] at hpg
      cases hpg
      omega
    refine ⟨pg, ?_, rfl, rfl, fun p h => ht p f hne h⟩
    rw [hp, List.getElem?_set, if_neg (Ne.symm hne), hpg]
  · intro pg' hpg' hne
    by_cases hc : f = pp
    · subst hc
      rw [hpg0] at hpg
      cases hpg
      exact hpin0
    · rw [hp, List.getElem?_set, if_neg (Ne.symm hc), hpg] at hpg'
      cases hpg'
      exact absurd rfl hne

theorem PoolInv.Find_append (hv : PoolInv B n s kv) {p q : Int} {f pp : Nat}
    (h : s.page_table_.Find p = some f) :
    (flat B (kv ++ [(q, pp)])).Find p = some f := by
  rw [hv.Find_eq] at h
  rw [Find_flat, List.find?_append]
  cases hfind : kv.find? (fun e => e.1 == p) with
  | none => rw [hfind] at h; cases h
  | some e => rw [hfind] at h; simpa using h

theorem PoolInv.Find_erase_append (hv : PoolInv B n s kv) {p q q' : Int} {f pp : Nat}
    (hq : (q, pp) ∈ kv) (hne : f ≠ pp) (h : s.page_table_.Find p = some f) :
    (flat B (kv.eraseP (fun e => e.1 == q) ++ [(q', pp)])).Find p = some f := by
  have hm := hv.mem_of_Find h
  have hpq : p ≠ q := by
    intro hc
    subst hc
    have := hv.Find_of_mem hq
    rw [h] at this
    exact hne (Option.some.inj this)
  have hm' : (p, f) ∈ kv.eraseP (fun e => e.1 == q) :=
    (List.mem_eraseP_of_neg (by simpa using hpq)).mpr hm
  have hnd : ((kv.eraseP (fun e => e.1 == q)).map Prod.fst).Nodup :=
    ((List.eraseP_sublist kv).map Prod.fst).nodup hv.keys_nodup
  rw [Find_flat, List.find?_append, find?_key_of_mem hnd hm']
  rfl

theorem FetchPage_kept (hv : PoolInv B n s kv) (hnB : n ≤ B) {fuel : Nat} {page_id : Int}
    {s' : BufferPoolManager} {r : Option Nat} (h : s.FetchPage fuel page_id = some (s', r)) :
    Kept s s' := by
  by_cases hid : page_id = INVALID_PAGE_ID
  · simp only [FetchPage, hid, if_true, Option.some.injEq, Prod.mk.injEq] at h
    exact Kept.same (by rw [← h.1]) (by rw [← h.1])
  cases hf : s.page_table_.Find page_id with
  | some pp =>
    obtain ⟨pg, hpg, hfetch, -⟩ := FetchPage_hit hv hid hf
    rw [hfetch fuel] at h
    simp only [Option.some.injEq, Prod.mk.injEq] at h
    rw [← h.1]
    intro f pg1 hpg1
    by_cases hc : f = pp
    · subst hc
      rw [hpg] at hpg1
      cases hpg1
      have hlt : f < s.pages_.length := by
        by_contra hc
        rw [List.getElem?_eq_none (not_lt.mp hc)] at hpg
        cases hpg
      refine ⟨fun _ => ⟨⟨pg.data_, pg.page_id_, pg.pin_count_ + 1, pg.is_dirty_⟩, ?_, rfl, rfl,
        fun p hp => hp⟩, ?_⟩
      · simp [hlt]
      · intro pg' hpg' hne
        simp [hlt] at hpg'
        rw [← hpg'] at hne
        exact absurd rfl hne
    · refine ⟨fun _ => ⟨pg1, ?_, rfl, rfl, fun p hp => hp⟩, ?_⟩
      · simp only
        rw [List.getElem?_set, if_neg (Ne.symm hc), hpg1]
      · intro pg' hpg' hne
        simp only at hpg'
        rw [List.getElem?_set, if_neg (Ne.symm hc), hpg1] at hpg'
        cases hpg'
        exact absurd rfl hne
  | none =>
    cases hfl : s.free_list_ with
    | cons pp rest =>
      cases fuel with
      | zero => simp [FetchPage, hid, hf, hfl, load_zero] at h
      | succ fuel =>
        obtain ⟨pg, hpg, hpin, hfetch, -⟩ := FetchPage_miss_free hv hnB hid hf hfl fuel
        rw [hfetch] at h
        simp only [Option.some.injEq, Prod.mk.injEq] at h
        rw [← h.1]
        exact Kept.of_set hpg hpin rfl (fun p f _ hp => hv.Find_append hp)
    | nil =>
      cases hvic : s.replacer_.Victim with
      | none => simp [FetchPage, hid, hf, hfl, hvic] at h
      | some v =>
        obtain ⟨r', vo⟩ := v
        cases vo with
        | none => simp [FetchPage, hid, hf, hfl, hvic] at h
        | some pp =>
          cases hpg : s.pages_[pp]? with
          | none => simp [FetchPage, hid, hf, hfl, hvic, hpg] at h
          | some pg =>
            by_cases hpin : pg.pin_count_ > 0
            · obtain ⟨hfetch, -⟩ := FetchPage_victim_pinned hv hid hf hfl hvic hpg hpin fuel
              rw [hfetch] at h
              simp only [Option.some.injEq, Prod.mk.injEq] at h
              exact Kept.same (by rw [← h.1]) (by rw [← h.1])
            · cases fuel with
              | zero => simp [FetchPage, hid, hf, hfl, hvic, hpg, hpin, load_zero] at h
              | succ fuel =>
                obtain ⟨hmem, hpin0, hfetch, -⟩ :=
                  FetchPage_miss_victim hv hnB hid hf hfl hvic hpg hpin fuel
                rw [hfetch] at h
                simp only [Option.some.injEq, Prod.mk.injEq] at h
                rw [← h.1]
                exact Kept.of_set hpg hpin0 rfl
                  (fun p f hne hp => hv.Find_erase_append hmem hne hp)

theorem NewPage_kept (hv : PoolInv B n s kv) (hnB : n ≤ B) {fuel : Nat}
    (hnew : s.page_table_.Find s.disk_manager_.next_page_id = none)
    {s' : BufferPoolManager} {r : Option (Nat × Int)} (h : s.NewPage fuel = some (s', r)) :
    Kept s s' := by
  cases hfl : s.free_list_ with
  | cons pp rest =>
    cases fuel with
    | zero => simp [NewPage, hfl, fresh_zero] at h
    | succ fuel =>
      obtain ⟨pg, hpg, hpin, hnp, -⟩ := NewPage_free hv hnB hnew hfl fuel
      rw [hnp] at h
      simp only [Option.some.injEq, Prod.mk.injEq] at h
      rw [← h.1]
      exact Kept.of_set hpg hpin rfl (fun p f _ hp => hv.Find_append hp)
  | nil =>
    cases hvic : s.replacer_.Victim with
    | none => simp [NewPage, hfl, hvic] at h
    | some v =>
      obtain ⟨r', vo⟩ := v
      cases vo with
      | none =>
        obtain ⟨hnp, -⟩ := NewPage_no_victim hv hfl hvic fuel
        rw [hnp] at h
        simp only [Option.some.injEq, Prod.mk.injEq] at h
        exact Kept.same (by rw [← h.1]) (by rw [← h.1])
      | some pp =>
        cases hpg : s.pages_[pp]? with
        | none => simp [NewPage, hfl, hvic, hpg] at h
        | some pg =>
          by_cases hpin : pg.pin_count_ > 0
          · obtain ⟨hnp, -⟩ := NewPage_victim_pinned hv hfl hvic hpg hpin fuel
            rw [hnp] at h
            simp only [Option.some.injEq, Prod.mk.injEq] at h
            exact Kept.same (by rw [← h.1]) (by rw [← h.1])
          · cases fuel with
            | zero => simp [NewPage, hfl, hvic, hpg, hpin, fresh_zero] at h
            | succ fuel =>
              obtain ⟨hmem, hpin0, hnp, -⟩ := NewPage_victim hv hnB hnew hfl hvic hpg hpin fuel
              rw [hnp] at h
              simp only [Option.some.injEq, Prod.mk.injEq] at h
              rw [← h.1]
              exact Kept.of_set hpg hpin0 rfl
                (fun p f hne hp => hv.Find_erase_append hmem hne hp)

/-- Pinned frames while the page table has not overflowed. In a state reachable from the
construction of a pool with at most `BUCKET_SIZE` frames, across every call of `FetchPage`
that returns, and across every call of `NewPage` that returns (the id `AllocatePage` hands out not being resident): a
frame with pin count `> 0` before the call has the same page id and the same bytes after it,
every page-table entry pointing to it is kept, and a frame whose page id is changed by the
call had pin count 0 immediately before it. -/
theorem pinned_frame_not_evicted {B n : Nat} {d : DiskManager} {s : BufferPoolManager}
    (hnB : n ≤ B) (hr : Reachable B n d s) :
    (∀ fuel page_id s' r, s.FetchPage fuel page_id = some (s', r) → Kept s s') ∧
    (∀ fuel s' r, s.page_table_.Find s.disk_manager_.next_page_id = none →
      s.NewPage fuel = some (s', r) → Kept s s') := by
  obtain ⟨kv, hv⟩ := hr.inv hnB
  exact ⟨fun _ _ _ _ h => FetchPage_kept hv hnB h, fun _ _ _ hnew h => NewPage_kept hv hnB hnew h⟩

end BufferPoolManager

namespace BufferPoolManager

open ExtendibleHash

theorem evict_calls (s : BufferPoolManager) (pg : Page) :
    (evict s pg).disk_manager_.calls = s.disk_manager_.calls ++ writeBack pg := by
  unfold evict writeBack
  by_cases h : pg.is_dirty_ <;> simp [h, DiskManager.WritePage]

theorem FetchPage_via_victim (s : BufferPoolManager) (r' : LRUReplacer Nat) (pp : Nat)
    (pg : Page) (hfl : s.free_list_ = []) (hvic : s.replacer_.Victim = some (r', some pp))
    (hpg : s.pages_[pp]? = some pg) (hpin : pg.pin_count_ = 0) (fuel : Nat) (page_id : Int)
    (hid : page_id ≠ INVALID_PAGE_ID) (hf : s.page_table_.Find page_id = none) :
    s.FetchPage fuel page_id = load fuel (evict { s with replacer_ := r' } pg) page_id pp := by
  have hpin' : ¬ pg.pin_count_ > 0 := by omega
  simp only [FetchPage, hid, if_false, hf, hfl, hvic, Option.some_bind, hpg, hpin']

theorem NewPage_via_victim (s : BufferPoolManager) (r' : LRUReplacer Nat) (pp : Nat)
    (pg : Page) (hfl : s.free_list_ = []) (hvic : s.replacer_.Victim = some (r', some pp))
    (hpg : s.pages_[pp]? = some pg) (hpin : pg.pin_count_ = 0) (fuel : Nat) :
    s.NewPage fuel = fresh fuel (evict { s with replacer_ := r' } pg) pp := by
  have hpin' : ¬ pg.pin_count_ > 0 := by omega
  simp only [NewPage, hfl, hvic, Option.some_bind, hpg, hpin', if_false]

/-- C6. Dirty write-back on eviction. In any state of the pool in which the free list is
empty and the replacer hands out the frame `pp`, which holds the page `pg.page_id_` with pin
count 0, and for any number `fuel` of calls allowed to `Insert` of the page table:
`FetchPage(id)` of a page that is not resident returns whenever the insertion of `id` into
the page table returns, and every call that returns gives the frame `pp` and has issued
exactly these disk calls: one `WritePage(pg.page_id_, pg.data_)`, with the bytes the frame
held before the call, if the frame is dirty, none if it is clean, followed by `ReadPage(id)`.
`NewPage` returns whenever the insertion of the new id into the page table returns, and every
call that returns gives the frame `pp` with the id of `AllocatePage` and has issued the same
write-back followed by `AllocatePage`. -/
theorem dirty_write_back (s : BufferPoolManager) (r' : LRUReplacer Nat) (pp : Nat) (pg : Page)
    (hfl : s.free_list_ = []) (hvic : s.replacer_.Victim = some (r', some pp))
    (hpg : s.pages_[pp]? = some pg) (hpin : pg.pin_count_ = 0) (fuel : Nat) :
    (∀ page_id, page_id ≠ INVALID_PAGE_ID → s.page_table_.Find page_id = none →
      (((s.page_table_.Remove pg.page_id_).1.Insert fuel page_id pp).isSome = true →
        ∃ s', s.FetchPage fuel page_id = some (s', some pp)) ∧
      ∀ s' r, s.FetchPage fuel page_id = some (s', r) →
        r = some pp ∧
        s'.disk_manager_.calls =
          s.disk_manager_.calls ++ writeBack pg ++ [DiskCall.ReadPage page_id]) ∧
    ((((s.page_table_.Remove pg.page_id_).1.Insert fuel s.disk_manager_.next_page_id pp).isSome =
        true →
        ∃ s', s.NewPage fuel = some (s', some (pp, s.disk_manager_.next_page_id))) ∧
      ∀ s' r, s.NewPage fuel = some (s', r) →
        r = some (pp, s.disk_manager_.next_page_id) ∧
        s'.disk_manager_.calls =
          s.disk_manager_.calls ++ writeBack pg ++
            [DiskCall.AllocatePage s.disk_manager_.next_page_id]) := by
  have hpg' : (evict { s with replacer_ := r' } pg).pages_[pp]? = some pg := hpg
  have hpt : (evict { s with replacer_ := r' } pg).page_table_ =
      (s.page_table_.Remove pg.page_id_).1 := rfl
  have hcalls : (evict { s with replacer_ := r' } pg).disk_manager_.calls =
      s.disk_manager_.calls ++ writeBack pg := evict_calls _ pg
  have hnext : (evict { s with replacer_ := r' } pg).disk_manager_.next_page_id =
      s.disk_manager_.next_page_id := evict_next_page_id _ pg
  constructor
  · intro page_id hid hf
    rw [FetchPage_via_victim s r' pp pg hfl hvic hpg hpin fuel page_id hid hf]
    constructor
    · intro hins
      obtain ⟨pt, hins⟩ := Option.isSome_iff_exists.mp hins
      simp only [load, hpt, hins, Option.some_bind, hpg', Option.map_some']
      exact ⟨_, rfl⟩
    · intro s' r h
      unfold load at h
      obtain ⟨pt, -, h2⟩ := Option.bind_eq_some.mp h
      rw [hpg'] at h2
      simp only [Option.map_some', Option.some.injEq, Prod.mk.injEq] at h2
      refine ⟨h2.2.symm, ?_⟩
      rw [← h2.1]
      simp only [DiskManager.ReadPage]
      rw [hcalls]
  · rw [NewPage_via_victim s r' pp pg hfl hvic hpg hpin fuel]
    constructor
    · intro hins
      obtain ⟨pt, hins⟩ := Option.isSome_iff_exists.mp hins
      simp only [fresh, hpt, DiskManager.AllocatePage, hnext, hins, Option.some_bind, hpg',
        Option.map_some']
      exact ⟨_, rfl⟩
    · intro s' r h
      unfold fresh at h
      obtain ⟨pt, -, h2⟩ := Option.bind_eq_some.mp h
      rw [hpg'] at h2
      simp only [Option.map_some', Option.some.injEq, Prod.mk.injEq] at h2
      refine ⟨?_, ?_⟩
      · rw [← h2.2]
        simp only [DiskManager.AllocatePage, hnext]
      · rw [← h2.1]
        simp only [DiskManager.AllocatePage]
        rw [hcalls, hnext]

theorem scenarioDirty_isSome : scenarioDirty.isSome = true := by decide

theorem scenarioDirty_Victim_isSome :
    (scenarioDirty.get scenarioDirty_isSome).replacer_.Victim.isSome = true := by decide

/-- Witness for C6: the scenario of the specification. In a pool of one frame, after `NewPage`
(page 0), the byte 42 written into the buffer and `UnpinPage(0, true)`, the frame is dirty and
in the replacer; `NewPage` then returns frame 0 with the id 1, and the disk calls of the pool
are `AllocatePage` (0), `WritePage(0, bytes starting with 42)`, once, and `AllocatePage`
(1). -/
theorem dirty_write_back_witness :
    ∃ s s', scenarioDirty = some s ∧
      s.free_list_ = [] ∧ s.disk_manager_.calls = [DiskCall.AllocatePage 0] ∧
      s.pages_[0]? = some ⟨42 :: List.replicate (PAGE_SIZE - 1) 0, 0, 0, true⟩ ∧
      s.NewPage 1 = some (s', some (0, 1)) ∧
      s'.disk_manager_.calls =
        [DiskCall.AllocatePage 0, DiskCall.WritePage 0 (42 :: List.replicate (PAGE_SIZE - 1) 0),
          DiskCall.AllocatePage 1] :=
  have hvic : (scenarioDirty.get scenarioDirty_isSome).replacer_.Victim =
      some (((scenarioDirty.get scenarioDirty_isSome).replacer_.Victim.get
        scenarioDirty_Victim_isSome).1, some 0) :=
    some_get_fst scenarioDirty_Victim_isSome (by decide)
  have h := (dirty_write_back (scenarioDirty.get scenarioDirty_isSome) _ 0
    ⟨42 :: List.replicate (PAGE_SIZE - 1) 0, 0, 0, true⟩ (by decide) hvic rfl rfl 1).2
  have h1 := h.1 (by decide)
  ⟨scenarioDirty.get scenarioDirty_isSome, h1.choose,
    (Option.some_get scenarioDirty_isSome).symm, by decide, by decide, rfl, h1.choose_spec,
    (h.2 _ _ h1.choose_spec).2⟩

end BufferPoolManager

namespace BufferPoolManager

open ExtendibleHash

theorem scenarioDelete_isSome : scenarioDelete.isSome = true := by decide

theorem scenarioDeleteUnpinned_isSome : scenarioDeleteUnpinned.isSome = true := by decide

end BufferPoolManager

namespace BufferPoolManager

open ExtendibleHash

/-- C5, evaluated on the code. Page 0 is pinned twice and dirty after `UnpinPage(0, true)`;
`UnpinPage(0, false)` then returns true and leaves the frame with the dirty flag cleared: the
code assigns `is_dirty_ = is_dirty` where the claim has the flag or-ed with `is_dirty`. -/
theorem UnpinPage_overwrites_dirty :
    scenarioTwoPins.map (fun s => s.pages_.map (fun p => (p.pin_count_, p.is_dirty_))) =
      some [(1, true)] ∧
    scenarioTwoPins.bind (fun s => (s.UnpinPage 0 false).map (fun x =>
      (x.2, x.1.pages_.map (fun p => (p.pin_count_, p.is_dirty_))))) =
      some (true, [(0, false)]) := by
  constructor <;> decide

/-- `FetchPage` with nothing to replace: the page is not resident, the free list is empty and
`Victim` returns false. The C++ code then uses the uninitialised local `pp`. -/
theorem FetchPage_nothing_to_replace (s : BufferPoolManager) (page_id : Int) (fuel : Nat)
    (hid : page_id ≠ INVALID_PAGE_ID) (hf : s.page_table_.Find page_id = none)
    (hfl : s.free_list_ = []) (hsz : s.replacer_.size = 0) :
    s.FetchPage fuel page_id = none := by
  simp [FetchPage, hid, hf, hfl, LRUReplacer.Victim, hsz]

theorem scenarioAllPinned_isSome : scenarioAllPinned.isSome = true := by decide

/-- C8, evaluated on the code. In a pool whose only frame is pinned (page 0), page 1 is not
resident, the free list is empty and the replacer is empty; `FetchPage(1)` does not return
null: with any number of retries allowed to the page table, the call has no defined result,
because the code falls through to line 87 with the local `pp` uninitialised. -/
theorem FetchPage_no_victim_undefined :
    ∃ s, scenarioAllPinned = some s ∧ s.page_table_.Find 1 = none ∧ s.free_list_ = [] ∧
      s.replacer_.Size = 0 ∧ ∀ fuel, s.FetchPage fuel 1 = none :=
  ⟨scenarioAllPinned.get scenarioAllPinned_isSome,
    (Option.some_get scenarioAllPinned_isSome).symm, by decide, by decide, by decide,
    fun fuel => FetchPage_nothing_to_replace _ 1 fuel (by decide) (by decide) (by decide)
      (by decide)⟩

/-- C9, evaluated on the code. Pages 0 and 1 are resident in a pool of 2 frames, both frames
are in the replacer, frame 0 at its head, and page 0 has been fetched again: frame 0 has pin
count 1 and frame 1 has pin count 0. `NewPage` returns null, although frame 1 is resident
with pin count 0: the replacer hands out the pinned frame 0 and the call gives up. -/
theorem NewPage_null_with_unpinned_frame :
    scenarioHeadPinned.map (fun s =>
      (s.pages_.map (fun p => (p.page_id_, p.pin_count_)), s.page_table_.Find 1, s.free_list_)) =
      some ([(0, 1), (1, 0)], some 1, []) ∧
    scenarioHeadPinned.bind (fun s => (s.NewPage 1).map Prod.snd) = some none := by
  constructor <;> decide

end BufferPoolManager

/-! ### The overflow path of `ExtendibleHash::Insert` -/

namespace ExtendibleHash

variable {V : Type} [DecidableEq V]

theorem rewire_length (b1 b2 : Bucket V) (h : Nat) :
    ∀ (n i : Nat) (dir : List (Bucket V)), (rewire b1 b2 h n i dir).length = dir.length := by
  intro n
  induction n with
  | zero => intro i dir; rfl
  | succ n ih =>
    intro i dir
    simp only [rewire]
    split_ifs <;> simp [ih]

theorem rewire_succ (b1 b2 : Bucket V) (h n i : Nat) (dir : List (Bucket V)) :
    rewire b1 b2 h (n + 1) i dir = rewire b1 b2 h n (i + 1) dir ∨
      ∃ y, rewire b1 b2 h (n + 1) i dir = rewire b1 b2 h n (i + 1) (dir.set i y) := by
  simp only [rewire]
  split_ifs
  · exact Or.inr ⟨b1, rfl⟩
  · exact Or.inr ⟨b2, rfl⟩
  · exact Or.inl rfl

theorem rewire_mem (b1 b2 : Bucket V) (h : Nat) :
    ∀ (n i : Nat) (dir : List (Bucket V)), ∀ x ∈ rewire b1 b2 h n i dir,
      x ∈ dir ∨ x = b1 ∨ x = b2 := by
  intro n
  induction n with
  | zero => intro i dir x hx; exact Or.inl hx
  | succ n ih =>
    intro i dir x hx
    simp only [rewire] at hx
    split_ifs at hx
    · rcases ih _ _ x hx with h1 | h1 | h1
      · rcases List.mem_or_eq_of_mem_set h1 with h2 | h2
        · exact Or.inl h2
        · exact Or.inr (Or.inl h2)
      · exact Or.inr (Or.inl h1)
      · exact Or.inr (Or.inr h1)
    · rcases ih _ _ x hx with h1 | h1 | h1
      · rcases List.mem_or_eq_of_mem_set h1 with h2 | h2
        · exact Or.inl h2
        · exact Or.inr (Or.inr h2)
      · exact Or.inr (Or.inl h1)
      · exact Or.inr (Or.inr h1)
    · exact ih _ _ x hx

/-- The loop does not touch slots below its starting index. -/
theorem rewire_below (b1 b2 : Bucket V) (h : Nat) :
    ∀ (n i : Nat) (dir : List (Bucket V)) (j : Nat), j < i →
      (rewire b1 b2 h n i dir)[j]? = dir[j]? := by
  intro n
  induction n with
  | zero => intro i dir j _; rfl
  | succ n ih =>
    intro i dir j hj
    simp only [rewire]
    have hne : i ≠ j := by omega
    split_ifs
    · rw [ih _ _ j (by omega), List.getElem?_set, if_neg hne]
    · rw [ih _ _ j (by omega), List.getElem?_set, if_neg hne]
    · exact ih _ _ j (by omega)

/-- The slot `hashkey` receives `b1` or `b2` according to bit `local_depth` of its index. -/
theorem rewire_at (b1 b2 : Bucket V) (h : Nat) (b : Bucket V) :
    ∀ (n i : Nat) (dir : List (Bucket V)), i ≤ h → h < i + n → dir[h]? = some b →
      (rewire b1 b2 h n i dir)[h]? =
        some (if (h >>> b.local_depth) &&& 1 = 1 then b1 else b2) := by
  intro n
  induction n with
  | zero => intro i dir h1 h2 _; omega
  | succ n ih =>
    intro i dir h1 h2 hb
    have hlt : h < dir.length := by
      by_contra hc
      rw [List.getElem?_eq_none (not_lt.mp hc)] at hb
      cases hb
    have hget : dir.getD h { local_depth := 0, kv := [], size := 0 } = b := by
      rw [List.getD_eq_getElem?_getD, hb]; rfl
    simp only [rewire]
    by_cases hih : i = h
    · subst hih
      simp only [hget, Bucket.eqv, decide_True, if_true]
      split_ifs with hbit
      · rw [rewire_below _ _ _ _ _ _ _ (by omega), List.getElem?_set, if_pos rfl, if_pos hlt]
      · rw [rewire_below _ _ _ _ _ _ _ (by omega), List.getElem?_set, if_pos rfl, if_pos hlt]
    · have hlt' : i < h := by omega
      rcases rewire_succ b1 b2 h n i dir with hs | ⟨y, hs⟩
      · simp only [rewire] at hs
        rw [hs]
        exact ih _ _ (by omega) (by omega) hb
      · simp only [rewire] at hs
        rw [hs]
        exact ih _ _ (by omega) (by omega) (by rw [List.getElem?_set, if_neg hih, hb])

/-- Past the slot `hashkey`, a slot whose bucket differs in local depth from the bucket now
at `hashkey` is left as it is. -/
theorem rewire_keep_after (b1 b2 : Bucket V) (h j : Nat) (r c : Bucket V)
    (hd : c.local_depth ≠ r.local_depth) :
    ∀ (n i : Nat) (dir : List (Bucket V)), h < i → dir[h]? = some r → dir[j]? = some c →
      (rewire b1 b2 h n i dir)[j]? = some c := by
  intro n
  induction n with
  | zero => intro i dir _ _ hc; exact hc
  | succ n ih =>
    intro i dir hi hr hc
    have hgr : dir.getD h { local_depth := 0, kv := [], size := 0 } = r := by
      rw [List.getD_eq_getElem?_getD, hr]; rfl
    simp only [rewire]
    have hih : i ≠ h := by omega
    by_cases hij : i = j
    · subst hij
      have hgc : dir.getD i { local_depth := 0, kv := [], size := 0 } = c := by
        rw [List.getD_eq_getElem?_getD, hc]; rfl
      have hne : c ≠ r := fun hcr => hd (by rw [hcr])
      simp only [hgc, hgr, Bucket.eqv, hne, decide_False, Bool.false_eq_true, if_false]
      exact ih _ _ (by omega) hr hc
    · split_ifs
      · exact ih _ _ (by omega) (by rw [List.getElem?_set, if_neg hih, hr])
          (by rw [List.getElem?_set, if_neg hij, hc])
      · exact ih _ _ (by omega) (by rw [List.getElem?_set, if_neg hih, hr])
          (by rw [List.getElem?_set, if_neg hij, hc])
      · exact ih _ _ (by omega) hr hc

/-- A slot above `hashkey` whose bucket has not the local depth of the two new buckets is
left as it is by the whole loop. -/
theorem rewire_keep (b1 b2 : Bucket V) (h j : Nat) (b c : Bucket V)
    (h1 : b1.local_depth = b.local_depth + 1) (h2 : b2.local_depth = b.local_depth + 1)
    (hd : c.local_depth ≠ b.local_depth + 1) (hhj : h < j) :
    ∀ (n i : Nat) (dir : List (Bucket V)), i ≤ h → dir[h]? = some b → dir[j]? = some c →
      (rewire b1 b2 h n i dir)[j]? = some c := by
  intro n
  induction n with
  | zero => intro i dir _ _ hc; exact hc
  | succ n ih =>
    intro i dir hi hb hc
    have hlt : h < dir.length := by
      by_contra hcon
      rw [List.getElem?_eq_none (not_lt.mp hcon)] at hb
      cases hb
    have hgb : dir.getD h { local_depth := 0, kv := [], size := 0 } = b := by
      rw [List.getD_eq_getElem?_getD, hb]; rfl
    have hij : i ≠ j := by omega
    simp only [rewire]
    by_cases hih : i = h
    · subst hih
      simp only [hgb, Bucket.eqv, decide_True, if_true]
      split_ifs
      · exact rewire_keep_after b1 b2 i j b1 c (by rw [h1]; exact hd) _ _ _ (by omega)
          (by rw [List.getElem?_set, if_pos rfl, if_pos hlt])
          (by rw [List.getElem?_set, if_neg hij, hc])
      · exact rewire_keep_after b1 b2 i j b2 c (by rw [h2]; exact hd) _ _ _ (by omega)
          (by rw [List.getElem?_set, if_pos rfl, if_pos hlt])
          (by rw [List.getElem?_set, if_neg hij, hc])
    · split_ifs
      · exact ih _ _ (by omega) (by rw [List.getElem?_set, if_neg hih, hb])
          (by rw [List.getElem?_set, if_neg hij, hc])
      · exact ih _ _ (by omega) (by rw [List.getElem?_set, if_neg hih, hb])
          (by rw [List.getElem?_set, if_neg hij, hc])
      · exact ih _ _ (by omega) hb hc

end ExtendibleHash

namespace ExtendibleHash

variable {V : Type}

theorem bit_test_iff (x i : Nat) : ((x >>> i) &&& 1 = 1) ↔ x.testBit i = true := by
  rw [Nat.shiftRight_eq_div_pow, Nat.and_one_is_mod, Nat.testBit_to_div_mod]
  simp

theorem HashKey_testBit (t : ExtendibleHash V) (key : Int) {i : Nat} (h : i < t.global_depth) :
    (t.HashKey key).testBit i = (castSizeT key).testBit i := by
  rw [HashKey_eq_mod, Nat.testBit_mod_two_pow]
  simp [h]

theorem HashKey_lt (t : ExtendibleHash V) (key : Int) : t.HashKey key < 2 ^ t.global_depth := by
  rw [HashKey_eq_mod]
  exact Nat.mod_lt _ (Nat.two_pow_pos _)

theorem redistribute_fold (t : ExtendibleHash V) (ld d : Nat) (l : List (Int × V)) :
    ∀ a1 a2 : List (Int × V),
      l.foldl
        (fun (p : Bucket V × Bucket V) e =>
          if ((t.HashKey e.1) >>> ld) &&& 1 = 1 then
            ({ p.1 with kv := p.1.kv ++ [e], size := p.1.size + 1 }, p.2)
          else
            (p.1, { p.2 with kv := p.2.kv ++ [e], size := p.2.size + 1 }))
        ({ local_depth := d, kv := a1, size := a1.length },
         { local_depth := d, kv := a2, size := a2.length }) =
      ({ local_depth := d, kv := a1 ++ l.filter (fun e => (t.HashKey e.1).testBit ld),
         size := (a1 ++ l.filter (fun e => (t.HashKey e.1).testBit ld)).length },
       { local_depth := d, kv := a2 ++ l.filter (fun e => !(t.HashKey e.1).testBit ld),
         size := (a2 ++ l.filter (fun e => !(t.HashKey e.1).testBit ld)).length }) := by
  induction l with
  | nil => intro a1 a2; simp
  | cons e l ih =>
    intro a1 a2
    rw [List.foldl_cons]
    by_cases hb : (t.HashKey e.1).testBit ld = true
    · have hb' : ((t.HashKey e.1) >>> ld) &&& 1 = 1 := (bit_test_iff _ _).mpr hb
      simp only [hb', if_true]
      have := ih (a1 ++ [e]) a2
      simp only [List.length_append, List.length_singleton] at this
      rw [this]
      simp [List.filter_cons, hb]
      try omega
    · have hb' : ¬ (((t.HashKey e.1) >>> ld) &&& 1 = 1) := fun hc => hb ((bit_test_iff _ _).mp hc)
      simp only [hb', if_false]
      have := ih a1 (a2 ++ [e])
      simp only [List.length_append, List.length_singleton] at this
      rw [this]
      simp [List.filter_cons, hb]
      try omega

/-- The two buckets of a split: the entries with bit `local_depth` set, and the others. -/
theorem redistribute_eq (t : ExtendibleHash V) (b : Bucket V) (hs : b.size = b.kv.length)
    (hd : b.local_depth < t.global_depth) :
    t.redistribute b =
      ({ local_depth := b.local_depth + 1, kv := keep (2 ^ b.local_depth) b.local_depth b.kv,
         size := (keep (2 ^ b.local_depth) b.local_depth b.kv).length },
       { local_depth := b.local_depth + 1, kv := keep 0 b.local_depth b.kv,
         size := (keep 0 b.local_depth b.kv).length }) := by
  have ht : b.kv.take b.size = b.kv := by rw [hs]; exact List.take_length _
  unfold redistribute
  rw [ht]
  have h := redistribute_fold t b.local_depth (b.local_depth + 1) b.kv [] []
  simp only [List.length_nil, List.nil_append] at h
  rw [h]
  have e1 : b.kv.filter (fun e => (t.HashKey e.1).testBit b.local_depth) =
      keep (2 ^ b.local_depth) b.local_depth b.kv := by
    unfold keep
    apply List.filter_congr
    intro e _
    rw [HashKey_testBit t e.1 hd, Nat.testBit_two_pow_self]
    cases (castSizeT e.1).testBit b.local_depth <;> rfl
  have e2 : b.kv.filter (fun e => !(t.HashKey e.1).testBit b.local_depth) =
      keep 0 b.local_depth b.kv := by
    unfold keep
    apply List.filter_congr
    intro e _
    rw [HashKey_testBit t e.1 hd, Nat.zero_testBit]
    cases (castSizeT e.1).testBit b.local_depth <;> rfl
  rw [e1, e2]

theorem keep_congr (u u' ld : Nat) (kv : List (Int × V)) (h : u.testBit ld = u'.testBit ld) :
    keep u ld kv = keep u' ld kv := by
  unfold keep
  rw [h]

theorem keep_length_le (u ld : Nat) (kv : List (Int × V)) : (keep u ld kv).length ≤ kv.length :=
  List.length_filter_le _ _

theorem mem_keep {u ld : Nat} {kv : List (Int × V)} {e : Int × V} :
    e ∈ keep u ld kv ↔ e ∈ kv ∧ (castSizeT e.1).testBit ld = u.testBit ld := by
  simp [keep]

end ExtendibleHash

namespace ExtendibleHash

variable {V : Type}

theorem slot_of_getElem? {t : ExtendibleHash V} {i : Nat} {b : Bucket V}
    (h : t.bucket[i]? = some b) : t.slot i = b := by
  unfold slot
  rw [List.getD_eq_getElem?_getD, h]
  rfl

theorem WF.getElem?_slot {t : ExtendibleHash V} (hwf : t.WF) {i : Nat}
    (hi : i < 2 ^ t.global_depth) : t.bucket[i]? = some (t.slot i) := by
  have hlt : i < t.bucket.length := by rw [hwf.1]; exact hi
  unfold slot
  rw [List.getD_eq_getElem?_getD, List.getElem?_eq_getElem hlt]
  rfl

theorem WF.slot_mem {t : ExtendibleHash V} (hwf : t.WF) {i : Nat}
    (hi : i < 2 ^ t.global_depth) : t.slot i ∈ t.bucket :=
  List.getElem?_mem (hwf.getElem?_slot hi)

theorem WF.new (size : Nat) : (ExtendibleHash.new size : ExtendibleHash V).WF := by
  refine ⟨rfl, ?_⟩
  intro b hb
  simp only [ExtendibleHash.new, List.mem_singleton] at hb
  subst hb
  exact ⟨rfl, Nat.zero_le _, Nat.le_refl _⟩

/-- Replacing one bucket by a bucket of the right shape. -/
theorem WF.set {t : ExtendibleHash V} (hwf : t.WF) (i : Nat) (b : Bucket V)
    (hb : b.size = b.kv.length ∧ b.size ≤ t.bucket_size ∧ b.local_depth ≤ t.global_depth) :
    ({ t with bucket := t.bucket.set i b } : ExtendibleHash V).WF := by
  refine ⟨by simp [hwf.1], ?_⟩
  intro x hx
  rcases List.mem_or_eq_of_mem_set hx with h | h
  · exact hwf.2 x h
  · rw [h]; exact hb

theorem WF.Remove {t : ExtendibleHash V} (hwf : t.WF) (key : Int) : (t.Remove key).1.WF := by
  have hmem := hwf.slot_mem (HashKey_lt t key)
  obtain ⟨h1, h2, h3⟩ := hwf.2 _ hmem
  cases hs : scan key (t.slot (t.HashKey key)) with
  | none =>
    simp only [ExtendibleHash.Remove, hs]
    exact hwf
  | some i =>
    simp only [ExtendibleHash.Remove, hs]
    have hi : i < (t.slot (t.HashKey key)).kv.length := by
      rw [scan_full _ _ h1] at hs
      split_ifs at hs with hlt
      simp only [Option.some.injEq] at hs
      rw [← hs]; exact hlt
    refine hwf.set _ _ ⟨?_, ?_, h3⟩
    · simp only [List.length_eraseIdx, hi, if_true]
      omega
    · simp only
      omega

theorem WF.Insert_room {t : ExtendibleHash V} (hwf : t.WF) (key : Int) (value : V)
    (hroom : (t.slot (t.HashKey key)).size < t.bucket_size) :
    ({ t with
        bucket := t.bucket.set (t.HashKey key)
          ⟨(t.slot (t.HashKey key)).local_depth, (t.slot (t.HashKey key)).kv ++ [(key, value)],
            (t.slot (t.HashKey key)).size + 1⟩ } : ExtendibleHash V).WF := by
  have hmem := hwf.slot_mem (HashKey_lt t key)
  obtain ⟨h1, h2, h3⟩ := hwf.2 _ hmem
  refine hwf.set _ _ ⟨?_, ?_, h3⟩
  · simp [h1]
  · simp only
    omega

variable [DecidableEq V]

theorem mod_succ_of_bit {u g : Nat} :
    u % 2 ^ (g + 1) = if u.testBit g then u % 2 ^ g + 2 ^ g else u % 2 ^ g := by
  rw [Nat.mod_pow_succ, Nat.testBit_to_div_mod]
  rcases Nat.mod_two_eq_zero_or_one (u / 2 ^ g) with h | h <;> simp [h]

/-- One pass through the overflow path of `Insert` (lines 120-158) on a full bucket: the
table keeps its shape, and the bucket `key` hashes to afterwards is either the same bucket,
now below the global depth, or the bucket with its local depth increased by one and its
entries restricted to those whose hash agrees with that of `key` in bit `local_depth`. -/
theorem overflow_step {t : ExtendibleHash V} (hwf : t.WF) (key : Int)
    (hfull : ¬ (t.slot (t.HashKey key)).size < t.bucket_size) :
    (t.overflow key).WF ∧ (t.overflow key).bucket_size = t.bucket_size ∧
    (((t.overflow key).global_depth = t.global_depth + 1 ∧
        (t.slot (t.HashKey key)).local_depth = t.global_depth ∧
        (t.overflow key).slot ((t.overflow key).HashKey key) = t.slot (t.HashKey key)) ∨
      ((t.slot (t.HashKey key)).local_depth < (t.overflow key).global_depth ∧
        (t.overflow key).slot ((t.overflow key).HashKey key) =
          narrow (castSizeT key) (t.slot (t.HashKey key)))) := by
  unfold overflow narrow
  have hh := HashKey_lt t key
  have hmem := hwf.slot_mem hh
  obtain ⟨hsz, hle, hld⟩ := hwf.2 _ hmem
  have hcap : (t.slot (t.HashKey key)).size = t.bucket_size := by omega
  generalize hb : t.slot (t.HashKey key) = b at *
  generalize hhk : t.HashKey key = h at *
  have hgetb : t.bucket[h]? = some b := by rw [← hb]; exact hwf.getElem?_slot hh
  -- shape of the two new buckets
  have hB : ∀ (u g : Nat), b.local_depth < g → ∀ x : Bucket V,
      x = ⟨b.local_depth + 1, keep u b.local_depth b.kv, (keep u b.local_depth b.kv).length⟩ →
      x.size = x.kv.length ∧ x.size ≤ t.bucket_size ∧ x.local_depth ≤ g := by
    intro u g hg x hx
    subst hx
    refine ⟨rfl, ?_, hg⟩
    have := keep_length_le u b.local_depth b.kv
    simp only
    omega
  by_cases hcase : b.local_depth = t.global_depth
  · -- the directory is doubled, then the bucket is split
    have htake : t.bucket.take (1 <<< t.global_depth) = t.bucket := by
      rw [Nat.one_shiftLeft, ← hwf.1]; exact List.take_length _
    have hgrow : widen t h =
        { t with bucket := t.bucket ++ t.bucket, global_depth := t.global_depth + 1 } := by
      unfold widen
      rw [hb, if_pos ⟨hcap, hcase⟩, htake]
    have hlen : t.bucket.length = 2 ^ t.global_depth := hwf.1
    have hget1 : (t.bucket ++ t.bucket)[h]? = some b := by
      rw [List.getElem?_append_left (by rw [hlen]; exact hh)]; exact hgetb
    have hget2 : (t.bucket ++ t.bucket)[h + 2 ^ t.global_depth]? = some b := by
      rw [List.getElem?_append_right (by rw [hlen]; omega)]
      rw [hlen, Nat.add_sub_cancel]; exact hgetb
    have hslot1 : (widen t h).slot h = b := by
      rw [hgrow]; exact slot_of_getElem? hget1
    have hred := redistribute_eq (widen t h) b hsz (by rw [hgrow]; simp only; omega)
    have hsplit : split (widen t h) h =
        { widen t h with
          bucket := rewire ((widen t h).redistribute b).1
            ((widen t h).redistribute b).2 h (1 <<< (widen t h).global_depth) 0
            (widen t h).bucket } := by
      unfold split
      rw [hslot1, if_pos ⟨by rw [hgrow]; exact hcap, by rw [hgrow]; simp only; omega⟩]
    rw [hsplit, hred]
    simp only [hgrow, Nat.one_shiftLeft]
    have hk : castSizeT key % 2 ^ (t.global_depth + 1) =
        if (castSizeT key).testBit t.global_depth then h + 2 ^ t.global_depth else h := by
      rw [mod_succ_of_bit, ← hhk, HashKey_eq_mod]
    have hpow : h < 2 ^ (t.global_depth + 1) := by rw [pow_succ]; omega
    refine ⟨⟨?_, ?_⟩, trivial, ?_⟩
    · rw [rewire_length]
      simp only [List.length_append, hlen, pow_succ]
      omega
    · intro x hx
      rcases rewire_mem _ _ _ _ _ _ x hx with h1 | h1 | h1
      · rcases List.mem_append.mp h1 with h2 | h2
        · obtain ⟨a1, a2, a3⟩ := hwf.2 x h2
          exact ⟨a1, a2, Nat.le_succ_of_le a3⟩
        · obtain ⟨a1, a2, a3⟩ := hwf.2 x h2
          exact ⟨a1, a2, Nat.le_succ_of_le a3⟩
      · exact hB _ _ (Nat.lt_succ_of_le hld) x h1
      · exact hB _ _ (Nat.lt_succ_of_le hld) x h1
    · by_cases hbit : (castSizeT key).testBit t.global_depth = true
      · left
        refine ⟨trivial, hcase, ?_⟩
        rw [HashKey_eq_mod]
        dsimp only
        rw [hk, if_pos hbit]
        apply slot_of_getElem?
        exact rewire_keep _ _ h (h + 2 ^ t.global_depth) b b rfl rfl (by omega)
          (by have := Nat.two_pow_pos t.global_depth; omega) _ _ _ (Nat.zero_le _) hget1 hget2
      · right
        refine ⟨Nat.lt_succ_of_le hld, ?_⟩
        rw [HashKey_eq_mod]
        dsimp only
        rw [hk, if_neg hbit]
        apply slot_of_getElem?
        show (rewire _ _ h (2 ^ (t.global_depth + 1)) 0 (t.bucket ++ t.bucket))[h]? = _
        rw [rewire_at _ _ h b _ _ _ (Nat.zero_le _) (by omega) hget1]
        have hnb : ¬ ((h >>> b.local_depth) &&& 1 = 1) := by
          rw [bit_test_iff, hcase, Nat.testBit_lt_two_pow hh]
          simp
        rw [if_neg hnb]
        rw [keep_congr 0 (castSizeT key) b.local_depth b.kv
          (by rw [hcase, Nat.zero_testBit]; simpa using hbit)]
  · -- the bucket is split within the directory as it is
    have hlt : b.local_depth < t.global_depth := by omega
    have hgrow : widen t h = t := by
      unfold widen
      rw [hb, if_neg (fun hc => hcase hc.2)]
    have hred := redistribute_eq t b hsz hlt
    have hsplit : split t h =
        { t with
          bucket := rewire (t.redistribute b).1 (t.redistribute b).2 h
            (1 <<< t.global_depth) 0 t.bucket } := by
      unfold split
      rw [hb, if_pos ⟨hcap, hlt⟩]
    rw [hgrow, hsplit, hred]
    simp only [Nat.one_shiftLeft]
    have hk : castSizeT key % 2 ^ t.global_depth = h := by
      rw [← hhk, HashKey_eq_mod]
    refine ⟨⟨?_, ?_⟩, trivial, Or.inr ⟨hlt, ?_⟩⟩
    · rw [rewire_length]; exact hwf.1
    · intro x hx
      rcases rewire_mem _ _ _ _ _ _ x hx with h1 | h1 | h1
      · exact hwf.2 x h1
      · exact hB _ _ hlt x h1
      · exact hB _ _ hlt x h1
    · rw [HashKey_eq_mod]
      dsimp only
      rw [hk]
      apply slot_of_getElem?
      show (rewire _ _ h (2 ^ t.global_depth) 0 t.bucket)[h]? = _
      rw [rewire_at _ _ h b _ _ _ (Nat.zero_le _) (by omega) hgetb]
      have hbitk : h.testBit b.local_depth = (castSizeT key).testBit b.local_depth := by
        rw [← hhk]; exact HashKey_testBit t key hlt
      by_cases hbit : (castSizeT key).testBit b.local_depth = true
      · have hyes : (h >>> b.local_depth) &&& 1 = 1 := by
          rw [bit_test_iff, hbitk]; exact hbit
        rw [if_pos hyes]
        rw [keep_congr (2 ^ b.local_depth) (castSizeT key) b.local_depth b.kv
          (by rw [Nat.testBit_two_pow_self]; exact hbit.symm)]
      · have hno : ¬ ((h >>> b.local_depth) &&& 1 = 1) := by
          rw [bit_test_iff, hbitk]; exact hbit
        rw [if_neg hno]
        rw [keep_congr 0 (castSizeT key) b.local_depth b.kv
          (by rw [Nat.zero_testBit]; simpa using hbit)]

end ExtendibleHash

namespace ExtendibleHash

variable {V : Type}

/-- `Find` returns the value of the first entry with the key in the bucket the key hashes
to. -/
theorem Find_eq_find? (t : ExtendibleHash V) (key : Int)
    (hs : (t.slot (t.HashKey key)).size = (t.slot (t.HashKey key)).kv.length) :
    t.Find key =
      ((t.slot (t.HashKey key)).kv.find? (fun e => e.1 == key)).map Prod.snd := by
  simp only [Find]
  rw [scan_full _ _ hs]
  by_cases hlt : (t.slot (t.HashKey key)).kv.findIdx (fun e => e.1 == key) <
      (t.slot (t.HashKey key)).kv.length
  · simp only [hlt, if_true, getElem?_findIdx]
  · have hnone : (t.slot (t.HashKey key)).kv.find? (fun e => e.1 == key) = none := by
      rw [List.find?_eq_none]
      intro x hx hp
      exact hlt (List.findIdx_lt_length.mpr ⟨x, hx, hp⟩)
    simp [hlt, hnone]

theorem WF.Find_eq_find {t : ExtendibleHash V} (hwf : t.WF) (key : Int) :
    t.Find key =
      ((t.slot (t.HashKey key)).kv.find? (fun e => e.1 == key)).map Prod.snd :=
  Find_eq_find? t key (hwf.2 _ (hwf.slot_mem (HashKey_lt t key))).1

theorem WF.Find_none_iff {t : ExtendibleHash V} (hwf : t.WF) (key : Int) :
    t.Find key = none ↔ ∀ e ∈ (t.slot (t.HashKey key)).kv, e.1 ≠ key := by
  rw [hwf.Find_eq_find]
  exact find?_key_eq_none

theorem grow_eq_widen (t : ExtendibleHash V) (hashkey : Nat)
    (hok : (t.slot hashkey).local_depth = t.global_depth → t.global_depth < 30) :
    grow t hashkey = some (widen t hashkey) := by
  unfold grow widen
  split_ifs with h1 h2
  · rfl
  · exact absurd (hok h1.2) h2
  · rfl

variable [DecidableEq V]

/-- The appending branch of `Insert` (lines 114-119). -/
theorem Insert_of_room (t : ExtendibleHash V) (key : Int) (value : V) (fuel : Nat)
    (hroom : (t.slot (t.HashKey key)).size < t.bucket_size) :
    Insert (fuel + 1) t key value =
      some { t with
        bucket := t.bucket.set (t.HashKey key)
          ⟨(t.slot (t.HashKey key)).local_depth, (t.slot (t.HashKey key)).kv ++ [(key, value)],
            (t.slot (t.HashKey key)).size + 1⟩ } := by
  simp only [Insert, hroom, if_true]

/-- The retry of `Insert` (lines 120-160) when `reserve` does not throw. -/
theorem Insert_full (t : ExtendibleHash V) (key : Int) (value : V) (fuel : Nat)
    (hfull : ¬ (t.slot (t.HashKey key)).size < t.bucket_size)
    (hok : (t.slot (t.HashKey key)).local_depth = t.global_depth → t.global_depth < 30) :
    Insert (fuel + 1) t key value = Insert fuel (t.overflow key) key value := by
  simp only [Insert, hfull, if_false, overflow, grow_eq_widen t _ hok]

/-- The retry of `Insert` at global depth 30 or more, on a full bucket whose local depth is the
global depth: `reserve` throws. -/
theorem Insert_reserve_throws (t : ExtendibleHash V) (key : Int) (value : V) (fuel : Nat)
    (hcap : (t.slot (t.HashKey key)).size = t.bucket_size)
    (hld : (t.slot (t.HashKey key)).local_depth = t.global_depth)
    (hgd : 30 ≤ t.global_depth) :
    Insert (fuel + 1) t key value = none := by
  have h1 : ¬ (t.slot (t.HashKey key)).size < t.bucket_size := by omega
  have h2 : ¬ t.global_depth < 30 := by omega
  have hg : grow t (t.HashKey key) = none := by
    unfold grow
    rw [if_pos ⟨hcap, hld⟩, if_neg h2]
  simp only [Insert, h1, if_false, hg]

/-- The retry of `Insert` on a full bucket: one pass through the overflow path, or no result
because `reserve` throws. -/
theorem Insert_full_or {t : ExtendibleHash V} (hwf : t.WF) (key : Int) (value : V) (fuel : Nat)
    (hfull : ¬ (t.slot (t.HashKey key)).size < t.bucket_size) :
    Insert (fuel + 1) t key value = Insert fuel (t.overflow key) key value ∨
      Insert (fuel + 1) t key value = none := by
  by_cases hok : (t.slot (t.HashKey key)).local_depth = t.global_depth → t.global_depth < 30
  · exact Or.inl (Insert_full t key value fuel hfull hok)
  · right
    have hmem := hwf.2 _ (hwf.slot_mem (HashKey_lt t key))
    have hld : (t.slot (t.HashKey key)).local_depth = t.global_depth := by
      by_contra hc
      exact hok (fun h => absurd h hc)
    have hgd : 30 ≤ t.global_depth := by
      by_contra hc
      exact hok (fun _ => by omega)
    exact Insert_reserve_throws t key value fuel (by omega) hld hgd

theorem Insert_WF : ∀ (fuel : Nat) (t t' : ExtendibleHash V) (key : Int) (value : V),
    t.WF → Insert fuel t key value = some t' → t'.WF := by
  intro fuel
  induction fuel with
  | zero => intro t t' key value _ h; simp [Insert] at h
  | succ fuel ih =>
    intro t t' key value hwf h
    by_cases hroom : (t.slot (t.HashKey key)).size < t.bucket_size
    · rw [Insert_of_room t key value fuel hroom] at h
      simp only [Option.some.injEq] at h
      rw [← h]
      exact hwf.Insert_room key value hroom
    · rcases Insert_full_or hwf key value fuel hroom with hstep | hstep
      · rw [hstep] at h
        exact ih _ _ key value (overflow_step hwf key hroom).1 h
      · rw [hstep] at h
        cases h

theorem Reachable.WF {size : Nat} {t : ExtendibleHash V} (h : Reachable size t) : t.WF := by
  induction h with
  | init => exact WF.new size
  | insert fuel key value _ hstep ih => exact Insert_WF fuel _ _ key value ih hstep
  | remove key _ ih => exact ih.Remove key

end ExtendibleHash

namespace ExtendibleHash

variable {V : Type}

theorem find?_keep (u : Int) (ld : Nat) (kv : List (Int × V)) :
    (keep (castSizeT u) ld kv).find? (fun e => e.1 == u) = kv.find? (fun e => e.1 == u) := by
  unfold keep
  induction kv with
  | nil => rfl
  | cons a l ih =>
    by_cases ha : a.1 = u
    · simp [List.filter_cons, ha]
    · by_cases hq : (castSizeT a.1).testBit ld = (castSizeT u).testBit ld
      · simp [List.filter_cons, hq, ha, ih]
      · simp [List.filter_cons, hq, ha, ih]

variable [DecidableEq V]

/-- A pass through the overflow path does not change what `Find(key)` returns. -/
theorem overflow_Find {t : ExtendibleHash V} (hwf : t.WF) (key : Int)
    (hfull : ¬ (t.slot (t.HashKey key)).size < t.bucket_size) :
    (t.overflow key).Find key = t.Find key := by
  obtain ⟨hwf', -, hcases⟩ := overflow_step hwf key hfull
  rw [hwf'.Find_eq_find, hwf.Find_eq_find]
  rcases hcases with ⟨-, -, hslot⟩ | ⟨-, hslot⟩
  · rw [hslot]
  · rw [hslot]
    show Option.map Prod.snd (List.find? _ (keep _ _ _)) = _
    rw [find?_keep]

/-- Whenever `Insert(key, value)` returns, `Find(key)` finds the value it found before the
call, and `value` if it found none. -/
theorem Insert_Find_getD : ∀ (fuel : Nat) (t t' : ExtendibleHash V) (key : Int) (value : V),
    t.WF → Insert fuel t key value = some t' →
      t'.Find key = some ((t.Find key).getD value) := by
  intro fuel
  induction fuel with
  | zero => intro t t' key value _ h; simp [Insert] at h
  | succ fuel ih =>
    intro t t' key value hwf h
    by_cases hroom : (t.slot (t.HashKey key)).size < t.bucket_size
    · rw [Insert_of_room t key value fuel hroom] at h
      simp only [Option.some.injEq] at h
      have hwf' := hwf.Insert_room key value hroom
      rw [h] at hwf'
      have hk : t'.HashKey key = t.HashKey key := by
        rw [HashKey_eq_mod, HashKey_eq_mod, ← h]
      have hslot : t'.slot (t.HashKey key) =
          ⟨(t.slot (t.HashKey key)).local_depth, (t.slot (t.HashKey key)).kv ++ [(key, value)],
            (t.slot (t.HashKey key)).size + 1⟩ := by
        apply slot_of_getElem?
        rw [← h]
        show (t.bucket.set _ _)[t.HashKey key]? = _
        rw [List.getElem?_set, if_pos rfl, if_pos (by rw [hwf.1]; exact HashKey_lt t key)]
      rw [hwf'.Find_eq_find, hk, hslot, hwf.Find_eq_find]
      show Option.map Prod.snd
        (List.find? (fun e => e.1 == key) ((t.slot (t.HashKey key)).kv ++ [(key, value)])) = _
      rw [List.find?_append]
      cases List.find? (fun e => e.1 == key) (t.slot (t.HashKey key)).kv with
      | none => simp
      | some x => simp
    · rcases Insert_full_or hwf key value fuel hroom with hstep | hstep
      · rw [hstep] at h
        rw [← overflow_Find hwf key hroom]
        exact ih _ _ key value (overflow_step hwf key hroom).1 h
      · rw [hstep] at h
        cases h

theorem overflow_depth_le (t : ExtendibleHash V) (key : Int) (D : Nat)
    (h1 : t.global_depth ≤ D)
    (h2 : (t.slot (t.HashKey key)).local_depth = t.global_depth → t.global_depth < D) :
    (t.overflow key).global_depth ≤ D := by
  unfold overflow split widen
  split_ifs with ha hb hc
  · exact h2 ha.2
  · exact h2 ha.2
  · exact h1
  · exact h1

/-- Termination of `Insert`: with `m + 1` calls allowed, `Insert` returns when the bucket has
room, or holds a key differing from `key` in a bit `j < D <= 30` with
`2 * (j - local_depth) + (1 if local_depth = global_depth) < m`. -/
theorem Insert_returns_aux : ∀ (m : Nat) (t : ExtendibleHash V) (key : Int) (value : V)
    (D : Nat), D ≤ 30 → t.WF → t.global_depth ≤ D →
    ((t.slot (t.HashKey key)).size < t.bucket_size ∨
      ∃ e ∈ (t.slot (t.HashKey key)).kv, ∃ j, (t.slot (t.HashKey key)).local_depth ≤ j ∧
        j < D ∧ (castSizeT e.1).testBit j ≠ (castSizeT key).testBit j ∧
        2 * (j - (t.slot (t.HashKey key)).local_depth) +
          (if (t.slot (t.HashKey key)).local_depth = t.global_depth then 1 else 0) < m) →
    ∃ t', Insert (m + 1) t key value = some t' ∧ t'.global_depth ≤ D := by
  intro m
  induction m with
  | zero =>
    intro t key value D _ _ hD h
    rcases h with hroom | ⟨_, _, _, _, _, _, hm⟩
    · exact ⟨_, Insert_of_room t key value 0 hroom, hD⟩
    · exact absurd hm (Nat.not_lt_zero _)
  | succ m ih =>
    intro t key value D hD30 hwf hD h
    by_cases hroom : (t.slot (t.HashKey key)).size < t.bucket_size
    · exact ⟨_, Insert_of_room t key value (m + 1) hroom, hD⟩
    · rcases h with hroom' | ⟨e, he, j, hj, hjD, hdiff, hm⟩
      · exact absurd hroom' hroom
      · rw [Insert_full t key value (m + 1) hroom (fun hl => by omega)]
        obtain ⟨hwf', hbs, hcases⟩ := overflow_step hwf key hroom
        have hmem := hwf.2 _ (hwf.slot_mem (HashKey_lt t key))
        refine ih _ key value D hD30 hwf' (overflow_depth_le t key D hD (fun hl => by omega)) ?_
        rcases hcases with ⟨hgd, hld, hslot⟩ | ⟨hlt, hslot⟩
        · right
          rw [hslot]
          refine ⟨e, he, j, hj, hjD, hdiff, ?_⟩
          rw [if_pos hld] at hm
          rw [hgd, if_neg (by omega)]
          omega
        · by_cases hk : (castSizeT e.1).testBit (t.slot (t.HashKey key)).local_depth =
              (castSizeT key).testBit (t.slot (t.HashKey key)).local_depth
          · right
            rw [hslot]
            have hne : j ≠ (t.slot (t.HashKey key)).local_depth := by
              intro hjl
              rw [hjl] at hdiff
              exact hdiff hk
            refine ⟨e, mem_keep.mpr ⟨he, hk⟩, j, ?_, hjD, hdiff, ?_⟩
            · show (t.slot (t.HashKey key)).local_depth + 1 ≤ j
              omega
            · show 2 * (j - ((t.slot (t.HashKey key)).local_depth + 1)) + _ < m
              split_ifs at hm ⊢ <;> omega
          · left
            rw [hslot, hbs]
            show (keep _ _ _).length < _
            have hlt' : (keep (castSizeT key) (t.slot (t.HashKey key)).local_depth
                (t.slot (t.HashKey key)).kv).length < (t.slot (t.HashKey key)).kv.length := by
              unfold keep
              apply List.length_filter_lt_length_iff_exists.mpr
              exact ⟨e, he, by simpa using hk⟩
            omega

end ExtendibleHash

namespace ExtendibleHash

variable {V : Type} [DecidableEq V]

/-- C10, evaluated on the code. With bucket capacity 2, `Insert(0, 1)` and then `Insert(0, 2)`
both return; `Find(0)` then returns true with the value 1 of the first call, not with the
value 2 that was inserted last: `Insert` appends without looking for the key, and `Find`
returns the first entry with the key. -/
theorem Insert_existing_key_Find_old :
    Insert 1 (new 2) 0 (1 : Nat) = some ⟨2, 0, [⟨0, [(0, 1)], 1⟩]⟩ ∧
    Insert 1 (⟨2, 0, [⟨0, [(0, 1)], 1⟩]⟩ : ExtendibleHash Nat) 0 2 =
      some ⟨2, 0, [⟨0, [(0, 1), (0, 2)], 2⟩]⟩ ∧
    (⟨2, 0, [⟨0, [(0, 1), (0, 2)], 2⟩]⟩ : ExtendibleHash Nat).Find 0 = some 1 := by
  decide

/-- C10 (amended). For every table reachable from construction by `Insert` and `Remove`
calls, every key and every value: whenever `Insert(key, value)` returns, `Find(key)` returns
true afterwards, with `value` when `Find(key)` was false before the call and with the value it
returned before the call otherwise. And `Insert(key, value)` does return, with a global depth
of at most `D`, when `D <= 30` (the directory sizes up to `1 << D` are then within the range
of `int`), the global depth is at most `D` and the bucket the key hashes to has room or holds
a key whose hash differs from that of `key` in a bit at or above the local depth of the bucket
and below `D`. -/
theorem Insert_then_Find {size : Nat} {t : ExtendibleHash V} (hr : Reachable size t)
    (key : Int) (value : V) :
    (∀ fuel t', Insert fuel t key value = some t' →
      t'.Find key = some ((t.Find key).getD value)) ∧
    (∀ D, D ≤ 30 → t.global_depth ≤ D → t.CanPlace key D →
      ∃ fuel t', Insert fuel t key value = some t' ∧ t'.global_depth ≤ D) := by
  refine ⟨fun fuel t' h => Insert_Find_getD fuel t t' key value hr.WF h, ?_⟩
  intro D hD30 hD hcp
  rcases hcp with hroom | ⟨e, he, j, hj, hjD, hdiff⟩
  · exact ⟨1, Insert_returns_aux 0 t key value D hD30 hr.WF hD (Or.inl hroom)⟩
  · exact ⟨_, Insert_returns_aux (2 * (j - (t.slot (t.HashKey key)).local_depth) + 2) t key
      value D hD30 hr.WF hD (Or.inr ⟨e, he, j, hj, hjD, hdiff, by split_ifs <;> omega⟩)⟩

theorem scenarioFullBucket_reachable : Reachable 2 scenarioFullBucket := by
  have h1 : Insert 1 (new 2) 0 (10 : Nat) = some ⟨2, 0, [⟨0, [(0, 10)], 1⟩]⟩ := by decide
  have h2 : Insert 1 (⟨2, 0, [⟨0, [(0, 10)], 1⟩]⟩ : ExtendibleHash Nat) 1 11 =
      some scenarioFullBucket := by decide
  exact Reachable.insert 1 1 11 (Reachable.insert 1 0 10 Reachable.init h1) h2

/-- Witness for C10: the table of capacity 2 holding the keys 0 and 1 in its only bucket is
reachable, `Find(2)` is false on it, and key 1 differs from key 2 in bit 0: `Insert(2, 12)`
returns after one split, at global depth 1, and `Find(2)` then returns 12. -/
theorem Insert_then_Find_witness :
    Reachable 2 scenarioFullBucket ∧ scenarioFullBucket.Find 2 = none ∧
    scenarioFullBucket.global_depth ≤ 1 ∧ scenarioFullBucket.CanPlace 2 1 ∧
    (Insert 2 scenarioFullBucket 2 12).map (fun t => (t.global_depth, t.Find 2)) =
      some (1, some 12) ∧
    ((∀ fuel t', Insert fuel scenarioFullBucket 2 12 = some t' →
      t'.Find 2 = some ((scenarioFullBucket.Find 2).getD 12)) ∧
    (∀ D, D ≤ 30 → scenarioFullBucket.global_depth ≤ D → scenarioFullBucket.CanPlace 2 D →
      ∃ fuel t', Insert fuel scenarioFullBucket 2 12 = some t' ∧ t'.global_depth ≤ D)) :=
  ⟨scenarioFullBucket_reachable, by decide, by decide,
    Or.inr ⟨(1, 11), by decide, 0, by decide, by decide, by decide⟩, by decide,
    Insert_then_Find scenarioFullBucket_reachable 2 12⟩

end ExtendibleHash

theorem find?_eraseP_eq_none {α : Type} (p : α → Bool) (l : List α) :
    (l.eraseP p).find? p = none ↔ l.countP p ≤ 1 := by
  induction l with
  | nil => simp
  | cons a l ih =>
    by_cases h : p a = true
    · rw [List.eraseP_cons_of_pos h, List.countP_cons_of_pos _ _ h, List.find?_eq_none]
      constructor
      · intro hn
        have : List.countP p l = 0 := List.countP_eq_zero.mpr hn
        omega
      · intro hc
        exact List.countP_eq_zero.mp (by omega)
    · rw [List.eraseP_cons_of_neg h, List.countP_cons_of_neg _ _ h, List.find?_cons_of_neg _ h]
      exact ih

namespace ExtendibleHash

variable {V : Type}

/-- `Remove` on a table of the right shape: the first entry with the key leaves its bucket. -/
theorem WF.Remove_eq {t : ExtendibleHash V} (hwf : t.WF) (key : Int) :
    ((t.Remove key).2 = (t.Find key).isSome) ∧
    (t.Remove key).1.Find key =
      (((t.slot (t.HashKey key)).kv.eraseP (fun e => e.1 == key)).find?
        (fun e => e.1 == key)).map Prod.snd := by
  have hmem := hwf.slot_mem (HashKey_lt t key)
  obtain ⟨h1, h2, h3⟩ := hwf.2 _ hmem
  have hwf' := hwf.Remove key
  have hF := hwf.Find_eq_find key
  cases hs : scan key (t.slot (t.HashKey key)) with
  | none =>
    have hn := (scan_eq_none key _ h1).mp hs
    have hfn : List.find? (fun e => e.1 == key) (t.slot (t.HashKey key)).kv = none := by
      rw [List.find?_eq_none]
      intro x hx hp
      exact hn x hx (by simpa using hp)
    have he : (t.slot (t.HashKey key)).kv.eraseP (fun e => e.1 == key) =
        (t.slot (t.HashKey key)).kv := by
      apply List.eraseP_of_forall_not
      intro x hx hp
      exact hn x hx (by simpa using hp)
    simp only [ExtendibleHash.Remove, hs]
    rw [hF, he, hfn]
    exact ⟨rfl, rfl⟩
  | some i =>
    have hs' := hs
    rw [scan_full _ _ h1] at hs'
    split_ifs at hs' with hlt
    simp only [Option.some.injEq] at hs'
    obtain ⟨x, hx, hp⟩ := List.findIdx_lt_length.mp hlt
    have hsome : (List.find? (fun e => e.1 == key) (t.slot (t.HashKey key)).kv).isSome = true := by
      rw [List.find?_isSome]
      exact ⟨x, hx, hp⟩
    have hR : t.Remove key =
        (⟨t.bucket_size, t.global_depth, t.bucket.set (t.HashKey key)
          ⟨(t.slot (t.HashKey key)).local_depth, (t.slot (t.HashKey key)).kv.eraseIdx i,
            (t.slot (t.HashKey key)).size - 1⟩⟩, true) := by
      simp only [ExtendibleHash.Remove, hs]
    rw [hR] at hwf' ⊢
    refine ⟨?_, ?_⟩
    · rw [hF, Option.isSome_map']
      exact hsome.symm
    · rw [hwf'.Find_eq_find]
      have hk : (⟨t.bucket_size, t.global_depth, t.bucket.set (t.HashKey key)
          ⟨(t.slot (t.HashKey key)).local_depth, (t.slot (t.HashKey key)).kv.eraseIdx i,
            (t.slot (t.HashKey key)).size - 1⟩⟩ : ExtendibleHash V).HashKey key =
          t.HashKey key := by
        rw [HashKey_eq_mod, HashKey_eq_mod]
      have hslot : (⟨t.bucket_size, t.global_depth, t.bucket.set (t.HashKey key)
          ⟨(t.slot (t.HashKey key)).local_depth, (t.slot (t.HashKey key)).kv.eraseIdx i,
            (t.slot (t.HashKey key)).size - 1⟩⟩ : ExtendibleHash V).slot (t.HashKey key) =
          ⟨(t.slot (t.HashKey key)).local_depth, (t.slot (t.HashKey key)).kv.eraseIdx i,
            (t.slot (t.HashKey key)).size - 1⟩ := by
        apply slot_of_getElem?
        show (t.bucket.set _ _)[t.HashKey key]? = _
        rw [List.getElem?_set, if_pos rfl, if_pos (by rw [hwf.1]; exact HashKey_lt t key)]
      rw [hk, hslot, ← hs', eraseIdx_findIdx]

theorem occurrences_eq {t : ExtendibleHash V} (hwf : t.WF) (key : Int) :
    t.occurrences key = (t.slot (t.HashKey key)).kv.countP (fun e => e.1 == key) := by
  have h1 := (hwf.2 _ (hwf.slot_mem (HashKey_lt t key))).1
  unfold occurrences
  rw [h1, List.take_length]

variable [DecidableEq V]

/-- C11, evaluated on the code. With bucket capacity 2, after `Insert(0, 1)` and
`Insert(0, 2)` the call `Remove(0)` returns true, and `Find(0)` still returns true
afterwards, with the value 2: `Remove` erases the first entry with the key only. -/
theorem Remove_leaves_later_entry :
    Insert 1 (new 2) 0 (1 : Nat) = some ⟨2, 0, [⟨0, [(0, 1)], 1⟩]⟩ ∧
    Insert 1 (⟨2, 0, [⟨0, [(0, 1)], 1⟩]⟩ : ExtendibleHash Nat) 0 2 =
      some ⟨2, 0, [⟨0, [(0, 1), (0, 2)], 2⟩]⟩ ∧
    ((⟨2, 0, [⟨0, [(0, 1), (0, 2)], 2⟩]⟩ : ExtendibleHash Nat).Remove 0).2 = true ∧
    ((⟨2, 0, [⟨0, [(0, 1), (0, 2)], 2⟩]⟩ : ExtendibleHash Nat).Remove 0).1.Find 0 = some 2 := by
  decide

/-- C11 (amended). For every table reachable from construction by `Insert` and `Remove`
calls and every key: `Remove(key)` returns true if and only if `Find(key)` returned true
immediately before, and after `Remove(key)` the call `Find(key)` returns false if and only if
the bucket the key hashes to held at most one entry with that key before the call. -/
theorem Remove_then_Find {size : Nat} {t : ExtendibleHash V} (hr : Reachable size t)
    (key : Int) :
    ((t.Remove key).2 = true ↔ (t.Find key).isSome = true) ∧
    ((t.Remove key).1.Find key = none ↔ t.occurrences key ≤ 1) := by
  obtain ⟨h1, h2⟩ := hr.WF.Remove_eq key
  refine ⟨by rw [h1], ?_⟩
  rw [h2, occurrences_eq hr.WF, Option.map_eq_none', find?_eraseP_eq_none]

/-- Witness for C11: on the reachable table of capacity 2 that holds the keys 0 and 1,
`Remove(1)` returns true, key 1 occurs once, and `Find(1)` is false afterwards. -/
theorem Remove_then_Find_witness :
    Reachable 2 scenarioFullBucket ∧ (scenarioFullBucket.Remove 1).2 = true ∧
    scenarioFullBucket.Find 1 = some 11 ∧ scenarioFullBucket.occurrences 1 = 1 ∧
    (scenarioFullBucket.Remove 1).1.Find 1 = none ∧
    (((scenarioFullBucket.Remove 1).2 = true ↔ (scenarioFullBucket.Find 1).isSome = true) ∧
    ((scenarioFullBucket.Remove 1).1.Find 1 = none ↔ scenarioFullBucket.occurrences 1 ≤ 1)) :=
  ⟨scenarioFullBucket_reachable, by decide, by decide, by decide, by decide,
    Remove_then_Find scenarioFullBucket_reachable 1⟩

end ExtendibleHash

namespace ExtendibleHash

variable {V : Type} [DecidableEq V]

theorem scenarioFourKeys_tables (v0 v1 v2 v3 : V) :
    scenarioFourKeys v0 v1 v2 v3 0 = some ⟨2, 0, [⟨0, [], 0⟩]⟩ ∧
    scenarioFourKeys v0 v1 v2 v3 1 = some ⟨2, 0, [⟨0, [(0, v0)], 1⟩]⟩ ∧
    scenarioFourKeys v0 v1 v2 v3 2 = some ⟨2, 0, [⟨0, [(0, v0), (1, v1)], 2⟩]⟩ ∧
    scenarioFourKeys v0 v1 v2 v3 3 =
      some ⟨2, 1, [⟨1, [(0, v0), (2, v2)], 2⟩, ⟨0, [(0, v0), (1, v1)], 2⟩]⟩ ∧
    scenarioFourKeys v0 v1 v2 v3 4 =
      some ⟨2, 1, [⟨1, [(0, v0), (2, v2)], 2⟩, ⟨1, [(1, v1), (3, v3)], 2⟩]⟩ := by
  have h0 : (castSizeT 0) = 0 := by decide
  have h1 : (castSizeT 1) = 1 := by decide
  have h2 : (castSizeT 2) = 2 := by decide
  have h3 : (castSizeT 3) = 3 := by decide
  refine ⟨rfl, ?_, ?_, ?_, ?_⟩
  · simp [scenarioFourKeys, insertMany, Insert, HashKey, slot, ExtendibleHash.new, h0]
  · simp [scenarioFourKeys, insertMany, Insert, HashKey, slot, ExtendibleHash.new, h0, h1]
  · simp [scenarioFourKeys, insertMany, Insert, HashKey, slot, ExtendibleHash.new, h0, h1, h2,
      grow, split, redistribute, rewire, Bucket.eqv]
  · simp [scenarioFourKeys, insertMany, Insert, HashKey, slot, ExtendibleHash.new, h0, h1, h2, h3,
      grow, split, redistribute, rewire, Bucket.eqv]

end ExtendibleHash

namespace ExtendibleHash

variable {V : Type} [DecidableEq V]

/-- C12, evaluated on the code. With bucket capacity 2 and the keys 0, 1, 2, 3 inserted in
that order, `GetGlobalDepth()` is 1 and `GetNumBuckets()` is 2 at the end, not 2 and 4: the
keys 0 and 2 share one bucket and the keys 1 and 3 the other, so no second doubling occurs. -/
theorem four_keys_depth_one :
    (scenarioFourKeys (10 : Nat) 11 12 13 4).map
      (fun t => (t.GetGlobalDepth, t.GetNumBuckets)) = some (1, 2) := by
  decide

/-- C12 (amended). Starting from a freshly constructed table with bucket capacity 2, after
`Insert` of the keys 0, 1, 2, 3 in that order, each with its own value: the global depth has
grown 0 -> 1 (at the insertion of key 2), `GetGlobalDepth()` = 1, `GetNumBuckets()` = 2, and
`Find(k)` returns true with the inserted value for each `k` in 0..3. -/
theorem four_keys_scenario (v0 v1 v2 v3 : V) :
    (List.range 5).map (fun n => (scenarioFourKeys v0 v1 v2 v3 n).map GetGlobalDepth) =
      [some 0, some 0, some 0, some 1, some 1] ∧
    ∃ t, scenarioFourKeys v0 v1 v2 v3 4 = some t ∧ t.GetGlobalDepth = 1 ∧
      t.GetNumBuckets = 2 ∧ t.Find 0 = some v0 ∧ t.Find 1 = some v1 ∧ t.Find 2 = some v2 ∧
      t.Find 3 = some v3 := by
  obtain ⟨e0, e1, e2, e3, e4⟩ := scenarioFourKeys_tables v0 v1 v2 v3
  have h0 : (castSizeT 0) = 0 := by decide
  have h1 : (castSizeT 1) = 1 := by decide
  have h2 : (castSizeT 2) = 2 := by decide
  have h3 : (castSizeT 3) = 3 := by decide
  refine ⟨?_, _, e4, rfl, rfl, ?_, ?_, ?_, ?_⟩
  · simp [List.range, List.range.loop, e0, e1, e2, e3, e4, GetGlobalDepth]
  · simp [Find, scan, HashKey, slot, h0, List.findIdx_cons]
  · simp [Find, scan, HashKey, slot, h1, List.findIdx_cons]
  · simp [Find, scan, HashKey, slot, h2, List.findIdx_cons]
  · simp [Find, scan, HashKey, slot, h3, List.findIdx_cons]

end ExtendibleHash

namespace LRUReplacer

variable {T : Type}

theorem Chain.length_eq {heap : List (Option (LRUlist T))} :
    ∀ {as : List Nat} {q : List T} {prev : Option Nat}, Chain heap prev as q →
      as.length = q.length
  | [], [], _, _ => rfl
  | [], _ :: _, _, h => by simp [Chain] at h
  | _ :: _, [], _, h => by simp [Chain] at h
  | _ :: as, _ :: q, _, h => by
    simp only [Chain] at h
    simp [Chain.length_eq h.2]

theorem Chain.lt {heap : List (Option (LRUlist T))} :
    ∀ {as : List Nat} {q : List T} {prev : Option Nat}, Chain heap prev as q →
      ∀ a ∈ as, a < heap.length
  | [], _, _, _ => by simp
  | _ :: _, [], _, h => by simp [Chain] at h
  | b :: as, _ :: q, _, h => by
    simp only [Chain] at h
    intro a ha
    rcases List.mem_cons.mp ha with rfl | ha
    · by_contra hlt
      rw [List.getElem?_eq_none (by omega)] at h
      exact absurd h.1 (by simp)
    · exact Chain.lt h.2 a ha

theorem Chain.set_of_not_mem {heap : List (Option (LRUlist T))} {a : Nat}
    {x : Option (LRUlist T)} :
    ∀ {as : List Nat} {q : List T} {prev : Option Nat}, a ∉ as → Chain heap prev as q →
      Chain (heap.set a x) prev as q
  | [], [], _, _, _ => by simp [Chain]
  | [], _ :: _, _, _, h => by simp [Chain] at h
  | _ :: _, [], _, _, h => by simp [Chain] at h
  | b :: as, _ :: q, _, hn, h => by
    simp only [Chain] at h ⊢
    simp only [List.mem_cons, not_or] at hn
    refine ⟨?_, Chain.set_of_not_mem hn.2 h.2⟩
    rw [List.getElem?_set_ne (fun e => hn.1 e)]
    exact h.1

theorem Chain.append_heap {heap : List (Option (LRUlist T))} (ex : List (Option (LRUlist T))) :
    ∀ {as : List Nat} {q : List T} {prev : Option Nat}, Chain heap prev as q →
      Chain (heap ++ ex) prev as q
  | [], [], _, _ => by simp [Chain]
  | [], _ :: _, _, h => by simp [Chain] at h
  | _ :: _, [], _, h => by simp [Chain] at h
  | b :: as, v :: q, prev, h => by
    have hlt := Chain.lt h b (List.mem_cons_self _ _)
    simp only [Chain] at h ⊢
    refine ⟨?_, Chain.append_heap ex h.2⟩
    rw [List.getElem?_append_left hlt]
    exact h.1

/-- The node that ends a chain. -/
theorem Chain.last {heap : List (Option (LRUlist T))} :
    ∀ {as : List Nat} {q : List T} {prev : Option Nat} {tl : Nat}, Chain heap prev as q →
      as.getLast? = some tl → ∃ v pv, heap[tl]? = some (some ⟨v, none, pv⟩)
  | [], _, _, _, _, hl => by simp at hl
  | _ :: _, [], _, _, h, _ => by simp [Chain] at h
  | [a], v :: q, prev, tl, h, hl => by
    simp only [Chain] at h
    simp only [List.getLast?_singleton, Option.some.injEq] at hl
    subst hl
    exact ⟨v, prev, h.1⟩
  | a :: b :: as, v :: q, prev, tl, h, hl => by
    simp only [Chain] at h
    rw [List.getLast?_cons_cons] at hl
    exact Chain.last h.2 hl

/-- Appending a new node at address `heap.length` behind the last node of a chain. -/
theorem Chain.snoc {heap : List (Option (LRUlist T))} (v : T) :
    ∀ {as : List Nat} {q : List T} {prev : Option Nat} {tl : Nat} {node : LRUlist T},
      Chain heap prev as q → as.Nodup → as.getLast? = some tl →
      heap[tl]? = some (some node) →
      Chain ((heap ++ [some ({ value := v, next := none, prev := some tl } : LRUlist T)]).set tl
          (some { value := node.value, next := some heap.length, prev := node.prev }))
        prev (as ++ [heap.length]) (q ++ [v])
  | [], _, _, _, _, _, _, hl, _ => by simp at hl
  | _ :: _, [], _, _, _, h, _, _, _ => by simp [Chain] at h
  | [a], [w], prev, tl, node, h, _, hl, hn => by
    have hlt := Chain.lt h a (List.mem_cons_self _ _)
    simp only [Chain] at h
    simp only [List.getLast?_singleton, Option.some.injEq] at hl
    subst hl
    rw [h.1] at hn
    simp only [Option.some.injEq] at hn
    subst hn
    simp only [List.singleton_append, Chain, List.head?_cons, List.head?_nil, and_true]
    refine ⟨?_, ?_⟩
    · rw [List.getElem?_set_self (by simp; omega)]
      rfl
    · rw [List.getElem?_set_ne (by omega), List.getElem?_append_right (le_refl _)]
      simp
  | [a], w :: x :: q, prev, tl, node, h, _, _, _ => by simp [Chain] at h
  | a :: b :: as, w :: q, prev, tl, node, h, hnd, hl, hn => by
    have hlt := Chain.lt h a (List.mem_cons_self _ _)
    simp only [Chain] at h
    rw [List.getLast?_cons_cons] at hl
    have hne : a ≠ tl := by
      intro e
      have hmem : tl ∈ b :: as := List.mem_of_getLast?_eq_some hl
      rw [← e] at hmem
      exact (List.nodup_cons.mp hnd).1 hmem
    have ih := Chain.snoc v h.2 (List.nodup_cons.mp hnd).2 hl hn
    simp only [List.cons_append, Chain, List.head?_cons] at ih ⊢
    refine ⟨?_, ih⟩
    rw [List.getElem?_set_ne (fun e => hne e.symm), List.getElem?_append_left hlt]
    simpa using h.1

theorem fifo_nil (q : List T) : fifo q [] = (q, []) := by
  cases q <;> rfl

theorem fifo_Insert (q : List T) (v : T) (cs : List (Call T)) :
    fifo q (Call.Insert v :: cs) = fifo (q ++ [v]) cs := by
  cases q <;> rfl

end LRUReplacer

namespace LRUReplacer

variable {T : Type} [DecidableEq T]

theorem count_metaErase (m : List (T × Nat)) (v w : T) :
    (metaErase m v).any (fun e => decide (e.1 = w)) = true ↔
      w ≠ v ∧ m.any (fun e => decide (e.1 = w)) = true := by
  simp only [metaErase, List.any_eq_true, List.mem_filter, decide_eq_true_eq,
    Bool.not_eq_true', decide_eq_false_iff_not]
  constructor
  · rintro ⟨e, ⟨he, hne⟩, rfl⟩
    exact ⟨hne, e, he, rfl⟩
  · rintro ⟨hne, e, he, rfl⟩
    exact ⟨e, ⟨he, hne⟩, rfl⟩

theorem count_metaAssign (m : List (T × Nat)) (v w : T) (pp : Nat) :
    (metaAssign m v pp).any (fun e => decide (e.1 = w)) = true ↔
      w = v ∨ m.any (fun e => decide (e.1 = w)) = true := by
  unfold metaAssign
  rw [List.any_append, Bool.or_eq_true, count_metaErase]
  simp only [List.any_cons, List.any_nil, Bool.or_false, decide_eq_true_eq]
  constructor
  · rintro (⟨-, h⟩ | h)
    · exact Or.inr h
    · exact Or.inl h.symm
  · rintro (h | h)
    · exact Or.inr h.symm
    · by_cases hw : w = v
      · exact Or.inr hw.symm
      · exact Or.inl ⟨hw, h⟩

/-- `Insert` into the empty replacer (lines 40-48). -/
theorem Insert_of_tail_none (r : LRUReplacer T) (v : T) (ht : r.tail = none) :
    r.Insert v = some
      { head := some r.heap.length, tail := some r.heap.length, size := r.size + 1,
        metadata := metaAssign r.metadata v r.heap.length,
        heap := r.heap ++ [some { value := v, next := none, prev := none }] } := by
  simp only [LRUReplacer.Insert, ht]

/-- `Insert` of a value without metadata entry behind the live node `tail` (lines 50-64). -/
theorem Insert_of_tail_some (r : LRUReplacer T) (v : T) {tl : Nat} {node : LRUlist T}
    (ht : r.tail = some tl) (hc : r.count v = false) (hn : r.heap[tl]? = some (some node)) :
    r.Insert v = some
      { head := r.head, tail := some r.heap.length, size := r.size + 1,
        metadata := metaAssign r.metadata v r.heap.length,
        heap := (r.heap ++ [some ({ value := v, next := none, prev := some tl } : LRUlist T)]).set tl
          (some { value := node.value, next := some r.heap.length, prev := node.prev }) } := by
  have hlt : tl < r.heap.length := by
    by_contra hge
    rw [List.getElem?_eq_none (by omega)] at hn
    exact absurd hn (by simp)
  have hl : (r.heap ++ [some ({ value := v, next := none, prev := some tl } : LRUlist T)])[tl]? =
      some (some node) := by
    rw [List.getElem?_append_left hlt]
    exact hn
  simp only [LRUReplacer.Insert, ht, hc, Bool.false_eq_true, if_false, Option.some_bind,
    Option.bind_eq_bind, store, load, hl, Option.join, Option.map_some', Option.bind_some]
  rfl

/-- `Victim` on a replacer whose `head` is the live node `node` (lines 73-86). -/
theorem Victim_of_head (r : LRUReplacer T) {a : Nat} {node : LRUlist T} (hs : r.size ≠ 0)
    (hh : r.head = some a) (hn : r.heap[a]? = some (some node)) :
    r.Victim = (r.advance node).map (fun r1 =>
      ({ r1 with size := r1.size - 1,
                 tail := if r1.size - 1 = 0 then none else r1.tail,
                 heap := r1.heap.set a none,
                 metadata := metaErase r1.metadata node.value }, some node.value)) := by
  simp only [LRUReplacer.Victim, hs, if_false, hh, Option.some_bind, Option.bind_eq_bind, load,
    hn, Option.join, Option.bind_some]
  rfl

end LRUReplacer

namespace LRUReplacer

variable {T : Type} [DecidableEq T]

theorem Holds.empty : Holds (LRUReplacer.new : LRUReplacer T) [] :=
  ⟨[], List.nodup_nil, trivial, rfl, rfl, rfl, List.nodup_nil, fun v => by simp [count, LRUReplacer.new]⟩

/-- `Insert` of a value that is not present returns and puts the value last. -/
theorem Holds.Insert {r : LRUReplacer T} {q : List T} (h : Holds r q) {v : T} (hv : v ∉ q) :
    ∃ r', r.Insert v = some r' ∧ Holds r' (q ++ [v]) := by
  obtain ⟨as, hnd, hch, hhead, htail, hsize, hq, hcount⟩ := h
  have hlen := hch.length_eq
  have hc : r.count v = false := by
    cases hcv : r.count v with
    | false => rfl
    | true => exact absurd ((hcount v).mp hcv) hv
  have hcount' : ∀ w, (metaAssign r.metadata v r.heap.length).any (fun e => decide (e.1 = w)) = true ↔
      w ∈ q ++ [v] := by
    intro w
    rw [count_metaAssign, List.mem_append, List.mem_singleton]
    have := hcount w
    unfold count at this
    rw [this]
    exact or_comm
  have hq' : (q ++ [v]).Nodup := by
    rw [List.nodup_append]
    refine ⟨hq, List.nodup_singleton v, ?_⟩
    intro x hx hx'
    rw [List.mem_singleton] at hx'
    exact hv (hx' ▸ hx)
  cases as with
  | nil =>
    have hq0 : q = [] := List.length_eq_zero.mp hlen.symm
    subst hq0
    rw [List.getLast?_nil] at htail
    refine ⟨_, Insert_of_tail_none r v htail, [r.heap.length], List.nodup_singleton _, ?_, rfl, rfl,
      ?_, hq', hcount'⟩
    · simp only [List.nil_append, Chain, List.head?_nil, and_true]
      rw [List.getElem?_append_right (le_refl _)]
      simp
    · simp only [List.length_nil] at hsize
      simp [hsize]
  | cons a as' =>
    obtain ⟨tl, htl⟩ : ∃ tl, (a :: as').getLast? = some tl := by
      cases hl : (a :: as').getLast? with
      | none => simp at hl
      | some tl => exact ⟨tl, rfl⟩
    rw [htl] at htail
    obtain ⟨vl, pv, hnode⟩ := hch.last htl
    refine ⟨_, Insert_of_tail_some r v htail hc hnode, (a :: as') ++ [r.heap.length], ?_,
      Chain.snoc v hch hnd htl hnode, ?_, ?_, ?_, hq', hcount'⟩
    · rw [List.nodup_append]
      refine ⟨hnd, List.nodup_singleton _, ?_⟩
      intro x hx hx'
      rw [List.mem_singleton] at hx'
      have := hch.lt x hx
      omega
    · simpa using hhead
    · show some r.heap.length = ((a :: as') ++ [r.heap.length]).getLast?
      rw [List.getLast?_append]
      rfl
    · simp [hsize]

theorem Holds.Victim_nil {r : LRUReplacer T} (h : Holds r []) : r.Victim = some (r, none) := by
  obtain ⟨as, -, -, -, -, hsize, -, -⟩ := h
  simp only [List.length_nil] at hsize
  simp only [LRUReplacer.Victim, hsize, if_true]

/-- `Victim` on a replacer that is not empty returns the earliest-inserted value and removes
it. -/
theorem Holds.Victim_cons {r : LRUReplacer T} {v : T} {q : List T} (h : Holds r (v :: q)) :
    ∃ r', r.Victim = some (r', some v) ∧ Holds r' q := by
  obtain ⟨as, hnd, hch, hhead, htail, hsize, hq, hcount⟩ := h
  have hcount' : ∀ (m : List (T × Nat)), m = r.metadata → ∀ w,
      (metaErase m v).any (fun e => decide (e.1 = w)) = true ↔ w ∈ q := by
    intro m hm w
    subst hm
    rw [count_metaErase]
    have := hcount w
    unfold count at this
    rw [this, List.mem_cons]
    constructor
    · rintro ⟨hne, h | h⟩
      · exact absurd h hne
      · exact h
    · intro hw
      refine ⟨?_, Or.inr hw⟩
      rintro rfl
      exact (List.nodup_cons.mp hq).1 hw
  cases as with
  | nil => simp [Chain] at hch
  | cons a as' =>
    simp only [Chain] at hch
    obtain ⟨hna, hch'⟩ := hch
    simp only [List.head?_cons] at hhead
    have hs0 : r.size ≠ 0 := by rw [hsize]; simp
    rw [Victim_of_head r hs0 hhead hna]
    cases as' with
    | nil =>
      have hq0 : q = [] := List.length_eq_zero.mp hch'.length_eq.symm
      subst hq0
      simp only [advance, List.head?_nil, Option.map_some']
      refine ⟨_, rfl, [], List.nodup_nil, trivial, rfl, ?_, ?_, List.nodup_nil, hcount' _ rfl⟩
      · simp [hsize]
      · simp [hsize]
    | cons b rest =>
      cases q with
      | nil => simp [Chain] at hch'
      | cons w q' =>
        simp only [Chain] at hch'
        obtain ⟨hnb, hch''⟩ := hch'
        have hab : a ≠ b := by
          intro e
          exact (List.nodup_cons.mp hnd).1 (e ▸ List.mem_cons_self _ _)
        have hnd' := (List.nodup_cons.mp hnd).2
        have hblt : b < r.heap.length := by
          by_contra hge
          rw [List.getElem?_eq_none (by omega)] at hnb
          exact absurd hnb (by simp)
        simp only [advance, List.head?_cons, store, load, hnb, Option.join, Option.map_some']
        refine ⟨_, rfl, b :: rest, hnd', ?_, rfl, ?_, ?_, (List.nodup_cons.mp hq).2,
          hcount' _ rfl⟩
        · simp only [Chain]
          refine ⟨?_, ?_⟩
          · rw [List.getElem?_set_ne hab, List.getElem?_set_self hblt]
          · apply Chain.set_of_not_mem
            · intro hmem
              exact (List.nodup_cons.mp hnd).1 (List.mem_cons_of_mem _ hmem)
            · exact Chain.set_of_not_mem (List.nodup_cons.mp hnd').1 hch''
        · simp only [hsize, List.length_cons, Nat.add_sub_cancel, Nat.succ_ne_zero, if_false]
          rw [htail, List.getLast?_cons_cons]
        · simp [hsize]

end LRUReplacer

namespace LRUReplacer

variable {T : Type} [DecidableEq T]

/-- The code follows the specification's sequence of present values call by call. -/
theorem Holds.run : ∀ (calls : List (Call T)) {r : LRUReplacer T} {q : List T},
    Holds r q → noReinsert q calls = true →
    ∃ r', run r calls = some (r', (fifo q calls).2) ∧ Holds r' (fifo q calls).1
  | [], r, q, h, _ => by
    rw [fifo_nil]
    exact ⟨r, rfl, h⟩
  | Call.Insert v :: cs, r, q, h, hn => by
    simp only [noReinsert, Bool.and_eq_true, Bool.not_eq_true', decide_eq_false_iff_not] at hn
    obtain ⟨r1, h1, hr1⟩ := h.Insert hn.1
    obtain ⟨r2, h2, hr2⟩ := Holds.run cs hr1 hn.2
    refine ⟨r2, ?_, ?_⟩
    · rw [fifo_Insert]
      simp only [LRUReplacer.run, h1, Option.some_bind]
      exact h2
    · rw [fifo_Insert]
      exact hr2
  | Call.Victim :: cs, r, [], h, hn => by
    simp only [noReinsert, List.tail_nil] at hn
    obtain ⟨r2, h2, hr2⟩ := Holds.run cs h hn
    refine ⟨r2, ?_, ?_⟩
    · simp only [LRUReplacer.run, h.Victim_nil, Option.some_bind, h2, Option.map_some', fifo]
    · simpa only [fifo] using hr2
  | Call.Victim :: cs, r, a :: q, h, hn => by
    simp only [noReinsert, List.tail_cons] at hn
    obtain ⟨r1, h1, hr1⟩ := h.Victim_cons
    obtain ⟨r2, h2, hr2⟩ := Holds.run cs hr1 hn
    refine ⟨r2, ?_, ?_⟩
    · simp only [LRUReplacer.run, h1, Option.some_bind, h2, Option.map_some', fifo]
    · simpa only [fifo] using hr2

theorem noReinsert_take : ∀ (calls : List (Call T)) (q : List T) (n : Nat),
    noReinsert q calls = true → noReinsert q (calls.take n) = true
  | [], _, _, _ => by simp [noReinsert]
  | _ :: _, _, 0, _ => by simp [noReinsert]
  | Call.Insert v :: cs, q, n + 1, h => by
    simp only [noReinsert, Bool.and_eq_true] at h
    simp only [List.take_succ_cons, noReinsert, Bool.and_eq_true]
    exact ⟨h.1, noReinsert_take cs _ n h.2⟩
  | Call.Victim :: cs, q, n + 1, h => by
    simp only [noReinsert] at h
    simp only [List.take_succ_cons, noReinsert]
    exact noReinsert_take cs _ n h

/-- C13. For every sequence of `Insert` and `Victim` calls on an initially empty replacer in
which no value is inserted while it is still present, and after every number `n` of these
calls: all calls have returned, each `Victim` call has returned what the FIFO order of the
specification prescribes (false on the empty replacer, otherwise true with the
earliest-inserted value still present, which it removes), `Size()` equals the number of values
present, and when no value is present a further `Victim` call returns false and leaves the
replacer unchanged. -/
theorem Victim_order_FIFO (calls : List (Call T)) (h : noReinsert [] calls = true) (n : Nat) :
    ∃ r, run LRUReplacer.new (calls.take n) = some (r, (fifo [] (calls.take n)).2) ∧
      r.Size = (fifo [] (calls.take n)).1.length ∧
      ((fifo [] (calls.take n)).1 = [] → r.Victim = some (r, none)) := by
  obtain ⟨r, hrun, hr⟩ := Holds.run (calls.take n) Holds.empty (noReinsert_take calls [] n h)
  refine ⟨r, hrun, ?_, ?_⟩
  · obtain ⟨as, -, -, -, -, hsize, -, -⟩ := hr
    exact hsize
  · intro hq
    rw [hq] at hr
    exact hr.Victim_nil

/-- Witness for C13: the scenario of the specification, `Insert(A); Insert(B); Insert(C);
Victim = A; Victim = B; Insert(B); Victim = C; Victim = B`. -/
theorem Victim_order_FIFO_witness :
    noReinsert [] scenarioOrder = true ∧
    (fifo [] (scenarioOrder.take 8)).2 = [some 1, some 2, some 3, some 2] ∧
    (run LRUReplacer.new scenarioOrder).map Prod.snd = some [some 1, some 2, some 3, some 2] ∧
    ∃ r, run LRUReplacer.new (scenarioOrder.take 8) =
        some (r, (fifo [] (scenarioOrder.take 8)).2) ∧
      r.Size = (fifo [] (scenarioOrder.take 8)).1.length ∧
      ((fifo [] (scenarioOrder.take 8)).1 = [] → r.Victim = some (r, none)) :=
  ⟨by decide, by decide, by decide, Victim_order_FIFO scenarioOrder (by decide) 8⟩

/-- C14, evaluated on the code. `Insert(1)` on the empty replacer returns; a second
`Insert(1)` then does not return a value: `Erase` unlinks the only node through its `head`
branch, which leaves `tail` pointing to the deleted node, and `Insert` goes on to write
`tail->next`. With a second value present, re-inserting returns and puts the value last. -/
theorem Insert_sole_value_again :
    ((LRUReplacer.new : LRUReplacer Nat).Insert 1).map (fun r => (r.head, r.tail, r.size)) =
      some (some 0, some 0, 1) ∧
    ((LRUReplacer.new : LRUReplacer Nat).Insert 1).bind (fun r => r.Erase 1) =
      some (⟨none, some 0, 0, [], [none]⟩, true) ∧
    ((LRUReplacer.new : LRUReplacer Nat).Insert 1).bind (fun r => r.Insert 1) = none ∧
    (run LRUReplacer.new [Call.Insert 1, Call.Insert 2, Call.Insert 1, Call.Victim,
      Call.Victim]).map Prod.snd = some [some 2, some 1] := by
  decide

end LRUReplacer

namespace BPlusTreeInternalPage

variable {K : Type}

theorem rd_of_lt (p : BPlusTreeInternalPage K) {i : Int} (h0 : 0 ≤ i)
    (h1 : i.toNat < p.array.length) : p.rd i = some (p.array.get ⟨i.toNat, h1⟩) := by
  unfold rd
  rw [if_neg (by omega), List.getElem?_eq_getElem h1]
  rfl

theorem rd_natCast (p : BPlusTreeInternalPage K) (i : Nat) : p.rd (i : Int) = p.array[i]? := by
  unfold rd
  rw [if_neg (by omega), Int.toNat_natCast]

/-- The loop of `Lookup` ends, and at its end every key in `[1, r]` is at most `key` and every
key in `(r, n)` is above `key`, if this holds for the keys in `[1, l)` and in `(r, n)` at the
start. -/
theorem lookupLoop_spec [LinearOrder K] (comparator : K → K → Int)
    (hc : ∀ a b, comparator a b ≤ 0 ↔ a ≤ b) (p : BPlusTreeInternalPage K) (n : Nat)
    (hlen : n ≤ p.array.length)
    (hsorted : ∀ i j : Nat, 1 ≤ i → i < j → j < n → ∀ a b, p.array[i]? = some a →
      p.array[j]? = some b → comparator a.1 b.1 < 0)
    (key : K) :
    ∀ (fuel : Nat) (l r : Int), 1 ≤ l → l ≤ r + 1 → r < n → (r + 1 - l).toNat < fuel →
      (∀ j : Nat, 1 ≤ j → (j : Int) < l → ∀ a, p.array[j]? = some a → comparator a.1 key ≤ 0) →
      (∀ j : Nat, r < (j : Int) → j < n → ∀ a, p.array[j]? = some a → 0 < comparator a.1 key) →
      ∃ i : Nat, lookupLoop p key comparator fuel l r = some (i : Int) ∧ i < n ∧
        (∀ j : Nat, 1 ≤ j → j ≤ i → ∀ a, p.array[j]? = some a → comparator a.1 key ≤ 0) ∧
        (∀ j : Nat, i < j → j < n → ∀ a, p.array[j]? = some a → 0 < comparator a.1 key) := by
  intro fuel
  induction fuel with
  | zero => intro l r _ _ _ hf; exact absurd hf (Nat.not_lt_zero _)
  | succ fuel ih =>
    intro l r hl hlr hr hf hlo hhi
    by_cases hle : l ≤ r
    · have hm0 : 0 ≤ (l + r) / 2 := by omega
      have hmn : ((l + r) / 2).toNat < n := by omega
      have hml : ((l + r) / 2).toNat < p.array.length := by omega
      have hrd := rd_of_lt p hm0 hml
      have hget : p.array[((l + r) / 2).toNat]? = some (p.array.get ⟨((l + r) / 2).toNat, hml⟩) :=
        List.getElem?_eq_getElem hml
      simp only [lookupLoop, hle, if_true, hrd, Option.some_bind]
      by_cases hcmp : comparator (p.array.get ⟨((l + r) / 2).toNat, hml⟩).1 key ≤ 0
      · rw [if_pos hcmp]
        refine ih _ _ (by omega) (by omega) hr (by omega) ?_ hhi
        intro j hj1 hjm a ha
        by_cases hjeq : j = ((l + r) / 2).toNat
        · subst hjeq
          rw [hget] at ha
          simp only [Option.some.injEq] at ha
          rw [← ha]
          exact hcmp
        · have hlt : j < ((l + r) / 2).toNat := by omega
          have hs := hsorted j _ hj1 hlt hmn a _ ha hget
          rw [hc] at hcmp ⊢
          exact le_trans ((hc _ _).mp (le_of_lt hs)) hcmp
      · rw [if_neg hcmp]
        refine ih _ _ hl (by omega) (by omega) (by omega) hlo ?_
        intro j hjm hjn a ha
        by_cases hjeq : j = ((l + r) / 2).toNat
        · subst hjeq
          rw [hget] at ha
          simp only [Option.some.injEq] at ha
          rw [← ha]
          omega
        · have hlt : ((l + r) / 2).toNat < j := by omega
          have hs := hsorted _ j (by omega) hlt hjn _ a hget ha
          have h1 : ¬ (p.array.get ⟨((l + r) / 2).toNat, hml⟩).1 ≤ key := fun h => hcmp ((hc _ _).mpr h)
          have h2 := (hc _ _).mp (le_of_lt hs)
          have h3 : ¬ a.1 ≤ key := fun h => h1 (le_trans h2 h)
          have h4 : ¬ comparator a.1 key ≤ 0 := fun h => h3 ((hc _ _).mp h)
          omega
    · simp only [lookupLoop, hle, if_false]
      have hr0 : 0 ≤ r := by omega
      refine ⟨r.toNat, by rw [Int.toNat_of_nonneg hr0], by omega, ?_, ?_⟩
      · intro j hj1 hji a ha
        exact hlo j hj1 (by omega) a ha
      · intro j hij hjn a ha
        exact hhi j (by omega) hjn a ha

end BPlusTreeInternalPage

namespace BPlusTreeInternalPage

variable {K : Type}

/-- C15. For every internal page of size `n > 1` (within its buffer) whose keys in slots
`1 .. n-1` are strictly increasing under the comparator, and every search key: `Lookup`
returns the child at a slot `i < n` such that every key in slots `1 .. i` is at most the
search key and every key in slots `i+1 .. n-1` is above it; so `i` is the largest index in
`[1, n-1]` whose key is at most the search key (a key equal to a separator goes to the right
child), and `i = 0` when the search key is below the key of slot 1. -/
theorem Lookup_contract [LinearOrder K] (comparator : K → K → Int)
    (hc : ∀ a b, comparator a b ≤ 0 ↔ a ≤ b) (p : BPlusTreeInternalPage K) (n : Nat)
    (hsize : p.size_ = n) (hn : 1 < n) (hlen : n ≤ p.array.length)
    (hsorted : ∀ i j : Nat, 1 ≤ i → i < j → j < n → ∀ a b, p.array[i]? = some a →
      p.array[j]? = some b → comparator a.1 b.1 < 0)
    (key : K) :
    ∃ (i : Nat) (m : K × Int), i < n ∧ p.array[i]? = some m ∧
      p.Lookup key comparator = some m.2 ∧
      (∀ j : Nat, 1 ≤ j → j ≤ i → ∀ a, p.array[j]? = some a → comparator a.1 key ≤ 0) ∧
      (∀ j : Nat, i < j → j < n → ∀ a, p.array[j]? = some a → 0 < comparator a.1 key) := by
  obtain ⟨i, hloop, hin, hlo, hhi⟩ := lookupLoop_spec comparator hc p n hlen hsorted key n 1
    ((n : Int) - 1) (le_refl _) (by omega) (by omega) (by omega)
    (fun j hj1 hj => by omega) (fun j hj hjn => by omega)
  have hil : i < p.array.length := by omega
  refine ⟨i, p.array.get ⟨i, hil⟩, hin, List.getElem?_eq_getElem hil, ?_, hlo, hhi⟩
  have hgs : p.GetSize > 1 := by
    show p.size_ > 1
    omega
  unfold Lookup
  rw [if_pos hgs]
  show ((lookupLoop p key comparator p.size_.toNat 1 (p.size_ - 1)).bind _) = _
  rw [hsize, Int.toNat_natCast, hloop, Option.some_bind, rd_natCast, List.getElem?_eq_getElem hil]
  rfl

theorem intComparator_le (a b : Int) : intComparator a b ≤ 0 ↔ a ≤ b := by
  unfold intComparator
  split_ifs <;> omega

theorem scenarioPage_sorted : ∀ i j : Nat, 1 ≤ i → i < j → j < 4 → ∀ a b,
    scenarioPage.array[i]? = some a → scenarioPage.array[j]? = some b →
    intComparator a.1 b.1 < 0 := by
  intro i j hi hij hj a b ha hb
  have hj' : j = 2 ∨ j = 3 := by omega
  rcases hj' with rfl | rfl
  · have : i = 1 := by omega
    subst this
    simp only [scenarioPage] at ha hb
    cases ha; cases hb; decide
  · have : i = 1 ∨ i = 2 := by omega
    rcases this with rfl | rfl
    · simp only [scenarioPage] at ha hb
      cases ha; cases hb; decide
    · simp only [scenarioPage] at ha hb
      cases ha; cases hb; decide

/-- Witness for C15: keys `[_, 10, 20, 30]` with children `[100, 101, 102, 103]`:
`Lookup(10) = 101`, `Lookup(15) = 101`, `Lookup(20) = 102`, `Lookup(35) = 103`,
`Lookup(5) = 100`. -/
theorem Lookup_contract_witness :
    [scenarioPage.Lookup 10 intComparator, scenarioPage.Lookup 15 intComparator,
      scenarioPage.Lookup 20 intComparator, scenarioPage.Lookup 35 intComparator,
      scenarioPage.Lookup 5 intComparator] = [some 101, some 101, some 102, some 103, some 100] ∧
    ∃ (i : Nat) (m : Int × Int), i < 4 ∧ scenarioPage.array[i]? = some m ∧
      scenarioPage.Lookup 20 intComparator = some m.2 ∧
      (∀ j : Nat, 1 ≤ j → j ≤ i → ∀ a, scenarioPage.array[j]? = some a →
        intComparator a.1 20 ≤ 0) ∧
      (∀ j : Nat, i < j → j < 4 → ∀ a, scenarioPage.array[j]? = some a →
        0 < intComparator a.1 20) :=
  ⟨by decide, Lookup_contract intComparator intComparator_le scenarioPage 4 rfl (by decide)
    (by decide) scenarioPage_sorted 20⟩

end BPlusTreeInternalPage

namespace BPlusTreeInternalPage

variable {K : Type}

theorem wr_of_lt (p : BPlusTreeInternalPage K) {i : Nat} (h : i < p.array.length) (m : K × Int) :
    p.wr (i : Int) m = some { p with array := p.array.set i m } := by
  unfold wr
  rw [Int.toNat_natCast, if_pos ⟨by omega, h⟩]

/-- The loop of `ValueIndex` returns the first slot at or after its start that holds
`value`. -/
theorem valueIndexLoop_first (p : BPlusTreeInternalPage K) (value : Int) (i : Nat)
    (hlen : i < p.array.length) (m : K × Int) (hm : p.array[i]? = some m) (hv : m.2 = value) :
    ∀ (cnt k : Nat), k ≤ i → i < k + cnt →
      (∀ j, k ≤ j → j < i → ∀ a, p.array[j]? = some a → a.2 ≠ value) →
      valueIndexLoop p value cnt (k : Int) = some (i : Int) := by
  intro cnt
  induction cnt with
  | zero => intro k h1 h2; omega
  | succ cnt ih =>
    intro k h1 h2 hne
    by_cases hk : k = i
    · subst hk
      simp only [valueIndexLoop, rd_natCast, hm, Option.some_bind, hv, if_true]
    · have hkl : k < p.array.length := by omega
      have hget : p.array[k]? = some (p.array.get ⟨k, hkl⟩) := List.getElem?_eq_getElem hkl
      have hnv := hne k (le_refl _) (by omega) _ hget
      simp only [valueIndexLoop, rd_natCast, hget, Option.some_bind, hnv, if_false]
      have := ih (k + 1) (by omega) (by omega) (fun j hj1 hj2 => hne j (by omega) hj2)
      rw [Nat.cast_add, Nat.cast_one] at this
      exact this

/-- The loop `array[i + 1] = array[i]` for `i` from `lo + cnt - 1` down to `lo`: the slots
`lo + 1 .. lo + cnt` receive the former contents of the slots `lo .. lo + cnt - 1`. -/
theorem moveSlots_right : ∀ (cnt : Nat) (p : BPlusTreeInternalPage K) (i : Int) (lo : Nat),
    i + 1 = lo + cnt → lo + cnt < p.array.length →
    ∃ arr, moveSlots (fun i => i + 1) (fun i => i) (-1) cnt i p = some { p with array := arr } ∧
      arr.length = p.array.length ∧
      ∀ j, arr[j]? = if lo < j ∧ j ≤ lo + cnt then p.array[j - 1]? else p.array[j]? := by
  intro cnt
  induction cnt with
  | zero =>
    intro p i lo _ _
    refine ⟨p.array, rfl, rfl, ?_⟩
    intro j
    rw [if_neg (by omega)]
  | succ cnt ih =>
    intro p i lo hi hlen
    have hi' : i = ((lo + cnt : Nat) : Int) := by push_cast; omega
    subst hi'
    have h1 : lo + cnt < p.array.length := by omega
    have hget : p.array[lo + cnt]? = some (p.array.get ⟨lo + cnt, h1⟩) :=
      List.getElem?_eq_getElem h1
    have hw : (((lo + cnt : Nat) : Int) + 1) = ((lo + cnt + 1 : Nat) : Int) := by push_cast; rfl
    obtain ⟨arr, harr, hl, hj⟩ := ih
      ({ p with array := p.array.set (lo + cnt + 1) (p.array.get ⟨lo + cnt, h1⟩) })
      (((lo + cnt : Nat) : Int) + -1) lo (by push_cast; omega)
      (by simp only [List.length_set]; omega)
    refine ⟨arr, ?_, by simpa using hl, ?_⟩
    · simp only [moveSlots, rd_natCast, hget, Option.some_bind]
      rw [hw, wr_of_lt p (by omega), Option.some_bind]
      exact harr
    · intro j
      rw [hj j]
      dsimp only
      by_cases hc1 : lo < j ∧ j ≤ lo + cnt
      · rw [if_pos hc1, if_pos (by omega), List.getElem?_set_ne (by omega)]
      · rw [if_neg hc1]
        by_cases hc2 : j = lo + cnt + 1
        · subst hc2
          rw [if_pos (by omega), List.getElem?_set_self (by omega)]
          simp only [Nat.add_sub_cancel]
          exact hget.symm
        · rw [if_neg (by omega), List.getElem?_set_ne (fun e => hc2 e.symm)]

end BPlusTreeInternalPage

namespace BPlusTreeInternalPage

variable {K : Type}

/-- `InsertNodeAfter` on a page of size `n` with room for one more slot, when `old_value`
first occurs at slot `i`: the resulting array. -/
theorem InsertNodeAfter_eq (p : BPlusTreeInternalPage K) (n i : Nat) (old_value : Int)
    (new_key : K) (new_value : Int) (hsize : p.size_ = n) (hn : 1 < n)
    (hroom : n < p.array.length) (hi : i < n) (m : K × Int) (hm : p.array[i]? = some m)
    (hold : m.2 = old_value)
    (hfirst : ∀ j, j < i → ∀ a, p.array[j]? = some a → a.2 ≠ old_value) :
    ∃ arr, p.InsertNodeAfter old_value new_key new_value =
        some ({ p with array := arr, size_ := (n : Int) + 1 }, (n : Int) + 1) ∧
      ∀ j, arr[j]? = if j = i + 1 then some (new_key, new_value)
        else if i + 1 < j ∧ j ≤ n then p.array[j - 1]? else p.array[j]? := by
  have hgs : p.GetSize > 1 := by
    show p.size_ > 1
    omega
  have hvi : p.ValueIndex old_value = some (i : Int) := by
    unfold ValueIndex
    rw [if_pos hgs]
    show valueIndexLoop p old_value p.size_.toNat 0 = _
    rw [hsize, Int.toNat_natCast]
    exact valueIndexLoop_first p old_value i (by omega) m hm hold n 0 (Nat.zero_le _) (by omega)
      (fun j _ hj => hfirst j hj)
  obtain ⟨arr, harr, hl, hj⟩ := moveSlots_right (n - 1 - i) p ((n : Int) - 1) (i + 1)
    (by omega) (by omega)
  have hcnt : (p.GetSize - 1 - (i : Int)).toNat = n - 1 - i := by
    show (p.size_ - 1 - (i : Int)).toNat = _
    omega
  have hw : ((i : Int) + 1) = ((i + 1 : Nat) : Int) := by push_cast; rfl
  refine ⟨arr.set (i + 1) (new_key, new_value), ?_, ?_⟩
  · unfold InsertNodeAfter
    rw [if_pos hgs, hvi, Option.some_bind, hcnt]
    show ((moveSlots _ _ _ _ (p.size_ - 1) p).bind _) = _
    rw [hsize, harr, Option.some_bind, hw, wr_of_lt _ (by show i + 1 < arr.length; omega),
      Option.map_some']
    simp only [IncreaseSize, GetSize, hsize]
  · intro j
    by_cases hji : j = i + 1
    · subst hji
      rw [if_pos rfl, List.getElem?_set_self (by omega)]
    · rw [if_neg hji, List.getElem?_set_ne (fun e => hji e.symm), hj j]
      by_cases hc : i + 1 < j ∧ j ≤ n
      · rw [if_pos hc, if_pos (by omega)]
      · rw [if_neg hc, if_neg (by omega)]

end BPlusTreeInternalPage

namespace BPlusTreeInternalPage

variable {K : Type}

/-- C16. `InsertNodeAfter(old_value, new_key, new_value)` on an internal page of size `n > 1`
below its maximum size (the number of slots of its buffer), in which `old_value` first occurs
as a child at slot `i`: the call returns `n + 1`, the size is `n + 1`, the slots `0 .. i` are
unchanged, slot `i + 1` holds `(new_key, new_value)`, and slot `j + 1` holds the former slot
`j` for every `j` in `i+1 .. n-1`. If in addition the keys in slots `1 .. n-1` were strictly
increasing under the comparator and `key[i] < new_key < key[i+1]` (where those slots hold
keys), the keys in slots `1 .. n` are strictly increasing afterwards. -/
theorem InsertNodeAfter_contract [LinearOrder K] (comparator : K → K → Int)
    (hc : ∀ a b, comparator a b < 0 ↔ a < b)
    (p : BPlusTreeInternalPage K) (n i : Nat) (old_value : Int) (new_key : K) (new_value : Int)
    (hsize : p.size_ = n) (hn : 1 < n) (hmax : p.max_size_ = p.array.length)
    (hroom : (n : Int) < p.max_size_) (hi : i < n) (m : K × Int) (hm : p.array[i]? = some m)
    (hold : m.2 = old_value)
    (hfirst : ∀ j, j < i → ∀ a, p.array[j]? = some a → a.2 ≠ old_value) :
    ∃ q, p.InsertNodeAfter old_value new_key new_value = some (q, (n : Int) + 1) ∧
      q.size_ = (n : Int) + 1 ∧
      (∀ j, j ≤ i → q.array[j]? = p.array[j]?) ∧
      q.array[i + 1]? = some (new_key, new_value) ∧
      (∀ j, i + 1 ≤ j → j < n → q.array[j + 1]? = p.array[j]?) ∧
      ((∀ x y : Nat, 1 ≤ x → x < y → y < n → ∀ a b, p.array[x]? = some a →
          p.array[y]? = some b → comparator a.1 b.1 < 0) →
        (1 ≤ i → comparator m.1 new_key < 0) →
        (∀ b, i + 1 < n → p.array[i + 1]? = some b → comparator new_key b.1 < 0) →
        ∀ x y : Nat, 1 ≤ x → x < y → y < n + 1 → ∀ a b, q.array[x]? = some a →
          q.array[y]? = some b → comparator a.1 b.1 < 0) := by
  have hroom' : n < p.array.length := by omega
  obtain ⟨arr, heq, hj⟩ := InsertNodeAfter_eq p n i old_value new_key new_value hsize hn hroom'
    hi m hm hold hfirst
  have hold_le : ∀ j, j ≤ i → arr[j]? = p.array[j]? := by
    intro j hji
    rw [hj j, if_neg (by omega), if_neg (by omega)]
  have hnew : arr[i + 1]? = some (new_key, new_value) := by
    rw [hj (i + 1), if_pos rfl]
  have hshift : ∀ j, i + 1 ≤ j → j < n → arr[j + 1]? = p.array[j]? := by
    intro j h1 h2
    rw [hj (j + 1), if_neg (by omega), if_pos (by omega), Nat.add_sub_cancel]
  refine ⟨_, heq, rfl, hold_le, hnew, hshift, ?_⟩
  intro hs hlo hhi x y hx hxy hy a b ha hb
  show comparator a.1 b.1 < 0
  have ha' : arr[x]? = some a := ha
  have hb' : arr[y]? = some b := hb
  have htrans : ∀ u v w : K, comparator u v < 0 → comparator v w < 0 → comparator u w < 0 :=
    fun u v w h1 h2 => (hc _ _).mpr (lt_trans ((hc _ _).mp h1) ((hc _ _).mp h2))
  have hget : ∀ z (hz : z < n), p.array[z]? = some (p.array.get ⟨z, by omega⟩) :=
    fun z hz => List.getElem?_eq_getElem (by omega)
  rcases Nat.lt_trichotomy y (i + 1) with hyi | hyi | hyi
  · rw [hold_le y (by omega)] at hb'
    rw [hold_le x (by omega)] at ha'
    exact hs x y hx hxy (by omega) a b ha' hb'
  · subst hyi
    rw [hnew] at hb'
    simp only [Option.some.injEq] at hb'
    rw [hold_le x (by omega)] at ha'
    rw [← hb']
    by_cases hxi : x = i
    · subst hxi
      rw [hm] at ha'
      simp only [Option.some.injEq] at ha'
      rw [← ha']
      exact hlo hx
    · exact htrans _ _ _ (hs x i hx (by omega) hi a m ha' hm) (hlo (by omega))
  · obtain ⟨y', rfl⟩ : ∃ y', y = y' + 1 := ⟨y - 1, by omega⟩
    rw [hshift y' (by omega) (by omega)] at hb'
    rcases Nat.lt_trichotomy x (i + 1) with hxi | hxi | hxi
    · rw [hold_le x (by omega)] at ha'
      exact hs x y' hx (by omega) (by omega) a b ha' hb'
    · subst hxi
      rw [hnew] at ha'
      simp only [Option.some.injEq] at ha'
      rw [← ha']
      by_cases hy' : y' = i + 1
      · subst hy'
        exact hhi b (by omega) hb'
      · exact htrans _ _ _ (hhi _ (by omega) (hget (i + 1) (by omega)))
          (hs (i + 1) y' (by omega) (by omega) (by omega) _ b (hget (i + 1) (by omega)) hb')
    · obtain ⟨x', rfl⟩ : ∃ x', x = x' + 1 := ⟨x - 1, by omega⟩
      rw [hshift x' (by omega) (by omega)] at ha'
      exact hs x' y' (by omega) (by omega) (by omega) a b ha' hb'

theorem intComparator_lt (a b : Int) : intComparator a b < 0 ↔ a < b := by
  unfold intComparator
  split_ifs <;> omega

/-- Witness for C16: on the page with keys `[_, 10, 20, 30]` and children
`[100, 101, 102, 103]`, `InsertNodeAfter(101, 15, 555)` returns 5 and leaves the mappings
`[(_, 100), (10, 101), (15, 555), (20, 102), (30, 103)]`. -/
theorem InsertNodeAfter_contract_witness :
    (scenarioPage.InsertNodeAfter 101 15 555).map (fun r => (r.1.array.take 5, r.1.size_, r.2)) =
      some ([(0, 100), (10, 101), (15, 555), (20, 102), (30, 103)], 5, 5) ∧
    ∃ q, scenarioPage.InsertNodeAfter 101 15 555 = some (q, ((4 : Nat) : Int) + 1) ∧
      q.size_ = ((4 : Nat) : Int) + 1 ∧
      (∀ j, j ≤ 1 → q.array[j]? = scenarioPage.array[j]?) ∧
      q.array[1 + 1]? = some (15, 555) ∧
      (∀ j, 1 + 1 ≤ j → j < 4 → q.array[j + 1]? = scenarioPage.array[j]?) ∧
      ((∀ x y : Nat, 1 ≤ x → x < y → y < 4 → ∀ a b, scenarioPage.array[x]? = some a →
          scenarioPage.array[y]? = some b → intComparator a.1 b.1 < 0) →
        (1 ≤ 1 → intComparator ((10, 101) : Int × Int).1 15 < 0) →
        (∀ b, 1 + 1 < 4 → scenarioPage.array[1 + 1]? = some b → intComparator 15 b.1 < 0) →
        ∀ x y : Nat, 1 ≤ x → x < y → y < 4 + 1 → ∀ a b, q.array[x]? = some a →
          q.array[y]? = some b → intComparator a.1 b.1 < 0) :=
  ⟨by decide, InsertNodeAfter_contract intComparator intComparator_lt scenarioPage 4 1 101 15 555
    rfl (by decide) rfl (by decide) (by decide) (10, 101) rfl rfl
    (fun j hj a ha => by
      have : j = 0 := by omega
      subst this
      simp only [scenarioPage] at ha
      cases ha
      decide)⟩

end BPlusTreeInternalPage

namespace BPlusTreeInternalPage

/-- C17, evaluated on the code. On the page of size 4 with mappings
`[(_, 100), (10, 101), (20, 102), (30, 103)]`, `Remove(1)` leaves size 3 and the mappings
`[(_, 100), (10, 101), (30, 103)]`: slot 1 is still there and the mapping of slot 2 is gone.
The loop starts at `i = index + 1` with the body `array[i] = array[i + 1]`, so it never
writes slot `index`, and its last iteration reads slot `size`. -/
theorem Remove_drops_next_slot :
    (scenarioPage.Remove 1).map (fun q => (q.size_, q.array.take 3)) =
      some (3, [(0, 100), (10, 101), (30, 103)]) ∧
    scenarioPage.array.take 4 = [(0, 100), (10, 101), (20, 102), (30, 103)] := by
  decide

end BPlusTreeInternalPage

@[simp]
theorem next_some {α β : Type} (a : α) (f : α → Option β) : next (some a) f = f a := rfl

@[simp]
theorem next_none {α β : Type} (f : α → Option β) : next none f = none := rfl

theorem next_eq_some {α β : Type} {x : Option α} {f : α → Option β} {b : β}
    (h : next x f = some b) : ∃ a, x = some a ∧ f a = some b := by
  cases x with
  | none => cases h
  | some a => exact ⟨a, rfl, h⟩

namespace TreePool

variable {K : Type}

theorem set_frames_self (pool : TreePool K) (id : Int) (f : TreeFrame K) :
    (pool.set id f).frames id = some f := by
  simp [set]

theorem set_frames_ne (pool : TreePool K) {id i : Int} (f : TreeFrame K) (h : i ≠ id) :
    (pool.set id f).frames i = pool.frames i := by
  simp [set, h]

theorem set_node_self (pool : TreePool K) (id : Int) (f : TreeFrame K) :
    (pool.set id f).node id = some f.node := by
  simp [node, set]

theorem set_node_ne (pool : TreePool K) {id i : Int} (f : TreeFrame K) (h : i ≠ id) :
    (pool.set id f).node i = pool.node i := by
  simp [node, set, h]

theorem node_eq_some {pool : TreePool K} {id : Int} {f : TreeFrame K}
    (h : pool.frames id = some f) : pool.node id = some f.node := by
  simp [node, h]

theorem SameData.refl (a : TreePool K) : SameData a a := fun _ => rfl

theorem SameData.trans {a b c : TreePool K} (h1 : SameData a b) (h2 : SameData b c) :
    SameData a c := fun id => (h2 id).trans (h1 id)

theorem SameData.node {a b : TreePool K} (h : SameData a b) {id : Int}
    {x : BPlusTreeInternalPage K} (hx : a.node id = some x) :
    ∃ y, b.node id = some y ∧ y.core = x.core := by
  have := h id
  rw [hx] at this
  cases hb : b.node id with
  | none => simp [hb] at this
  | some y =>
    rw [hb] at this
    simp only [Option.map_some', Option.some.injEq] at this
    exact ⟨y, rfl, this⟩

theorem SameData.frames {a b : TreePool K} (h : SameData a b) {id : Int}
    (hx : (a.frames id).isSome = true) : ∃ f, b.frames id = some f := by
  obtain ⟨f0, hf0⟩ := Option.isSome_iff_exists.mp hx
  obtain ⟨y, hy, -⟩ := h.node (node_eq_some hf0)
  cases hb : b.frames id with
  | none => simp [TreePool.node, hb] at hy
  | some f => exact ⟨f, rfl⟩

/-- Replacing a page by one with the same size, array and page id. -/
theorem SameData.replace {pool : TreePool K} {id : Int} {f g : TreeFrame K}
    (hf : pool.frames id = some f) (hg : g.node.core = f.node.core) :
    SameData pool (pool.set id g) := by
  intro i
  by_cases hi : i = id
  · subst hi
    rw [set_node_self, node_eq_some hf]
    simp [hg]
  · rw [set_node_ne _ _ hi]

theorem SameData.UnpinPage {pool pool1 : TreePool K} {id : Int} {d : Bool}
    (h : pool.UnpinPage id d = some pool1) : SameData pool pool1 := by
  unfold TreePool.UnpinPage at h
  split_ifs at h with h1
  · cases h; exact SameData.refl _
  · cases hf : pool.frames id with
    | none =>
      simp only [hf, Option.some.injEq] at h
      rw [← h]; exact SameData.refl _
    | some f =>
      simp only [hf] at h
      split_ifs at h with h2 h3
      · cases h; exact SameData.refl _
      · obtain ⟨r, -, hr⟩ := Option.map_eq_some'.mp h
        rw [← hr]
        exact SameData.replace hf rfl
      · cases h
        exact SameData.replace hf rfl

theorem SameData.FetchPage {pool pool1 : TreePool K} {id : Int}
    (h : pool.FetchPage id = some pool1) : SameData pool pool1 := by
  unfold TreePool.FetchPage at h
  split_ifs at h with h1
  obtain ⟨f, hf, hr⟩ := Option.map_eq_some'.mp h
  rw [← hr]
  exact SameData.replace hf rfl

theorem SameData.setNode {pool pool1 : TreePool K} {id : Int} {x y : BPlusTreeInternalPage K}
    (hx : pool.node id = some x) (hy : y.core = x.core)
    (h : pool.setNode id y = some pool1) : SameData pool pool1 := by
  unfold TreePool.setNode at h
  obtain ⟨f, hf, hr⟩ := Option.map_eq_some'.mp h
  rw [← hr]
  refine SameData.replace hf ?_
  have : f.node = x := by
    rw [node_eq_some hf] at hx
    exact Option.some.inj hx
  rw [← this] at hy
  exact hy

end TreePool

namespace BPlusTreeInternalPage

variable {K : Type}

theorem core_array {x y : BPlusTreeInternalPage K} (h : y.core = x.core) : y.array = x.array := by
  have : y.core.array = x.core.array := by rw [h]
  exact this

theorem core_size {x y : BPlusTreeInternalPage K} (h : y.core = x.core) : y.size_ = x.size_ := by
  have : y.core.size_ = x.core.size_ := by rw [h]
  exact this

/-- The loop `array[off + i] = items[i]` for `i` from `k` to `k + cnt - 1`. -/
theorem copyItems_spec (items : List (K × Int)) (off : Nat) :
    ∀ (cnt : Nat) (p : BPlusTreeInternalPage K) (k : Nat), k + cnt ≤ items.length →
      off + k + cnt ≤ p.array.length →
      ∃ arr, copyItems items (off : Int) cnt (k : Int) p = some { p with array := arr } ∧
        arr.length = p.array.length ∧
        ∀ j, arr[j]? = if off + k ≤ j ∧ j < off + k + cnt then items[j - off]?
          else p.array[j]? := by
  intro cnt
  induction cnt with
  | zero =>
    intro p k _ _
    refine ⟨p.array, rfl, rfl, ?_⟩
    intro j
    rw [if_neg (by omega)]
  | succ cnt ih =>
    intro p k h1 h2
    have hk : k < items.length := by omega
    have hget : items[k]? = some (items.get ⟨k, hk⟩) := List.getElem?_eq_getElem hk
    obtain ⟨arr, harr, hl, hj⟩ := ih
      ({ p with array := p.array.set (off + k) (items.get ⟨k, hk⟩) }) (k + 1) (by omega)
      (by simp only [List.length_set]; omega)
    have hw : ((off : Int) + (k : Int)) = ((off + k : Nat) : Int) := by push_cast; rfl
    have hk1 : ((k : Int) + 1) = ((k + 1 : Nat) : Int) := by push_cast; rfl
    refine ⟨arr, ?_, by simpa using hl, ?_⟩
    · simp only [copyItems]
      rw [if_neg (by omega), Int.toNat_natCast, hget, Option.some_bind, hw,
        wr_of_lt p (by omega), Option.some_bind, hk1]
      exact harr
    · intro j
      rw [hj j]
      dsimp only
      by_cases hc1 : off + (k + 1) ≤ j ∧ j < off + (k + 1) + cnt
      · rw [if_pos hc1, if_pos (by omega)]
      · rw [if_neg hc1]
        by_cases hc2 : j = off + k
        · subst hc2
          rw [if_pos (by omega), List.getElem?_set_self (by omega), Nat.add_sub_cancel_left]
          exact hget.symm
        · rw [if_neg (by omega), List.getElem?_set_ne (fun e => hc2 e.symm)]

end BPlusTreeInternalPage

namespace BPlusTreeInternalPage

variable {K : Type}

/-- The loop of `MoveHalfTo`, when it returns, changes neither the pages that are in the pool
nor their sizes, arrays and page ids. -/
theorem moveHalfLoop_spec (base : TreePool K) (self recipient : Int) :
    ∀ (cnt : Nat) (i : Int) (pool0 pool1 : TreePool K), base.SameData pool0 →
      moveHalfLoop self recipient cnt i pool0 = some pool1 → base.SameData pool1 := by
  intro cnt
  induction cnt with
  | zero =>
    intro i pool0 pool1 h hl
    simp only [moveHalfLoop, Option.some.injEq] at hl
    exact hl ▸ h
  | succ cnt ih =>
    intro i pool0 pool1 hsd hl
    simp only [moveHalfLoop] at hl
    obtain ⟨this, -, hl⟩ := next_eq_some hl
    obtain ⟨m, -, hl⟩ := next_eq_some hl
    obtain ⟨p1, hp1, hl⟩ := next_eq_some hl
    obtain ⟨bplus, hb, hl⟩ := next_eq_some hl
    obtain ⟨rcp, -, hl⟩ := next_eq_some hl
    obtain ⟨p2, hp2, hl⟩ := next_eq_some hl
    obtain ⟨bplus2, -, hl⟩ := next_eq_some hl
    obtain ⟨p3, hp3, hl⟩ := next_eq_some hl
    exact ih _ _ _ (((hsd.trans (TreePool.SameData.FetchPage hp1)).trans
      (TreePool.SameData.setNode (y := bplus.SetParentPageId rcp.GetPageId) hb rfl hp2)).trans (TreePool.SameData.UnpinPage hp3)) hl

/-- The mappings after `MoveHalfTo`, whenever the call returns: on an internal page of size
`n` (within its buffer) and a recipient page with room for `m = ceil(n/2)` mappings, the
recipient has size `m` and its slots `0 .. m-1` hold the former slots `n-m .. n-1` of this
page in order, this page has size `n - m` and its slots are unchanged, so this page's mappings
followed by the recipient's mappings are the original sequence. -/
theorem MoveHalfTo_mappings (pool pool1 : TreePool K) (self recipient : Int)
    (fs fr : TreeFrame K) (n : Nat) (hself : pool.frames self = some fs)
    (hrec : pool.frames recipient = some fr) (hne : self ≠ recipient)
    (hsize : fs.node.size_ = n) (hlen : n ≤ fs.node.array.length)
    (hrlen : (n + 1) / 2 ≤ fr.node.array.length)
    (hrun : MoveHalfTo pool self recipient = some pool1) :
    ∃ ns nr, pool1.node self = some ns ∧ pool1.node recipient = some nr ∧
      nr.size_ = ((n + 1) / 2 : Nat) ∧
      nr.array.take ((n + 1) / 2) = (fs.node.array.take n).drop (n - (n + 1) / 2) ∧
      ns.size_ = ((n - (n + 1) / 2 : Nat) : Int) ∧ ns.array = fs.node.array ∧
      ns.array.take (n - (n + 1) / 2) ++ nr.array.take ((n + 1) / 2) = fs.node.array.take n := by
  have hm : ((fs.node.GetSize + 1) / 2) = (((n + 1) / 2 : Nat) : Int) := by
    show (fs.node.size_ + 1) / 2 = _
    rw [hsize]
    omega
  have hoff : (fs.node.GetSize - (((n + 1) / 2 : Nat) : Int)) = ((n - (n + 1) / 2 : Nat) : Int) := by
    show fs.node.size_ - _ = _
    rw [hsize]
    omega
  -- the copy into the recipient
  obtain ⟨arr, harr, hal, haj⟩ := copyItems_spec (fs.node.array.drop (n - (n + 1) / 2)) 0
    ((n + 1) / 2) fr.node 0 (by simp only [List.length_drop]; omega) (by omega)
  have hcopy : fr.node.CopyHalfFrom (fs.node.array.drop (n - (n + 1) / 2))
      (((n + 1) / 2 : Nat) : Int) =
      some ({ fr.node with array := arr, size_ := (((n + 1) / 2 : Nat) : Int) }) := by
    unfold CopyHalfFrom
    rw [Int.toNat_natCast]
    have h0 : ((0 : Nat) : Int) = 0 := rfl
    rw [h0] at harr
    rw [harr]
    rfl
  -- the reparenting loop
  have hself1 : (pool.set recipient { fr with node :=
      { fr.node with array := arr, size_ := (((n + 1) / 2 : Nat) : Int) } }).node self =
      some fs.node := by
    rw [TreePool.set_node_ne _ _ hne]
    exact TreePool.node_eq_some hself
  have hcnt : (fs.node.GetSize - ((n - (n + 1) / 2 : Nat) : Int)).toNat = (n + 1) / 2 := by
    show (fs.node.size_ - _).toNat = _
    rw [hsize]
    omega
  unfold MoveHalfTo at hrun
  simp only [TreePool.node_eq_some hself, TreePool.node_eq_some hrec, next_some, hm, hoff]
    at hrun
  rw [if_neg (by omega), Int.toNat_natCast, hcopy] at hrun
  simp only [next_some, TreePool.setNode, hrec, Option.map_some', hself1, hoff, hcnt] at hrun
  obtain ⟨pool2, hloop, hrun⟩ := next_eq_some hrun
  have hsd := moveHalfLoop_spec
    (pool.set recipient { fr with node :=
      { fr.node with array := arr, size_ := (((n + 1) / 2 : Nat) : Int) } })
    self recipient _ _ _ _ (TreePool.SameData.refl _) hloop
  obtain ⟨this2, hthis2, hcore2⟩ := hsd.node hself1
  obtain ⟨nr, hnr, hcorer⟩ := hsd.node (TreePool.set_node_self pool recipient
    { fr with node := { fr.node with array := arr, size_ := (((n + 1) / 2 : Nat) : Int) } })
  obtain ⟨f2, hf2⟩ : ∃ f2, pool2.frames self = some f2 := by
    cases hx : pool2.frames self with
    | none => simp [TreePool.node, hx] at hthis2
    | some f2 => exact ⟨f2, rfl⟩
  simp only [hthis2, next_some, hf2, Option.map_some', Option.some.injEq] at hrun
  have htake : arr.take ((n + 1) / 2) = (fs.node.array.take n).drop (n - (n + 1) / 2) := by
    apply List.ext_getElem?
    intro j
    rw [List.getElem?_take, List.getElem?_drop, List.getElem?_take]
    by_cases hj : j < (n + 1) / 2
    · rw [if_pos hj, if_pos (by omega), haj j, if_pos (by omega), List.getElem?_drop]
      simp
    · rw [if_neg hj, if_neg (by omega)]
  rw [← hrun]
  refine ⟨this2.IncreaseSize (-(((n + 1) / 2 : Nat) : Int)), nr, TreePool.set_node_self _ _ _, ?_,
    ?_, ?_, ?_, ?_, ?_⟩
  · rw [TreePool.set_node_ne _ _ (fun e => hne e.symm)]
    exact hnr
  · rw [core_size hcorer]
  · rw [core_array hcorer]
    exact htake
  · show this2.size_ + -(((n + 1) / 2 : Nat) : Int) = _
    rw [core_size hcore2, hsize]
    omega
  · show this2.array = _
    exact core_array hcore2
  · show this2.array.take _ ++ _ = _
    rw [core_array hcore2, core_array hcorer]
    show _ ++ arr.take _ = _
    rw [htake]
    have : fs.node.array.take (n - (n + 1) / 2) = (fs.node.array.take n).take (n - (n + 1) / 2) := by
      rw [List.take_take, Nat.min_eq_left (Nat.sub_le _ _)]
    rw [this, List.take_append_drop]

/-- C18, evaluated on the code. In the pool `scenarioSoleChild` page 2 holds the mappings
`[(_, 20), (60, 21), (70, 22)]`, page 4 is freshly initialised (size 1 after `Init`), and the
leaf 21, a child of page 2, is resident, unpinned and the only element of the replacer.
`MoveHalfTo` from page 2 to page 4 copies the last two mappings and then, for the moved child
21, calls `FetchPage(21)`, which takes the pin count to 1 and leaves the frame in the
replacer, and `UnpinPage(21, true)`, which takes the pin count back to 0 and calls
`LRUReplacer::Insert` on the only element of the replacer: `Insert` erases the node, which
leaves `tail` dangling, and writes `tail->next`. The call of `MoveHalfTo` has no defined
result. In the pool `scenarioPool`, where the replacer holds other pages as well, the call
returns and leaves the mappings `[(_, 20)]` in page 2 and `[(60, 21), (70, 22)]` in page 4. -/
theorem MoveHalfTo_sole_child_undefined :
    mappings scenarioSoleChild 2 = some (3, [(0, 20), (60, 21), (70, 22)]) ∧
    mappings scenarioSoleChild 4 = some (1, [(0, 0)]) ∧
    pins scenarioSoleChild [2, 4, 21, 22] = [some 1, some 1, some 0, some 1] ∧
    (scenarioSoleChild.replacer_.Size, scenarioSoleChild.replacer_.count 21) = (1, true) ∧
    (scenarioSoleChild.FetchPage 21).map (fun pl => (pins pl [21], pl.replacer_.count 21)) =
      some ([some 1], true) ∧
    ((scenarioSoleChild.FetchPage 21).bind (fun pl => pl.UnpinPage 21 true)).isNone = true ∧
    (MoveHalfTo scenarioSoleChild 2 4).isNone = true ∧
    (MoveHalfTo scenarioPool 2 4).map (fun pl => (mappings pl 2, mappings pl 4)) =
      some (some (1, [(0, 20)]), some (2, [(60, 21), (70, 22)])) := by
  refine ⟨?_, ?_, ?_, ?_, ?_, ?_, ?_, ?_⟩ <;> decide

end BPlusTreeInternalPage

namespace BPlusTreeInternalPage

/-- C19, evaluated on the code. In the scenario pool, `MoveLastToFrontOf` from page 2
(mappings `[(_, 20), (60, 21), (70, 22)]`) to page 3 (mappings `[(_, 30), (40, 31)]`) leaves
page 3 with `[(_, 30), (40, 31), (70, 22)]`: the moved mapping is in the last slot, not in
slot 0. The function calls `CopyLastFrom` where `CopyFirstFrom` shifts the recipient and
writes slot 0. -/
theorem MoveLastToFrontOf_appends :
    mappings scenarioPool 2 = some (3, [(0, 20), (60, 21), (70, 22)]) ∧
    mappings scenarioPool 3 = some (2, [(0, 30), (40, 31)]) ∧
    (MoveLastToFrontOf scenarioPool 2 3 1).bind (fun pl => mappings pl 3) =
      some (3, [(0, 30), (40, 31), (70, 22)]) ∧
    (MoveLastToFrontOf scenarioPool 2 3 1).bind (fun pl => mappings pl 2) =
      some (2, [(0, 20), (60, 21)]) ∧
    ((scenarioPool.node 3).bind (fun r => r.CopyFirstFrom (70, 22))).map
      (fun r => r.array.take 3) = some [(70, 22), (0, 30), (40, 31)] := by
  decide

/-- C20, evaluated on the code. In the scenario pool, `MoveAllTo` from page 2 to page 3 with
`index_in_parent = 1` moves the children 20, 21 and 22 into page 3 (page id 3) and leaves the
parent page id 1 in the header of each of them: the loop calls
`SetParentPageId(index_in_parent)`. `MoveHalfTo`, `MoveFirstToEndOf` and `MoveLastToFrontOf`
store the page id of their recipient in the children they move. -/
theorem MoveAllTo_parent_is_index :
    (MoveAllTo scenarioPool 2 3 1).bind (fun pl => mappings pl 3) =
      some (5, [(0, 30), (40, 31), (50, 20), (60, 21), (70, 22)]) ∧
    (MoveAllTo scenarioPool 2 3 1).bind (fun pl => (pl.node 3).map (fun r => r.GetPageId)) =
      some 3 ∧
    (MoveAllTo scenarioPool 2 3 1).map (fun pl => [parentOf pl 20, parentOf pl 21, parentOf pl 22]) =
      some [some 1, some 1, some 1] ∧
    (MoveHalfTo scenarioPool 2 4).map (fun pl => [parentOf pl 21, parentOf pl 22]) =
      some [some 4, some 4] ∧
    (MoveFirstToEndOf scenarioPool 2 3).map (fun pl => parentOf pl 20) = some (some 3) ∧
    (MoveLastToFrontOf scenarioPool 2 3 1).map (fun pl => parentOf pl 22) = some (some 3) := by
  decide

end BPlusTreeInternalPage

namespace BufferPoolManager

/-- C21, evaluated on the code. In a pool of one frame, after `NewPage`, `UnpinPage(0, false)`
and `FetchPage(0)` the frame is in the page table with pin count 1 and still in the replacer:
`FetchPage` of a resident page does not erase the frame from the replacer. After `NewPage`,
`UnpinPage(0, false)` and `DeletePage(0)` the frame is on the free list and still in the
replacer: `DeletePage` does not erase it from the replacer either. -/
theorem frame_pinned_and_in_replacer :
    scenarioRepinned.map (fun s => frameState s 0 0) = some (false, true, some 1, true) ∧
    scenarioDeleted.map (fun s => frameState s 0 0) = some (true, false, some 0, true) := by
  constructor <;> decide

end BufferPoolManager

namespace BPlusTreeInternalPage

/-- C23, evaluated on the code. In the scenario pool the pages 7 (parent), 2 (this), 3
(recipient) and the children 20, 21, 22 have the pin counts 0, 1, 1, 0, 0, 0.
`MoveFirstToEndOf` from page 2 to page 3 fetches the child 20 and then calls
`UnpinPage(GetPageId(), true)` with the page id of page 2: afterwards child 20 has pin count 1
and page 2 has pin count 0. `MoveLastToFrontOf` does the same with child 22. `MoveHalfTo` and
`MoveAllTo` unpin `bplus->GetPageId()`, the child they fetched, and leave all pin counts as
they were. -/
theorem Move_first_last_unpin_this :
    pins scenarioPool [7, 2, 3, 20, 21, 22] =
      [some 0, some 1, some 1, some 0, some 0, some 0] ∧
    (MoveFirstToEndOf scenarioPool 2 3).map (fun pl => pins pl [7, 2, 3, 20, 21, 22]) =
      some [some 0, some 0, some 1, some 1, some 0, some 0] ∧
    (MoveLastToFrontOf scenarioPool 2 3 1).map (fun pl => pins pl [7, 2, 3, 20, 21, 22]) =
      some [some 0, some 0, some 1, some 0, some 0, some 1] ∧
    (MoveHalfTo scenarioPool 2 4).map (fun pl => pins pl [7, 2, 3, 20, 21, 22]) =
      some [some 0, some 1, some 1, some 0, some 0, some 0] ∧
    (MoveAllTo scenarioPool 2 3 1).map (fun pl => pins pl [7, 2, 3, 20, 21, 22]) =
      some [some 0, some 1, some 1, some 0, some 0, some 0] := by
  decide

end BPlusTreeInternalPage

theorem find?_eraseP_of_ne {α : Type} (p q : α → Bool) (h : ∀ x, p x = true → q x = false)
    (l : List α) : (l.eraseP p).find? q = l.find? q := by
  induction l with
  | nil => rfl
  | cons a l ih =>
    by_cases hp : p a = true
    · rw [List.eraseP_cons_of_pos hp, List.find?_cons_of_neg _ (by rw [h a hp]; simp)]
    · rw [List.eraseP_cons_of_neg hp]
      by_cases hq : q a = true
      · rw [List.find?_cons_of_pos _ hq, List.find?_cons_of_pos _ hq]
      · rw [List.find?_cons_of_neg _ hq, List.find?_cons_of_neg _ hq, ih]

namespace ExtendibleHash

variable {V : Type}

/-- `Remove(key)` does not change what `Find` returns for another key. -/
theorem Remove_Find_other {t : ExtendibleHash V} (hwf : t.WF) {key other : Int}
    (hne : other ≠ key) : (t.Remove key).1.Find other = t.Find other := by
  have hmem := hwf.slot_mem (HashKey_lt t key)
  obtain ⟨h1, -, -⟩ := hwf.2 _ hmem
  have hwf' := hwf.Remove key
  cases hs : scan key (t.slot (t.HashKey key)) with
  | none => simp only [ExtendibleHash.Remove, hs]
  | some i =>
    have hs' := hs
    rw [scan_full _ _ h1] at hs'
    split_ifs at hs' with hlt
    simp only [Option.some.injEq] at hs'
    have hR : t.Remove key =
        (⟨t.bucket_size, t.global_depth, t.bucket.set (t.HashKey key)
          ⟨(t.slot (t.HashKey key)).local_depth, (t.slot (t.HashKey key)).kv.eraseIdx i,
            (t.slot (t.HashKey key)).size - 1⟩⟩, true) := by
      simp only [ExtendibleHash.Remove, hs]
    rw [hR] at hwf' ⊢
    rw [hwf'.Find_eq_find, hwf.Find_eq_find]
    have hk : (⟨t.bucket_size, t.global_depth, t.bucket.set (t.HashKey key)
        ⟨(t.slot (t.HashKey key)).local_depth, (t.slot (t.HashKey key)).kv.eraseIdx i,
          (t.slot (t.HashKey key)).size - 1⟩⟩ : ExtendibleHash V).HashKey other =
        t.HashKey other := by
      rw [HashKey_eq_mod, HashKey_eq_mod t other]
    rw [hk]
    by_cases hh : t.HashKey other = t.HashKey key
    · have hslot : (⟨t.bucket_size, t.global_depth, t.bucket.set (t.HashKey key)
          ⟨(t.slot (t.HashKey key)).local_depth, (t.slot (t.HashKey key)).kv.eraseIdx i,
            (t.slot (t.HashKey key)).size - 1⟩⟩ : ExtendibleHash V).slot (t.HashKey key) =
          ⟨(t.slot (t.HashKey key)).local_depth, (t.slot (t.HashKey key)).kv.eraseIdx i,
            (t.slot (t.HashKey key)).size - 1⟩ := by
        apply slot_of_getElem?
        show (t.bucket.set _ _)[t.HashKey key]? = _
        rw [List.getElem?_set, if_pos rfl, if_pos (by rw [hwf.1]; exact HashKey_lt t key)]
      rw [hh, hslot, ← hs', eraseIdx_findIdx]
      show Option.map Prod.snd (List.find? _ (List.eraseP _ _)) = _
      rw [find?_eraseP_of_ne]
      intro x hx
      have hxk : x.1 = key := by simpa using hx
      simp [hxk, hne.symm]
    · have hslot : (⟨t.bucket_size, t.global_depth, t.bucket.set (t.HashKey key)
          ⟨(t.slot (t.HashKey key)).local_depth, (t.slot (t.HashKey key)).kv.eraseIdx i,
            (t.slot (t.HashKey key)).size - 1⟩⟩ : ExtendibleHash V).slot (t.HashKey other) =
          t.slot (t.HashKey other) := by
        apply slot_of_getElem?
        show (t.bucket.set _ _)[t.HashKey other]? = _
        rw [List.getElem?_set_ne (fun e => hh e.symm)]
        exact hwf.getElem?_slot (HashKey_lt t other)
      rw [hslot]

/-- C22, evaluated on the code. With bucket capacity 1, after `Insert` of the keys 2, 3, 6 the
signature invariant holds; `Insert(1)` then splits the bucket of slot 1, and the table it
leaves has global depth 3 and, in slot 4, a bucket of local depth 2 that holds the key 3,
whose low two bits are 3 where those of 4 are 0. The loop over the directory compares each slot
with `bucket[hashkey]` after it has overwritten that slot, finds the empty new bucket again in
slot 4, and gives slot 4 the other half of the split. -/
theorem signature_broken_by_split :
    (scenarioSignature 3).map signatureOk = some true ∧
    (scenarioSignature 4).map
      (fun t => (t.global_depth, t.GetLocalDepth 4, (t.slot 4).kv, signatureOk t)) =
      some (3, 2, [(3, 103)], false) ∧
    castSizeT 3 % 2 ^ 2 = 3 ∧ 4 % 2 ^ 2 = 0 := by
  decide!

/-- C24, evaluated on the code. With bucket capacity 1, after `Insert` of the keys 0, 11, 4,
5, 8 the call `Find(11)` returns true with 111; `Insert(7, 107)` returns, and `Find(11)`
returns false afterwards. The split of the bucket of slot 7 overwrites slot 7, then finds the
new bucket of slot 7 again in slot 11 (the bucket of key 11) and replaces it by the empty
half of the split. -/
theorem Insert_loses_other_key :
    (scenarioLostKey 5).map (fun t => t.Find 11) = some (some 111) ∧
    (scenarioLostKey 5).bind (fun t => (Insert 8 t 7 107).map (fun t1 => t1.Find 11)) =
      some none ∧
    (scenarioLostKey 6).map (fun t => (t.Find 11, t.Find 7)) = some (none, some 107) := by
  decide!

end ExtendibleHash

namespace ExtendibleHash

variable {V : Type}

theorem stuck_of_not_canPlace {t : ExtendibleHash V} {key : Int}
    (h : ¬ ∃ D, t.CanPlace key D) : t.Stuck key := by
  refine ⟨fun hroom => h ⟨0, Or.inl hroom⟩, ?_⟩
  intro e he j hj
  by_contra hne
  exact h ⟨j + 1, Or.inr ⟨e, he, j, hj, Nat.lt_succ_self j, hne⟩⟩

variable [DecidableEq V]

/-- A pass through the overflow path leaves a stuck key stuck. -/
theorem Stuck.overflow {t : ExtendibleHash V} {key : Int} (hwf : t.WF) (h : t.Stuck key) :
    (t.overflow key).WF ∧ (t.overflow key).Stuck key := by
  obtain ⟨hfull, hbits⟩ := h
  obtain ⟨hwf', hbs, hcases⟩ := overflow_step hwf key hfull
  refine ⟨hwf', ?_⟩
  have hmem := hwf.2 _ (hwf.slot_mem (HashKey_lt t key))
  rcases hcases with ⟨-, -, hslot⟩ | ⟨-, hslot⟩
  · unfold Stuck
    rw [hslot, hbs]
    exact ⟨hfull, hbits⟩
  · have hkeep : keep (castSizeT key) (t.slot (t.HashKey key)).local_depth
        (t.slot (t.HashKey key)).kv = (t.slot (t.HashKey key)).kv := by
      unfold keep
      rw [List.filter_eq_self]
      intro e he
      simpa using hbits e he _ (le_refl _)
    unfold Stuck
    rw [hslot, hbs]
    unfold narrow
    rw [hkeep]
    refine ⟨?_, ?_⟩
    · show ¬ (t.slot (t.HashKey key)).kv.length < t.bucket_size
      omega
    · intro e he j hj
      exact hbits e he j (Nat.le_of_succ_le hj)

/-- `Insert` of a stuck key does not reach the appending branch, whatever the number of calls
allowed. -/
theorem Insert_none_of_stuck : ∀ (fuel : Nat) (t : ExtendibleHash V) (key : Int) (value : V),
    t.WF → t.Stuck key → Insert fuel t key value = none := by
  intro fuel
  induction fuel with
  | zero => intro t key value _ _; rfl
  | succ fuel ih =>
    intro t key value hwf hs
    rcases Insert_full_or hwf key value fuel hs.1 with hstep | hstep
    · rw [hstep]
      obtain ⟨hwf', hs'⟩ := hs.overflow hwf
      exact ih _ key value hwf' hs'
    · exact hstep

/-- C25, evaluated on the code. With bucket capacity 1, `Insert(0, 1)` returns and leaves the
key 0 in the only bucket; `Insert(0, 2)` then never reaches the appending branch: every retry
doubles the directory or splits the bucket, and the entry `(0, 1)` follows the key 0 into the
bucket that the retry looks at, which is full again, until `reserve` throws at global depth
30. -/
theorem Insert_same_key_never_returns :
    Insert 1 (new 1) 0 (1 : Nat) = some ⟨1, 0, [⟨0, [(0, 1)], 1⟩]⟩ ∧
    ¬ ∃ fuel t1, Insert fuel (⟨1, 0, [⟨0, [(0, 1)], 1⟩]⟩ : ExtendibleHash Nat) 0 2 = some t1 := by
  have h1 : Insert 1 (new 1) 0 (1 : Nat) = some ⟨1, 0, [⟨0, [(0, 1)], 1⟩]⟩ := by decide
  refine ⟨h1, ?_⟩
  rintro ⟨fuel, t1, h⟩
  have hr : Reachable 1 (⟨1, 0, [⟨0, [(0, 1)], 1⟩]⟩ : ExtendibleHash Nat) :=
    Reachable.insert 1 0 1 Reachable.init h1
  have hslot : (⟨1, 0, [⟨0, [(0, 1)], 1⟩]⟩ : ExtendibleHash Nat).slot
      ((⟨1, 0, [⟨0, [(0, 1)], 1⟩]⟩ : ExtendibleHash Nat).HashKey 0) = ⟨0, [(0, 1)], 1⟩ := by
    decide
  have hs : (⟨1, 0, [⟨0, [(0, 1)], 1⟩]⟩ : ExtendibleHash Nat).Stuck 0 := by
    unfold Stuck
    rw [hslot]
    refine ⟨by decide, ?_⟩
    intro e he j _
    simp only [List.mem_singleton] at he
    rw [he]
  rw [Insert_none_of_stuck fuel _ 0 2 hr.WF hs] at h
  exact absurd h (by simp)

/-- Allowing one more call does not change the result of an `Insert` that returns. -/
theorem Insert_mono : ∀ (fuel : Nat) (t t1 : ExtendibleHash V) (key : Int) (value : V),
    Insert fuel t key value = some t1 → Insert (fuel + 1) t key value = some t1 := by
  intro fuel
  induction fuel with
  | zero => intro t t1 key value h; simp [Insert] at h
  | succ fuel ih =>
    intro t t1 key value h
    by_cases hroom : (t.slot (t.HashKey key)).size < t.bucket_size
    · rw [Insert_of_room t key value fuel hroom] at h
      rw [Insert_of_room t key value (fuel + 1) hroom]
      exact h
    · cases hg : grow t (t.HashKey key) with
      | none => simp [Insert, hroom, hg] at h
      | some t2 =>
        have h1 : Insert (fuel + 1) t key value =
            Insert fuel (split t2 (t.HashKey key)) key value := by
          simp only [Insert, hroom, if_false, hg]
        have h2 : Insert (fuel + 1 + 1) t key value =
            Insert (fuel + 1) (split t2 (t.HashKey key)) key value := by
          simp only [Insert, hroom, if_false, hg]
        rw [h1] at h
        rw [h2]
        exact ih _ _ key value h

theorem Insert_mono_le {fuel fuel1 : Nat} {t t1 : ExtendibleHash V} {key : Int} {value : V}
    (h : Insert fuel t key value = some t1) (hle : fuel ≤ fuel1) :
    Insert fuel1 t key value = some t1 := by
  induction hle with
  | refl => exact h
  | step _ ih => exact Insert_mono _ t t1 key value ih

/-- C25 (amended). For every table reachable from construction by `Insert` and `Remove`
calls, every key and value and every `D <= 30`: when the global depth is at most `D` and the
bucket the key hashes to has room or holds a key whose hash differs from that of `key` in a
bit at or above the local depth of the bucket and below `D`, the retry recursion of
`Insert(key, value)` reaches the branch that appends the pair within `2 * D + 2` calls, that
is, after at most `2 * D + 1` retries, and leaves a global depth of at most `D`. -/
theorem Insert_terminates {size : Nat} {t : ExtendibleHash V} (hr : Reachable size t)
    (key : Int) (value : V) (D : Nat) (hD30 : D ≤ 30) (hD : t.global_depth ≤ D)
    (hcp : t.CanPlace key D) :
    ∃ t1, t1.global_depth ≤ D ∧
      ∀ fuel, 2 * D + 2 ≤ fuel → Insert fuel t key value = some t1 := by
  rcases hcp with hroom | ⟨e, he, j, hj, hjD, hdiff⟩
  · obtain ⟨t1, h1, h2⟩ := Insert_returns_aux 0 t key value D hD30 hr.WF hD (Or.inl hroom)
    exact ⟨t1, h2, fun fuel hf => Insert_mono_le h1 (by omega)⟩
  · obtain ⟨t1, h1, h2⟩ := Insert_returns_aux (2 * D + 1) t key value D hD30 hr.WF hD
      (Or.inr ⟨e, he, j, hj, hjD, hdiff, by split_ifs <;> omega⟩)
    exact ⟨t1, h2, fun fuel hf => Insert_mono_le h1 hf⟩

/-- Witness for C25: on the reachable table of capacity 2 whose only bucket holds the keys 0
and 1, at global depth 0, key 1 differs from key 2 in bit 0: with `D = 1`, `Insert(2, 12)`
returns within 4 calls (it takes 2), at global depth 1. -/
theorem Insert_terminates_witness :
    Reachable 2 scenarioFullBucket ∧ 1 ≤ 30 ∧ scenarioFullBucket.global_depth ≤ 1 ∧
    scenarioFullBucket.CanPlace 2 1 ∧
    (Insert 2 scenarioFullBucket 2 12).map (fun t => t.global_depth) = some 1 ∧
    ∃ t1, t1.global_depth ≤ 1 ∧
      ∀ fuel, 2 * 1 + 2 ≤ fuel → Insert fuel scenarioFullBucket 2 12 = some t1 :=
  ⟨scenarioFullBucket_reachable, by decide, by decide,
    Or.inr ⟨(1, 11), by decide, 0, by decide, by decide, by decide⟩, by decide,
    Insert_terminates scenarioFullBucket_reachable 2 12 1 (by decide) (by decide)
      (Or.inr ⟨(1, 11), by decide, 0, by decide, by decide, by decide⟩)⟩

end ExtendibleHash

namespace ExtendibleHash

variable {V : Type} [DecidableEq V]

theorem insertMany_reachable {size fuel : Nat} : ∀ (l : List (Int × V)) {t t1 : ExtendibleHash V},
    Reachable size t → insertMany fuel t l = some t1 → Reachable size t1
  | [], t, t1, hr, h => by
    simp only [insertMany, Option.some.injEq] at h
    exact h ▸ hr
  | e :: rest, t, t1, hr, h => by
    simp only [insertMany] at h
    cases hi : Insert fuel t e.1 e.2 with
    | none => simp [hi] at h
    | some t2 =>
      rw [hi, Option.some_bind] at h
      exact insertMany_reachable rest (Reachable.insert fuel e.1 e.2 hr hi) h

theorem scenarioStuck_isSome : scenarioStuck.isSome = true := by decide!

/-- A key that was never inserted can be stuck as well: with bucket capacity 1, after `Insert`
of the keys 2, 7, 6, 1 the table does not hold the key 4, slot 4 holds a bucket of local depth
2 with the key 7, and `Insert(4, 104)` never reaches the appending branch. -/
theorem Insert_stuck_without_duplicate :
    (scenarioStuck.get scenarioStuck_isSome).Find 4 = none ∧
    (scenarioStuck.get scenarioStuck_isSome).slot 4 = ⟨2, [(7, 107)], 1⟩ ∧
    ¬ ∃ fuel t1, Insert fuel (scenarioStuck.get scenarioStuck_isSome) 4 104 = some t1 := by
  have hslot : (scenarioStuck.get scenarioStuck_isSome).slot
      ((scenarioStuck.get scenarioStuck_isSome).HashKey 4) = ⟨2, [(7, 107)], 1⟩ := by decide!
  have hbs : (scenarioStuck.get scenarioStuck_isSome).bucket_size = 1 := by decide!
  refine ⟨by decide!, by decide!, ?_⟩
  rintro ⟨fuel, t1, h⟩
  have hr : Reachable 1 (scenarioStuck.get scenarioStuck_isSome) :=
    insertMany_reachable _ Reachable.init (Option.some_get scenarioStuck_isSome).symm
  have hs : (scenarioStuck.get scenarioStuck_isSome).Stuck 4 := by
    unfold Stuck
    rw [hslot, hbs]
    refine ⟨by decide, ?_⟩
    intro e he j hj
    simp only [List.mem_singleton] at he
    rw [he]
    have h7 : castSizeT 7 = 7 := by decide
    have h4 : castSizeT 4 = 4 := by decide
    obtain ⟨k, rfl⟩ : ∃ k, j = k + 2 := ⟨j - 2, by simp only at hj; omega⟩
    show (castSizeT 7).testBit (k + 2) = (castSizeT 4).testBit (k + 2)
    rw [h7, h4, Nat.testBit_succ, Nat.testBit_succ, Nat.testBit_succ, Nat.testBit_succ]
  rw [Insert_none_of_stuck fuel _ 4 104 hr.WF hs] at h
  exact absurd h (by simp)

end ExtendibleHash

namespace ExtendibleHash

theorem slot_mem_of_lt {V : Type} {t : ExtendibleHash V} {i : Nat} (h : i < t.bucket.length) :
    t.slot i ∈ t.bucket := by
  unfold slot
  rw [List.getD_eq_getElem?_getD, List.getElem?_eq_getElem h]
  exact List.getElem_mem h

end ExtendibleHash

namespace ExtendibleHash

variable {V : Type} [DecidableEq V]

/-- Every bucket of the directory after a pass through the overflow path holds a sublist of
the entries of a bucket of the directory before it. -/
theorem overflow_sublist {t : ExtendibleHash V} (hwf : t.WF) (key : Int) :
    ∀ x ∈ (t.overflow key).bucket, ∃ b ∈ t.bucket, x.kv.Sublist b.kv := by
  have hh := HashKey_lt t key
  have hw : ∀ b ∈ (widen t (t.HashKey key)).bucket, b ∈ t.bucket := by
    intro b hb
    unfold widen at hb
    split_ifs at hb
    · rcases List.mem_append.mp hb with h1 | h1
      · exact h1
      · exact List.mem_of_mem_take h1
    · exact hb
  have hlen : t.HashKey key < (widen t (t.HashKey key)).bucket.length := by
    unfold widen
    split_ifs
    · simp only [List.length_append]
      have := hwf.1
      omega
    · rw [hwf.1]; exact hh
  have hsm : (widen t (t.HashKey key)).slot (t.HashKey key) ∈ t.bucket :=
    hw _ (slot_mem_of_lt hlen)
  intro x hx
  unfold overflow split at hx
  split_ifs at hx with hc
  · rcases rewire_mem _ _ _ _ _ _ x hx with h1 | h1 | h1
    · exact ⟨x, hw x h1, List.Sublist.refl _⟩
    · rw [redistribute_eq _ _ (hwf.2 _ hsm).1 hc.2] at h1
      refine ⟨_, hsm, ?_⟩
      rw [h1]
      exact List.filter_sublist _
    · rw [redistribute_eq _ _ (hwf.2 _ hsm).1 hc.2] at h1
      refine ⟨_, hsm, ?_⟩
      rw [h1]
      exact List.filter_sublist _
  · exact ⟨x, hw x hx, List.Sublist.refl _⟩

end ExtendibleHash

theorem countP_key_le_one {V : Type} {kv : List (Int × V)} (h : (kv.map Prod.fst).Nodup)
    (key : Int) : kv.countP (fun e => e.1 == key) ≤ 1 := by
  have h1 := List.nodup_iff_count_le_one.mp h key
  rw [List.count, List.countP_map] at h1
  exact h1

namespace ExtendibleHash

theorem TableSound.of_new (n size : Nat) : TableSound n (ExtendibleHash.new size) := by
  refine ⟨WF.new size, ?_⟩
  intro b hb
  simp only [ExtendibleHash.new, List.mem_singleton] at hb
  subst hb
  exact ⟨List.nodup_nil, fun e he => absurd he (List.not_mem_nil e)⟩

theorem TableSound.of_sublist {n : Nat} {t t1 : ExtendibleHash Nat} (h : TableSound n t)
    (hwf : t1.WF) (hsub : ∀ x ∈ t1.bucket, ∃ b ∈ t.bucket, x.kv.Sublist b.kv) :
    TableSound n t1 := by
  refine ⟨hwf, ?_⟩
  intro x hx
  obtain ⟨b, hb, hs⟩ := hsub x hx
  obtain ⟨h1, h2⟩ := h.2 b hb
  exact ⟨(hs.map Prod.fst).nodup h1, fun e he => h2 e (hs.subset he)⟩

theorem TableSound.after_Remove {n : Nat} {t : ExtendibleHash Nat} (h : TableSound n t) (key : Int) :
    TableSound n (t.Remove key).1 := by
  refine h.of_sublist (h.1.Remove key) ?_
  intro x hx
  cases hs : scan key (t.slot (t.HashKey key)) with
  | none =>
    simp only [ExtendibleHash.Remove, hs] at hx
    exact ⟨x, hx, List.Sublist.refl _⟩
  | some i =>
    simp only [ExtendibleHash.Remove, hs] at hx
    rcases List.mem_or_eq_of_mem_set hx with h1 | h1
    · exact ⟨x, h1, List.Sublist.refl _⟩
    · refine ⟨_, h.1.slot_mem (HashKey_lt t key), ?_⟩
      rw [h1]
      exact List.eraseIdx_sublist _ _

theorem TableSound.Find_lt {n : Nat} {t : ExtendibleHash Nat} (h : TableSound n t) {key : Int}
    {pp : Nat} (hf : t.Find key = some pp) : pp < n := by
  rw [h.1.Find_eq_find] at hf
  obtain ⟨e, he, rfl⟩ := Option.map_eq_some'.mp hf
  exact (h.2 _ (h.1.slot_mem (HashKey_lt t key))).2 e (List.mem_of_find?_eq_some he)

/-- In a sound table `Remove(key)` leaves no entry for `key`. -/
theorem TableSound.Remove_Find {n : Nat} {t : ExtendibleHash Nat} (h : TableSound n t)
    (key : Int) : (t.Remove key).1.Find key = none := by
  rw [(h.1.Remove_eq key).2, Option.map_eq_none', find?_eraseP_eq_none]
  exact countP_key_le_one (h.2 _ (h.1.slot_mem (HashKey_lt t key))).1 key

/-- `Remove` does not make a key present. -/
theorem Remove_Find_none {V : Type} {t : ExtendibleHash V} (hwf : t.WF) {key other : Int}
    (hf : t.Find other = none) : (t.Remove key).1.Find other = none := by
  by_cases hne : other = key
  · subst hne
    have hs : scan other (t.slot (t.HashKey other)) = none := by
      rw [scan_eq_none _ _ (hwf.2 _ (hwf.slot_mem (HashKey_lt t other))).1]
      exact (hwf.Find_none_iff other).mp hf
    simp only [ExtendibleHash.Remove, hs]
    exact hf
  · rw [Remove_Find_other hwf hne]
    exact hf

theorem TableSound.after_Insert {n : Nat} : ∀ (fuel : Nat) (t t1 : ExtendibleHash Nat) (key : Int)
    (value : Nat), TableSound n t → t.Find key = none → value < n →
    Insert fuel t key value = some t1 → TableSound n t1 := by
  intro fuel
  induction fuel with
  | zero => intro t t1 key value _ _ _ h; simp [ExtendibleHash.Insert] at h
  | succ fuel ih =>
    intro t t1 key value hs hf hv h
    by_cases hroom : (t.slot (t.HashKey key)).size < t.bucket_size
    · rw [Insert_of_room t key value fuel hroom] at h
      simp only [Option.some.injEq] at h
      rw [← h]
      refine ⟨hs.1.Insert_room key value hroom, ?_⟩
      intro x hx
      rcases List.mem_or_eq_of_mem_set hx with h1 | h1
      · exact hs.2 x h1
      · obtain ⟨h2, h3⟩ := hs.2 _ (hs.1.slot_mem (HashKey_lt t key))
        rw [h1]
        refine ⟨?_, ?_⟩
        · simp only [List.map_append, List.map_cons, List.map_nil]
          rw [List.nodup_append]
          refine ⟨h2, List.nodup_singleton _, ?_⟩
          intro a ha hb
          simp only [List.mem_singleton] at hb
          obtain ⟨e, he, hea⟩ := List.mem_map.mp ha
          exact (hs.1.Find_none_iff key).mp hf e he (by rw [hea, hb])
        · intro e he
          rcases List.mem_append.mp he with h4 | h4
          · exact h3 e h4
          · rw [List.mem_singleton.mp h4]; exact hv
    · rcases Insert_full_or hs.1 key value fuel hroom with hstep | hstep
      · rw [hstep] at h
        refine ih _ _ key value ?_ ?_ hv h
        · exact hs.of_sublist (overflow_step hs.1 key hroom).1 (overflow_sublist hs.1 key)
        · rw [overflow_Find hs.1 key hroom]; exact hf
      · rw [hstep] at h
        cases h

end ExtendibleHash

namespace BufferPoolManager

open ExtendibleHash

variable {n : Nat} {s s1 : BufferPoolManager}

theorem Sound.of_new_pool (B n : Nat) (d : DiskManager) : Sound n (BufferPoolManager.new B n d) :=
  ⟨by simp [BufferPoolManager.new], TableSound.of_new n B⟩

theorem Sound.of_same_table (hs : Sound n s) (hl : s1.pages_.length = s.pages_.length)
    (ht : s1.page_table_ = s.page_table_) : Sound n s1 :=
  ⟨hl.trans hs.1, ht ▸ hs.2⟩

theorem Sound.after_evict (hs : Sound n s) (pg : Page) : Sound n (evict s pg) :=
  ⟨hs.1, hs.2.after_Remove pg.page_id_⟩

theorem Sound.after_load (hs : Sound n s) {fuel : Nat} {page_id : Int} {pp : Nat}
    {r : Option Nat} (hf : s.page_table_.Find page_id = none)
    (h : load fuel s page_id pp = some (s1, r)) : Sound n s1 := by
  unfold BufferPoolManager.load at h
  obtain ⟨pt, hpt, h2⟩ := Option.bind_eq_some.mp h
  obtain ⟨pg, hpg, h3⟩ := Option.map_eq_some'.mp h2
  simp only [Prod.mk.injEq] at h3
  have hlt : pp < n := by
    rw [← hs.1]
    by_contra hc
    rw [List.getElem?_eq_none (not_lt.mp hc)] at hpg
    cases hpg
  rw [← h3.1]
  exact ⟨by simp [hs.1], TableSound.after_Insert fuel _ _ page_id pp hs.2 hf hlt hpt⟩

theorem Sound.after_fresh (hs : Sound n s) {fuel : Nat} {pp : Nat} {r : Option (Nat × Int)}
    (hf : s.page_table_.Find s.disk_manager_.next_page_id = none)
    (h : fresh fuel s pp = some (s1, r)) : Sound n s1 := by
  unfold BufferPoolManager.fresh at h
  obtain ⟨pt, hpt, h2⟩ := Option.bind_eq_some.mp h
  obtain ⟨pg, hpg, h3⟩ := Option.map_eq_some'.mp h2
  simp only [Prod.mk.injEq] at h3
  have hlt : pp < n := by
    rw [← hs.1]
    by_contra hc
    rw [List.getElem?_eq_none (not_lt.mp hc)] at hpg
    cases hpg
  rw [← h3.1]
  exact ⟨by simp [hs.1], TableSound.after_Insert fuel _ _ _ pp hs.2 hf hlt hpt⟩

theorem Sound.after_FetchPage (hs : Sound n s) {fuel : Nat} {page_id : Int} {r : Option Nat}
    (h : s.FetchPage fuel page_id = some (s1, r)) : Sound n s1 := by
  unfold BufferPoolManager.FetchPage at h
  split_ifs at h with hid
  · simp only [Option.some.injEq, Prod.mk.injEq] at h
    exact h.1 ▸ hs
  · cases hf : s.page_table_.Find page_id with
    | some pp =>
      simp only [hf] at h
      obtain ⟨pg, -, h3⟩ := Option.map_eq_some'.mp h
      simp only [Prod.mk.injEq] at h3
      rw [← h3.1]
      exact hs.of_same_table (by simp) rfl
    | none =>
      simp only [hf] at h
      cases hfl : s.free_list_ with
      | cons pp rest =>
        simp only [hfl] at h
        have hs1 : Sound n { s with free_list_ := rest } := hs.of_same_table rfl rfl
        exact Sound.after_load hs1 hf h
      | nil =>
        simp only [hfl] at h
        obtain ⟨v, -, h2⟩ := Option.bind_eq_some.mp h
        cases hv : v.2 with
        | none => simp [hv] at h2
        | some pp =>
          simp only [hv] at h2
          obtain ⟨pg, -, h3⟩ := Option.bind_eq_some.mp h2
          split_ifs at h3 with hpin
          · simp only [Option.some.injEq, Prod.mk.injEq] at h3
            rw [← h3.1]
            exact hs.of_same_table rfl rfl
          · have hs1 : Sound n { s with replacer_ := v.1, free_list_ := [] } :=
              hs.of_same_table rfl rfl
            refine Sound.after_load (Sound.after_evict hs1 pg) ?_ h3
            exact Remove_Find_none hs.2.1 hf

theorem Sound.after_NewPage (hs : Sound n s) {fuel : Nat} {r : Option (Nat × Int)}
    (hf : s.page_table_.Find s.disk_manager_.next_page_id = none)
    (h : s.NewPage fuel = some (s1, r)) : Sound n s1 := by
  unfold BufferPoolManager.NewPage at h
  cases hfl : s.free_list_ with
  | cons pp rest =>
    simp only [hfl] at h
    have hs1 : Sound n { s with free_list_ := rest } := hs.of_same_table rfl rfl
    exact Sound.after_fresh hs1 hf h
  | nil =>
    simp only [hfl] at h
    obtain ⟨v, -, h2⟩ := Option.bind_eq_some.mp h
    cases hv : v.2 with
    | none =>
      simp only [hv, Option.some.injEq, Prod.mk.injEq] at h2
      rw [← h2.1]
      exact hs.of_same_table rfl rfl
    | some pp =>
      simp only [hv] at h2
      obtain ⟨pg, -, h3⟩ := Option.bind_eq_some.mp h2
      split_ifs at h3 with hpin
      · simp only [Option.some.injEq, Prod.mk.injEq] at h3
        rw [← h3.1]
        exact hs.of_same_table rfl rfl
      · have hs1 : Sound n { s with replacer_ := v.1, free_list_ := [] } :=
          hs.of_same_table rfl rfl
        refine Sound.after_fresh (Sound.after_evict hs1 pg) ?_ h3
        rw [evict_next_page_id]
        exact Remove_Find_none hs.2.1 hf

theorem Sound.after_UnpinPage (hs : Sound n s) {page_id : Int} {is_dirty : Bool} {r : Bool}
    (h : s.UnpinPage page_id is_dirty = some (s1, r)) : Sound n s1 := by
  unfold BufferPoolManager.UnpinPage at h
  split_ifs at h with hid
  · simp only [Option.some.injEq, Prod.mk.injEq] at h
    exact h.1 ▸ hs
  · cases hf : s.page_table_.Find page_id with
    | none =>
      simp only [hf, Option.some.injEq, Prod.mk.injEq] at h
      exact h.1 ▸ hs
    | some pp =>
      simp only [hf] at h
      obtain ⟨pg, -, h3⟩ := Option.bind_eq_some.mp h
      split_ifs at h3 with hpin h0
      · simp only [Option.some.injEq, Prod.mk.injEq] at h3
        exact h3.1 ▸ hs
      · obtain ⟨r1, -, hr1⟩ := Option.map_eq_some'.mp h3
        simp only [Prod.mk.injEq] at hr1
        rw [← hr1.1]
        exact hs.of_same_table (by simp) rfl
      · simp only [Option.some.injEq, Prod.mk.injEq] at h3
        rw [← h3.1]
        exact hs.of_same_table (by simp) rfl

theorem Sound.after_FlushPage (hs : Sound n s) {page_id : Int} {r : Bool}
    (h : s.FlushPage page_id = some (s1, r)) : Sound n s1 := by
  unfold BufferPoolManager.FlushPage at h
  split_ifs at h with hid
  · simp only [Option.some.injEq, Prod.mk.injEq] at h
    exact h.1 ▸ hs
  · cases hf : s.page_table_.Find page_id with
    | none =>
      simp only [hf, Option.some.injEq, Prod.mk.injEq] at h
      exact h.1 ▸ hs
    | some pp =>
      simp only [hf] at h
      obtain ⟨pg, -, hr1⟩ := Option.map_eq_some'.mp h
      simp only [Prod.mk.injEq] at hr1
      rw [← hr1.1]
      exact hs.of_same_table rfl rfl

theorem Sound.after_DeletePage (hs : Sound n s) {page_id : Int} {r : Bool}
    (h : s.DeletePage page_id = some (s1, r)) : Sound n s1 := by
  unfold BufferPoolManager.DeletePage at h
  split_ifs at h with hid
  · simp only [Option.some.injEq, Prod.mk.injEq] at h
    exact h.1 ▸ hs
  · cases hf : s.page_table_.Find page_id with
    | none =>
      simp only [hf, Option.some.injEq, Prod.mk.injEq] at h
      exact h.1 ▸ hs
    | some pp =>
      simp only [hf] at h
      obtain ⟨pg, -, hr1⟩ := Option.map_eq_some'.mp h
      split_ifs at hr1 with hpin
      · simp only [Prod.mk.injEq] at hr1
        exact hr1.1 ▸ hs
      · simp only [Prod.mk.injEq] at hr1
        rw [← hr1.1]
        exact ⟨by simp [hs.1], hs.2.after_Remove page_id⟩

theorem Sound.after_writeData (hs : Sound n s) {pp : Nat} {data : List Nat}
    (h : s.writeData pp data = some s1) : Sound n s1 := by
  unfold BufferPoolManager.writeData at h
  cases hpg : s.pages_[pp]? with
  | none => simp [hpg] at h
  | some pg =>
    simp only [hpg] at h
    split_ifs at h with hpin
    simp only [Option.some.injEq] at h
    rw [← h]
    exact hs.of_same_table (by simp) rfl

/-- Every reachable state of a pool is sound, whatever `BUCKET_SIZE` and the pool size are. -/
theorem Reachable.sound {B n : Nat} {d : DiskManager} {s : BufferPoolManager}
    (h : Reachable B n d s) : Sound n s := by
  induction h with
  | init => exact Sound.of_new_pool B n d
  | write pp data _ hstep ih => exact ih.after_writeData hstep
  | fetch fuel page_id _ hstep ih => exact ih.after_FetchPage hstep
  | unpin page_id is_dirty _ hstep ih => exact ih.after_UnpinPage hstep
  | flush page_id _ hstep ih => exact ih.after_FlushPage hstep
  | delete page_id _ hstep ih => exact ih.after_DeletePage hstep
  | newPage fuel _ hfresh hstep ih => exact ih.after_NewPage hfresh hstep

/-- C7. `DeletePage(id)` in a state reachable from the construction of a pool, whatever
`BUCKET_SIZE` and the pool size are. If `id` is `INVALID_PAGE_ID` or `id` is resident with pin
count `!= 0`, the call returns false and the state, the disk manager with its record of calls
included, is unchanged. If `id` is valid and not resident, it returns true and the state is
unchanged. If `id` is resident in the frame `pp` with pin count 0, it returns true, `id` is no
longer in the page table, the frame has `page_id_ = INVALID_PAGE_ID`, `pin_count_ = 0`,
`is_dirty_ = false`, `pp` is appended to the free list, and the one disk call issued is
`DeallocatePage(id)`. A resident page always has a frame, so that these cases are all the
cases. -/
theorem DeletePage_contract {B n : Nat} {d : DiskManager} {s : BufferPoolManager}
    (hr : Reachable B n d s) (page_id : Int) :
    DeletePageSpec s page_id := by
  have hs := hr.sound
  refine ⟨?_, ?_, ?_⟩
  · rintro (h | ⟨pp, pg, h1, h2, h3⟩)
    · simp [BufferPoolManager.DeletePage, h]
    · by_cases hid : page_id = INVALID_PAGE_ID
      · simp [BufferPoolManager.DeletePage, hid]
      · simp [BufferPoolManager.DeletePage, hid, h1, h2, h3]
  · intro hid hf
    simp [BufferPoolManager.DeletePage, hid, hf]
  · intro hid pp hf
    have hlt : pp < s.pages_.length := by rw [hs.1]; exact hs.2.Find_lt hf
    refine ⟨s.pages_[pp], by simp [hlt], ?_⟩
    intro hpin
    refine ⟨{ s with
        page_table_ := (s.page_table_.Remove page_id).1,
        pages_ := s.pages_.set pp ⟨s.pages_[pp].data_, INVALID_PAGE_ID, 0, false⟩,
        free_list_ := s.free_list_ ++ [pp],
        disk_manager_ := s.disk_manager_.DeallocatePage page_id }, ?_, ?_, ?_, rfl, rfl⟩
    · simp only [BufferPoolManager.DeletePage, hid, if_false, hf,
        List.getElem?_eq_getElem hlt, Option.map_some', hpin, ne_eq, not_true_eq_false]
    · exact hs.2.Remove_Find page_id
    · simp [hlt]

/-- Witness for C7: the scenario of the specification. After `FetchPage(5)` the page is
pinned and `DeletePage(5)` returns false; after `UnpinPage(5, false)` it returns true. -/
theorem DeletePage_contract_witness :
    ∃ s1 s2, scenarioDelete = some s1 ∧ scenarioDeleteUnpinned = some s2 ∧
      Reachable 50 3 DiskManager.new s1 ∧ Reachable 50 3 DiskManager.new s2 ∧
      DeletePageSpec s1 5 ∧ DeletePageSpec s2 5 ∧
      (s1.DeletePage 5).map Prod.snd = some false ∧
      (s2.DeletePage 5).map Prod.snd = some true :=
  ⟨scenarioDelete.get scenarioDelete_isSome,
    scenarioDeleteUnpinned.get scenarioDeleteUnpinned_isSome,
    (Option.some_get scenarioDelete_isSome).symm,
    (Option.some_get scenarioDeleteUnpinned_isSome).symm,
    reachable_get scenarioDelete_isSome, reachable_get scenarioDeleteUnpinned_isSome,
    DeletePage_contract (reachable_get scenarioDelete_isSome) 5,
    DeletePage_contract (reachable_get scenarioDeleteUnpinned_isSome) 5,
    by decide, by decide⟩

end BufferPoolManager

namespace BufferPoolManager

/-- C4, evaluated on the code. In a pool of one frame, after `NewPage` (page 0),
`UnpinPage(0, false)` and `FetchPage(0)`, page 0 is resident in frame 0 with pin count 1, and
frame 0 is still the only element of the replacer. `UnpinPage(0, false)` then does not return
true: it takes the pin count to 0 and calls `replacer_->Insert(pp)`, which erases the only
node of the list, leaves `tail` pointing to the deleted node and writes `tail->next`; the
call has no defined result. -/
theorem UnpinPage_repinned_undefined :
    scenarioRepinned.map (fun s => (s.page_table_.Find 0, s.pages_.map (fun p => p.pin_count_),
      s.replacer_.Size, s.replacer_.count 0)) = some (some 0, [1], 1, true) ∧
    (scenarioRepinned.bind (fun s => s.UnpinPage 0 false)).map Prod.snd = none := by
  constructor <;> decide

/-- C3, evaluated on the code. With `BUCKET_SIZE = 1`, in a pool of 6 frames after `FetchPage`
of the pages 0, 11, 4, 5, 8, frame 1 holds page 11 with pin count 1 and the page table maps 11
to frame 1. `FetchPage(7)` takes frame 5 from the free list and returns it; frame 1 still
holds page 11 with pin count 1 afterwards, but the page table has no entry for page 11 any
more. With `BUCKET_SIZE = 2`, in a pool of 7 frames after `FetchPage` of the pages 60, 17, 24,
56, 51, 8, the same happens to the pinned page 17 at `FetchPage(39)`. The entry is dropped by
the split loop of `ExtendibleHash::Insert`. -/
theorem pinned_frame_loses_entry :
    scenarioLostFrame.map (fun s => (frameTable s, s.page_table_.Find 11)) =
      some (([(0, 1), (11, 1), (4, 1), (5, 1), (8, 1), (-1, 0)], [5]), some 1) ∧
    scenarioLostFrame.bind (fun s => (s.FetchPage 8 7).map (fun x => (x.2, frameTable x.1))) =
      some (some 5, ([(0, 1), (11, 1), (4, 1), (5, 1), (8, 1), (7, 1)], [])) ∧
    scenarioLostFrame.bind (fun s => (s.FetchPage 8 7).map (fun x =>
      (x.1.page_table_.Find 11, x.1.page_table_.Find 7))) = some (none, some 5) ∧
    scenarioLostFrameTwo.map (fun s => (frameTable s, s.page_table_.Find 17)) =
      some (([(60, 1), (17, 1), (24, 1), (56, 1), (51, 1), (8, 1), (-1, 0)], [6]), some 1) ∧
    scenarioLostFrameTwo.bind (fun s =>
      (s.FetchPage 8 39).map (fun x => (x.2, frameTable x.1))) =
      some (some 6, ([(60, 1), (17, 1), (24, 1), (56, 1), (51, 1), (8, 1), (39, 1)], [])) ∧
    scenarioLostFrameTwo.bind (fun s => (s.FetchPage 8 39).map (fun x =>
      (x.1.page_table_.Find 17, x.1.page_table_.Find 39))) = some (none, some 6) := by
  refine ⟨?_, ?_, ?_, ?_, ?_, ?_⟩ <;> decide!

/-- C2, evaluated on the code. With `BUCKET_SIZE = 1`, in a pool of 4 frames after `FetchPage`
of the pages 6, 7, 1, `UnpinPage(6, false)`, `DeletePage(6)`, `FetchPage(6)`, `FetchPage(2)`,
`UnpinPage(6, false)` and `UnpinPage(2, false)`, the frames hold the pages 2, 7, 1, 6 with pin
counts 0, 1, 1, 0, the free list is empty, the page table maps page 6 to frame 3, and page 0,
the id `AllocatePage` hands out next, is not resident. `NewPage` succeeds: it reuses frame 3,
the head of the replacer, and returns it with the id 0. Afterwards the page table maps 0 to
frame 3, and it still maps 6, the page id frame 3 held before, to frame 0, which holds page 2:
`Remove(6)` has taken the entry of page 6 out of its bucket, and the split loop of
`ExtendibleHash::Insert`, run for the new id, has put a copy of the entry of the first
`FetchPage(6)` back into the slot of key 6. -/
theorem NewPage_leaves_old_id_resident :
    scenarioStaleEntry.map (fun s => (frameTable s, s.page_table_.Find 6, s.page_table_.Find 0)) =
      some (([(2, 0), (7, 1), (1, 1), (6, 0)], []), some 3, none) ∧
    scenarioStaleEntry.map (fun s => s.disk_manager_.next_page_id) = some 0 ∧
    scenarioStaleEntry.bind (fun s => (s.replacer_.Victim).map Prod.snd) = some (some 3) ∧
    scenarioStaleEntry.bind (fun s => (s.NewPage 8).map (fun x => (x.2, frameTable x.1))) =
      some (some (3, 0), ([(2, 0), (7, 1), (1, 1), (0, 1)], [])) ∧
    scenarioStaleEntry.bind (fun s => (s.NewPage 8).map (fun x =>
      (x.1.page_table_.Find 0, x.1.page_table_.Find 6))) = some (some 3, some 0) := by
  refine ⟨?_, ?_, ?_, ?_, ?_⟩ <;> decide!

theorem scenarioNoReturn_isSome : scenarioNoReturn.isSome = true := by decide!

/-- C1, evaluated on the code. With `BUCKET_SIZE = 1`, in a pool of 5 frames after `FetchPage`
of the pages 2, 7, 6, 1, each page is in its frame with pin count 1, frame 4 is on the free
list and page 4 is not resident. `FetchPage(4)` does not return a frame, whatever the number
of calls allowed to `Insert` of the page table: the bucket page 4 hashes to is full, with
local depth 2 and the entry of page 7, whose key agrees with 4 in every bit from bit 2 on, so
that every retry of `Insert` doubles the directory or splits the bucket and finds it full
again, until `reserve` throws at global depth 30. The entry of page 7 is in that bucket
through the split loop of `ExtendibleHash::Insert`. -/
theorem FetchPage_never_returns :
    ∃ s, scenarioNoReturn = some s ∧
      frameTable s = ([(2, 1), (7, 1), (6, 1), (1, 1), (-1, 0)], [4]) ∧
      s.page_table_.Find 4 = none ∧
      s.page_table_.slot (s.page_table_.HashKey 4) = ⟨2, [(7, 1)], 1⟩ ∧
      ∀ fuel, s.FetchPage fuel 4 = none := by
  have hslot : (scenarioNoReturn.get scenarioNoReturn_isSome).page_table_.slot
      ((scenarioNoReturn.get scenarioNoReturn_isSome).page_table_.HashKey 4) =
        ⟨2, [(7, 1)], 1⟩ := by decide!
  have hbs : (scenarioNoReturn.get scenarioNoReturn_isSome).page_table_.bucket_size = 1 := by
    decide!
  have hwf : (scenarioNoReturn.get scenarioNoReturn_isSome).page_table_.WF := by
    unfold ExtendibleHash.WF
    decide!
  have hf : (scenarioNoReturn.get scenarioNoReturn_isSome).page_table_.Find 4 = none := by
    decide!
  have hfl : (scenarioNoReturn.get scenarioNoReturn_isSome).free_list_ = [4] := by decide!
  have hs : (scenarioNoReturn.get scenarioNoReturn_isSome).page_table_.Stuck 4 := by
    unfold ExtendibleHash.Stuck
    rw [hslot, hbs]
    refine ⟨by decide, ?_⟩
    intro e he j hj
    simp only [List.mem_singleton] at he
    rw [he]
    have h7 : castSizeT 7 = 7 := by decide
    have h4 : castSizeT 4 = 4 := by decide
    obtain ⟨k, rfl⟩ : ∃ k, j = k + 2 := ⟨j - 2, by simp only at hj; omega⟩
    show (castSizeT 7).testBit (k + 2) = (castSizeT 4).testBit (k + 2)
    rw [h7, h4, Nat.testBit_succ, Nat.testBit_succ, Nat.testBit_succ, Nat.testBit_succ]
  refine ⟨_, (Option.some_get scenarioNoReturn_isSome).symm, by decide!, hf, hslot, ?_⟩
  intro fuel
  have hid : (4 : Int) ≠ INVALID_PAGE_ID := by decide
  simp only [FetchPage, hid, if_false, hf, hfl, load,
    ExtendibleHash.Insert_none_of_stuck fuel _ 4 4 hwf hs, Option.none_bind]

end BufferPoolManager

end cmudb
